import Mathlib

/-!
Verification of the persistent-memory kernel core (NVDIMM pool manager).

This file is a shallow embedding, in Lean 4, of the code in
`src/kernel/src/vmem.rs`, `src/kernel/src/pmem.rs`,
`src/kernel/src/pmem/table.rs`, `src/kernel/src/pmem/ffi.rs`,
`src/kernel/src/pmem/device.rs` and `src/kernel/src/nfit.rs`.

Machine integers (`u64`, `u32`, `u16`) are modelled as `Nat`; the one place
where unsigned wrap-around is observable on the inputs we reason about
(the `u32` remaining-length counter of the NFIT entry iterator, which is
decremented by an untrusted entry length) is modelled with an explicit
`% 2^32`.  Rust panics (`unwrap`, `assert!`, slice overruns) are modelled
as the `.error ()` outcome of `Except Unit`; `.ok` carries the ordinary
return value together with the mutated state.
-/

namespace BlogOs

/-- `x86_64::align_up(a, k)` for `k > 0`: the least multiple of `k` that is
`≥ a`.  (The Rust function requires `k` to be a power of two and computes
`(a + k - 1) & !(k - 1)`; every call site in the embedded code passes a
constant power of two, for which this arithmetic form is equal.) -/
def alignUp (a k : Nat) : Nat := ((a + k - 1) / k) * k

theorem alignUp_zero (k : Nat) : alignUp 0 k = 0 := by
  unfold alignUp
  cases k with
  | zero => simp
  | succ n => simp [Nat.succ_sub_one, Nat.div_eq_of_lt (Nat.lt_succ_of_le (Nat.le_refl n))]

theorem alignUp_eq_succ (a k : Nat) (ha : 0 < a) :
    alignUp a k = ((a - 1) / k + 1) * k := by
  cases Nat.eq_zero_or_pos k with
  | inl hk => subst hk; simp [alignUp]
  | inr hk =>
    unfold alignUp
    have h1 : a + k - 1 = (a - 1) + k := by omega
    rw [h1, Nat.add_div_right _ hk]

theorem le_alignUp (a k : Nat) (hk : 0 < k) : a ≤ alignUp a k := by
  cases Nat.eq_zero_or_pos a with
  | inl h => subst h; exact Nat.zero_le _
  | inr h =>
    rw [alignUp_eq_succ a k h]
    have h3 : a - 1 < ((a - 1) / k + 1) * k :=
      (Nat.div_lt_iff_lt_mul hk).mp (Nat.lt_succ_self _)
    omega

theorem alignUp_lt_add (a k : Nat) (hk : 0 < k) : alignUp a k < a + k := by
  unfold alignUp
  have h := Nat.div_mul_le_self (a + k - 1) k
  omega

theorem alignUp_mod (a k : Nat) : alignUp a k % k = 0 := by
  unfold alignUp
  exact Nat.mul_mod_left _ _

theorem alignUp_of_aligned (a k : Nat) (hk : 0 < k) (h : a % k = 0) :
    alignUp a k = a := by
  cases Nat.eq_zero_or_pos a with
  | inl h0 => subst h0; exact alignUp_zero k
  | inr h0 =>
    obtain ⟨m, rfl⟩ : ∃ m, a = m * k := ⟨a / k, (Nat.div_mul_cancel (Nat.dvd_of_mod_eq_zero h)).symm⟩
    have hm : 0 < m := by
      rcases Nat.eq_zero_or_pos m with h1 | h1
      · subst h1; simp at h0
      · exact h1
    rw [alignUp_eq_succ _ k h0]
    have hsub : (m - 1) * k = m * k - k := by rw [Nat.sub_mul, Nat.one_mul]
    have hcast : ((m - 1) + 1) * k = m * k := by congr 1; omega
    have hklem : k ≤ m * k := Nat.le_mul_of_pos_left k hm
    have hdiv : (m * k - 1) / k = m - 1 :=
      Nat.div_eq_of_lt_le (by omega) (by rw [hcast]; omega)
    rw [hdiv, hcast]

theorem alignUp_le_of_le_aligned (a c k : Nat) (hk : 0 < k) (hc : c % k = 0)
    (h : a ≤ c) : alignUp a k ≤ c := by
  cases Nat.eq_zero_or_pos a with
  | inl h0 => subst h0; rw [alignUp_zero]; exact Nat.zero_le _
  | inr h0 =>
    obtain ⟨m, rfl⟩ : ∃ m, c = m * k := ⟨c / k, (Nat.div_mul_cancel (Nat.dvd_of_mod_eq_zero hc)).symm⟩
    rw [alignUp_eq_succ _ _ h0]
    have h2 : a - 1 < k * m := by rw [Nat.mul_comm]; omega
    have h1 : (a - 1) / k < m := Nat.div_lt_of_lt_mul h2
    exact Nat.mul_le_mul_right k h1

theorem alignUp_mono (a b k : Nat) (h : a ≤ b) : alignUp a k ≤ alignUp b k := by
  unfold alignUp
  exact Nat.mul_le_mul_right k (Nat.div_le_div_right (by omega))

theorem alignUp_add_aligned (A x k : Nat) (hk : 0 < k) (hA : A % k = 0) :
    alignUp (A + x) k = A + alignUp x k := by
  obtain ⟨m, rfl⟩ : ∃ m, A = m * k := ⟨A / k, (Nat.div_mul_cancel (Nat.dvd_of_mod_eq_zero hA)).symm⟩
  cases Nat.eq_zero_or_pos x with
  | inl h0 =>
    subst h0
    rw [Nat.add_zero, alignUp_zero, Nat.add_zero,
      alignUp_of_aligned _ k hk (Nat.mul_mod_left m k)]
  | inr h0 =>
    rw [alignUp_eq_succ _ k (by omega), alignUp_eq_succ _ k h0]
    have h1 : m * k + x - 1 = (x - 1) + m * k := by omega
    rw [h1, Nat.add_mul_div_right _ _ hk]
    ring

/-! ## BTreeMap model

`alloc::collections::BTreeMap<u64, V>` is modelled as an association list
with strictly increasing keys (`bWF`); iteration order of the list is the
map's ascending-key iteration order.  `bInsert` models both
`map.insert(k, v)` and the `*map.entry(k).or_default() = v` pattern
(insert or overwrite); `bInsertIfAbsent` models `map.entry(k).or_insert(v)`.
-/

abbrev BMap (β : Type) : Type := List (Nat × β)

def bLookup {β : Type} : BMap β → Nat → Option β
  | [], _ => none
  | (k, v) :: rest, key => if key = k then some v else bLookup rest key

def bInsert {β : Type} : BMap β → Nat → β → BMap β
  | [], key, v => [(key, v)]
  | (k, w) :: rest, key, v =>
    if key < k then (key, v) :: (k, w) :: rest
    else if key = k then (key, v) :: rest
    else (k, w) :: bInsert rest key v

def bErase {β : Type} : BMap β → Nat → BMap β
  | [], _ => []
  | (k, w) :: rest, key => if key = k then rest else (k, w) :: bErase rest key

def bInsertIfAbsent {β : Type} (m : BMap β) (key : Nat) (v : β) : BMap β :=
  match bLookup m key with
  | some _ => m
  | none => bInsert m key v

def bWF {β : Type} (m : BMap β) : Prop :=
  List.Pairwise (fun p q => p.1 < q.1) m

instance {β : Type} (m : BMap β) : Decidable (bWF m) := by
  unfold bWF
  exact inferInstance

theorem bWF_nil {β : Type} : bWF ([] : BMap β) := List.Pairwise.nil

theorem bLookup_insert_self {β : Type} (m : BMap β) (k : Nat) (v : β) :
    bLookup (bInsert m k v) k = some v := by
  induction m with
  | nil => simp [bInsert, bLookup]
  | cons p rest ih =>
    obtain ⟨k', w⟩ := p
    unfold bInsert
    by_cases h1 : k < k'
    · simp [h1, bLookup]
    · by_cases h2 : k = k'
      · simp [h1, h2, bLookup]
      · simp only [if_neg h1, if_neg h2, bLookup]
        exact ih

theorem mem_bInsert {β : Type} {m : BMap β} {k : Nat} {v : β} {p : Nat × β}
    (hwf : bWF m) (h : p ∈ bInsert m k v) : p = (k, v) ∨ (p ∈ m ∧ p.1 ≠ k) := by
  induction m with
  | nil => simp [bInsert] at h; left; simp [h]
  | cons q rest ih =>
    obtain ⟨k', w⟩ := q
    have hwf_rest : bWF rest := hwf.tail
    have hhead : ∀ r ∈ rest, k' < r.1 := fun r hr => List.rel_of_pairwise_cons hwf hr
    unfold bInsert at h
    by_cases h1 : k < k'
    · simp only [if_pos h1, List.mem_cons] at h
      rcases h with h | h | h
      · left; exact h
      · right; refine ⟨by simp [h], ?_⟩; subst h; omega
      · right
        refine ⟨List.mem_cons_of_mem _ h, ?_⟩
        have := hhead p h
        omega
    · by_cases h2 : k = k'
      · simp only [if_neg h1, if_pos h2, List.mem_cons] at h
        rcases h with h | h
        · left; exact h
        · right
          refine ⟨List.mem_cons_of_mem _ h, ?_⟩
          have := hhead p h
          omega
      · simp only [if_neg h1, if_neg h2, List.mem_cons] at h
        rcases h with h | h
        · right
          refine ⟨by simp [h], ?_⟩
          subst h; omega
        · rcases ih hwf_rest h with h3 | h3
          · left; exact h3
          · right; exact ⟨List.mem_cons_of_mem _ h3.1, h3.2⟩

theorem bInsert_wf {β : Type} {m : BMap β} (k : Nat) (v : β)
    (hwf : bWF m) : bWF (bInsert m k v) := by
  induction m with
  | nil => simp [bInsert, bWF]
  | cons q rest ih =>
    obtain ⟨k', w⟩ := q
    have hwf_rest : bWF rest := hwf.tail
    have hhead : ∀ r ∈ rest, k' < r.1 := fun r hr => List.rel_of_pairwise_cons hwf hr
    unfold bInsert
    by_cases h1 : k < k'
    · simp only [if_pos h1]
      exact List.Pairwise.cons
        (by
          intro r hr
          simp only [List.mem_cons] at hr
          rcases hr with rfl | hr
          · exact h1
          · have := hhead r hr; omega)
        hwf
    · by_cases h2 : k = k'
      · simp only [if_neg h1, if_pos h2]
        exact List.Pairwise.cons (fun r hr => by have := hhead r hr; omega) hwf_rest
      · simp only [if_neg h1, if_neg h2]
        refine List.Pairwise.cons ?_ (ih hwf_rest)
        intro r hr
        rcases mem_bInsert hwf_rest hr with rfl | h3
        · omega
        · exact hhead r h3.1

theorem mem_bErase {β : Type} {m : BMap β} {k : Nat} {p : Nat × β}
    (h : p ∈ bErase m k) : p ∈ m := by
  induction m with
  | nil => simp [bErase] at h
  | cons q rest ih =>
    obtain ⟨k', w⟩ := q
    unfold bErase at h
    by_cases h1 : k = k'
    · rw [if_pos h1] at h; exact List.mem_cons_of_mem _ h
    · rw [if_neg h1] at h
      simp only [List.mem_cons] at h
      rcases h with h | h
      · simp [h]
      · exact List.mem_cons_of_mem _ (ih h)

theorem bErase_wf {β : Type} {m : BMap β} (k : Nat) (hwf : bWF m) :
    bWF (bErase m k) := by
  induction m with
  | nil => simpa [bErase] using hwf
  | cons q rest ih =>
    obtain ⟨k', w⟩ := q
    have hwf_rest : bWF rest := hwf.tail
    have hhead : ∀ r ∈ rest, k' < r.1 := fun r hr => List.rel_of_pairwise_cons hwf hr
    unfold bErase
    by_cases h1 : k = k'
    · rw [if_pos h1]; exact hwf_rest
    · rw [if_neg h1]
      exact List.Pairwise.cons (fun r hr => hhead r (mem_bErase hr)) (ih hwf_rest)

theorem bLookup_eq_none_iff {β : Type} (m : BMap β) (k : Nat) :
    bLookup m k = none ↔ ∀ p ∈ m, p.1 ≠ k := by
  induction m with
  | nil => simp [bLookup]
  | cons q rest ih =>
    obtain ⟨k', w⟩ := q
    unfold bLookup
    by_cases h1 : k = k'
    · subst h1
      simp only [if_pos rfl]
      constructor
      · intro h; cases h
      · intro h
        exfalso
        exact h (k, w) (List.mem_cons_self _ _) rfl
    · simp only [if_neg h1, List.mem_cons, ih]
      constructor
      · intro h p hp
        rcases hp with rfl | hp
        · simp; omega
        · exact h p hp
      · intro h p hp
        exact h p (Or.inr hp)

theorem bLookup_mem {β : Type} {m : BMap β} {k : Nat} {v : β}
    (h : bLookup m k = some v) : (k, v) ∈ m := by
  induction m with
  | nil => simp [bLookup] at h
  | cons q rest ih =>
    obtain ⟨k', w⟩ := q
    unfold bLookup at h
    by_cases h1 : k = k'
    · rw [if_pos h1] at h
      simp only [Option.some_inj] at h
      subst h1; subst h
      exact List.mem_cons_self _ _
    · rw [if_neg h1] at h
      exact List.mem_cons_of_mem _ (ih h)

theorem bLookup_insertIfAbsent_self {β : Type} (m : BMap β) (k : Nat) (v : β)
    (h : bLookup m k = none) : bLookup (bInsertIfAbsent m k v) k = some v := by
  unfold bInsertIfAbsent
  rw [h]
  exact bLookup_insert_self m k v

theorem mem_bInsertIfAbsent {β : Type} {m : BMap β} {k : Nat} {v : β} {p : Nat × β}
    (hwf : bWF m) (h : p ∈ bInsertIfAbsent m k v) :
    p = (k, v) ∨ p ∈ m := by
  unfold bInsertIfAbsent at h
  cases hl : bLookup m k with
  | some w => rw [hl] at h; right; exact h
  | none =>
    rw [hl] at h
    rcases mem_bInsert hwf h with h1 | h1
    · left; exact h1
    · right; exact h1.1

theorem bInsertIfAbsent_wf {β : Type} {m : BMap β} (k : Nat) (v : β)
    (hwf : bWF m) : bWF (bInsertIfAbsent m k v) := by
  unfold bInsertIfAbsent
  cases hl : bLookup m k with
  | some w => exact hwf
  | none => exact bInsert_wf k v hwf

/-! ## Half-open interval disjointness

`IntDisj a b c d` states that the half-open byte intervals `[a, b)` and
`[c, d)` are disjoint (an empty interval is disjoint from everything).
-/

def IntDisj (a b c d : Nat) : Prop := b ≤ c ∨ d ≤ a ∨ b ≤ a ∨ d ≤ c

instance (a b c d : Nat) : Decidable (IntDisj a b c d) := by
  unfold IntDisj; exact inferInstance

theorem intDisj_iff (a b c d : Nat) :
    IntDisj a b c d ↔ ∀ x, ¬(a ≤ x ∧ x < b ∧ c ≤ x ∧ x < d) := by
  constructor
  · intro h x hx
    rcases h with h | h | h | h <;> omega
  · intro h
    by_contra hc
    unfold IntDisj at hc
    push_neg at hc
    exact h (max a c) (by omega)

theorem intDisj_symm {a b c d : Nat} (h : IntDisj a b c d) : IntDisj c d a b := by
  unfold IntDisj at *
  omega

/-- Disjointness from a target interval is preserved under gluing two
abutting intervals `[a, b)` and `[b, d)` into `[a, d)`. -/
theorem intDisj_glue {a b d g1 g2 : Nat} (h1 : IntDisj a b g1 g2)
    (h2 : IntDisj b d g1 g2) : IntDisj a d g1 g2 := by
  unfold IntDisj at *
  omega

theorem intDisj_mono {a b c d a' b' : Nat} (h : IntDisj a b c d)
    (ha : a ≤ a') (hb : b' ≤ b) : IntDisj a' b' c d := by
  unfold IntDisj at *
  omega

/-! ## Free-range index (`ReserveRegion`, vmem.rs lines 157-228)

The index is a `BTreeMap<u64, u64>` from region size to region start.
`reserve_range` scans entries in ascending-size order (BTreeMap iteration
order) and takes the first fit; `release_range` collects the regions as
`(addr, size)` pairs, sorts them by `addr` (`sort_unstable_by`; its order
on equal addresses is unspecified, modelled by insertion sort), binary
searches for a region containing the released start, inserts on a miss,
coalesces exactly-abutting neighbours and rebuilds the map.
-/

/-- The first-fit scan of `reserve_range`. -/
def findFit (needed align : Nat) : BMap Nat → Option (Nat × Nat)
  | [] => none
  | (sz, ad) :: rest =>
    if needed + (alignUp ad align - ad) ≤ sz then some (sz, ad)
    else findFit needed align rest

/-- `ReserveRegion::reserve_range`.  `.error ()` models the
`assert!(needed_size > 0)` panic; `.ok none` is the no-fit return with the
map untouched. -/
def reserveRange (m : BMap Nat) (needed align : Nat) :
    Except Unit (Option ((Nat × Nat) × BMap Nat)) :=
  if needed = 0 then .error ()
  else
    match findFit needed align m with
    | none => .ok none
    | some (sz, ad) =>
      let al := alignUp ad align
      let pad := al - ad
      let m1 := bErase m sz
      let rem := sz - needed - pad
      let m2 := if 0 < rem then bInsert m1 rem (al + needed) else m1
      let m3 := if al ≠ ad then bInsert m2 pad ad else m2
      .ok (some ((al, al + needed), m3))

/-- The loop of `slice::binary_search_by` (branchless variant of the Rust
standard library): narrows `[base, base + size)` probing `base + size / 2`
until one candidate is left.  The fuel is an upper bound on the iteration
count; `size` strictly decreases each step, so fuel `size` suffices. -/
def bsGo (c : Nat → Ordering) : Nat → Nat → Nat → Nat
  | 0, base, _ => base
  | fuel + 1, base, size =>
    if size ≤ 1 then base
    else
      let half := size / 2
      let mid := base + half
      bsGo c fuel (if c mid = Ordering.gt then base else mid) (size - half)

/-- `slice::binary_search_by` over indices `0..n`: `Sum.inl` is `Ok(i)`,
`Sum.inr` is `Err(insertion_point)`. -/
def binarySearchBy (c : Nat → Ordering) (n : Nat) : Sum Nat Nat :=
  if n = 0 then Sum.inr 0
  else
    let b := bsGo c n 0 n
    match c b with
    | Ordering.eq => Sum.inl b
    | Ordering.lt => Sum.inr (b + 1)
    | Ordering.gt => Sum.inr b

def addrLE (p q : Nat × Nat) : Prop := p.1 ≤ q.1

instance : DecidableRel addrLE := fun p q => inferInstanceAs (Decidable (p.1 ≤ q.1))

instance : IsTotal (Nat × Nat) addrLE := ⟨fun a b => Nat.le_total a.1 b.1⟩

instance : IsTrans (Nat × Nat) addrLE := ⟨fun _ _ _ h1 h2 => Nat.le_trans h1 h2⟩

/-- `Vec::insert(i, a)` (the insertion position is always `≤` the length
at the call site). -/
def insAt {α : Type} : Nat → α → List α → List α
  | 0, a, l => a :: l
  | _ + 1, a, [] => [a]
  | n + 1, a, x :: xs => x :: insAt n a xs

/-- The coalescing fold of `release_range` (vmem.rs lines 216-222) on
`(start, end)` pairs, written as a recursion carrying the fold
accumulator's last element: a piece whose start equals the previous end
extends it, anything else is pushed. -/
def coalGo : Nat × Nat → List (Nat × Nat) → List (Nat × Nat)
  | cur, [] => [cur]
  | cur, y :: ys => if cur.2 = y.1 then coalGo (cur.1, y.2) ys else cur :: coalGo y ys

def coalesce : List (Nat × Nat) → List (Nat × Nat)
  | [] => []
  | x :: xs => coalGo x xs

/-- Rebuilding the size-keyed map from the coalesced `(start, end)` runs
(`*free_regions.entry(end - start).or_default() = start`). -/
def buildMap (runs : List (Nat × Nat)) : BMap Nat :=
  runs.foldl (fun acc q => bInsert acc (q.2 - q.1) q.1) []

/-- The `(addr, size)` region list of `release_range`: the map's entries
swapped and sorted by address. -/
def regionsOf (m : BMap Nat) : List (Nat × Nat) :=
  List.insertionSort addrLE (m.map (fun p => (p.2, p.1)))

/-- The binary-search comparator of `release_range`: `Equal` when region
`j` contains the released start, otherwise the region start compared to
it. -/
def containsCmp (regions : List (Nat × Nat)) (rs : Nat) (j : Nat) : Ordering :=
  let q := regions.getD j (0, 0)
  if q.1 ≤ rs ∧ rs < q.1 + q.2 then Ordering.eq else compare q.1 rs

/-- `ReserveRegion::release_range` for the range `[rs, re)`.  `.error ()`
models the `assert!(region_size > 0)` panic (every call site passes
`offset..offset+len`, so `re < rs` cannot occur). -/
def releaseRange (m : BMap Nat) (rs re : Nat) : Except Unit (Bool × BMap Nat) :=
  if re ≤ rs then .error ()
  else
    match binarySearchBy (containsCmp (regionsOf m) rs) (regionsOf m).length with
    | Sum.inl _ => .ok (false, m)
    | Sum.inr i =>
      .ok (true, buildMap (coalesce
        ((insAt i (rs, re - rs) (regionsOf m)).map (fun q => (q.1, q.1 + q.2)))))

/-! ## Virtual-memory manager (vmem.rs lines 22-155)

Only the parts of `Manager` reachable from the claims are embedded: the
free-range index state and the page-table mappings installed by
`map_page_range` (as a list of `(virtual page start, physical frame
start)` pairs).  `Manager::allocate` reserves, then maps; the
`PhysFrame::from_start_address(phys_start).unwrap()` call panics on a
misaligned physical start, and `Mapper::map_to(..).unwrap()` panics when a
page is already mapped.  (`Page::from_start_address(r.start).unwrap()`
cannot panic: the reserved start is aligned to `S` by construction.)
-/

structure PR where
  start : Nat
  stop : Nat
deriving DecidableEq, Repr

structure VmState where
  free : BMap Nat
  maps : List (Nat × Nat)
deriving DecidableEq, Repr

/-- `Manager::allocate::<S>(phys_start, page_count)` (vmem.rs lines 62-105,
including `reserve_page_range` and `map_page_range`).  Note
`page_count.max(1)`: the maxed count is used both for the reservation size
and for the page range handed to `map_page_range`. -/
def vmAllocate (S : Nat) (st : VmState) (physStart pageCount : Nat) :
    Except Unit (Option PR × VmState) :=
  match reserveRange st.free (alignUp (max pageCount 1 * S) S) S with
  | .error _ => .error ()
  | .ok none => .ok (none, st)
  | .ok (some (r, free')) =>
    if physStart % S ≠ 0 then .error ()
    else if (List.range (max pageCount 1)).any
        (fun i => st.maps.any (fun q => q.1 = r.1 + i * S)) then
      .error ()
    else
      .ok (some ⟨r.1, r.1 + max pageCount 1 * S⟩,
        { free := free',
          maps := st.maps ++ (List.range (max pageCount 1)).map
            (fun i => (r.1 + i * S, physStart + i * S)) })

/-! ## Pool table (pmem/table.rs)

An `Entry` is 46 packed bytes: `u64 offset`, `u64 length`, `[u8; 30]`
NUL-padded name; `ENTRY_COUNT = (4096 - 2) / 46 = 89`.  The entry array is
modelled as a `List Ent` (the Rust array is the length-89 instance; the
full-table check compares the live count against 89 exactly as the source
does).  `entry.name()` reads bytes up to the first NUL. -/

structure Ent where
  offset : Nat
  length : Nat
  name : List Nat
deriving DecidableEq, Repr

def entName (e : Ent) : List Nat := e.name.takeWhile (fun b => b != 0)

def entLive (e : Ent) : Bool := !(entName e).isEmpty

def realLen (e : Ent) : Nat := alignUp e.length 4096

def entFrames (e : Ent) : Nat := realLen e / 4096

def ENTRY_COUNT : Nat := 89

structure TableM where
  ents : List Ent
  free : BMap Nat
deriving DecidableEq, Repr

/-- `Inner::entries()` (table.rs lines 216-223): live entries are
*filtered first and enumerated second*, so the yielded index is the
position among live entries, not the slot index. -/
def liveEntries (t : TableM) : List (Nat × Ent) := (t.ents.filter entLive).enum

/-- Modelled from the spec: `Table::get` is called from pmem.rs
(`pmem.pools.get(index)`) but its definition is absent from the sources
(only callers exist).  Per spec section 4.4, `entries()` yields live
*slots*, so `get` is modelled as the lookup of slot `index`, yielding the
entry when that slot is live. -/
def tableGet (t : TableM) (i : Nat) : Option Ent :=
  match t.ents.get? i with
  | some e => if entLive e then some e else none
  | none => none

/-- The name bytes stored by `Inner::insert`: zero-fill, then copy the
first `min 30 (name.len())` bytes of the argument. -/
def storedName (name : List Nat) : List Nat :=
  name.take 30 ++ List.replicate (30 - min 30 name.length) 0

/-- `Inner::insert` writes into the first empty (non-live) slot; `none`
when every slot is live.  (`Table::allocate` ignores this result.) -/
def insertFirstEmpty : List Ent → Ent → Option (Nat × List Ent)
  | [], _ => none
  | e :: rest, newE =>
    if entLive e then
      match insertFirstEmpty rest newE with
      | none => none
      | some (j, rest') => some (j + 1, e :: rest')
    else some (0, newE :: rest)

/-- `Table::allocate(name, size)` (table.rs lines 99-109). -/
def tableAllocate (t : TableM) (name : List Nat) (size : Nat) :
    Except Unit (Option Nat × TableM) :=
  if 30 < name.length ∨ (t.ents.filter entLive).length = ENTRY_COUNT then
    .ok (none, t)
  else
    match reserveRange t.free (max size 4096) 4096 with
    | .error _ => .error ()
    | .ok none => .ok (none, t)
    | .ok (some (r, free')) =>
      .ok (some r.1,
        ⟨(match insertFirstEmpty t.ents ⟨r.1, size, storedName name⟩ with
          | none => t.ents
          | some (_, l) => l), free'⟩)

def zeroEnt : Ent := ⟨0, 0, List.replicate 30 0⟩

/-- `Table::deallocate(index)` (table.rs lines 111-124); `Inner::remove`
zeroes the slot. -/
def tableDeallocate (t : TableM) (i : Nat) : Except Unit (Bool × TableM) :=
  match t.ents.get? i with
  | none => .ok (false, t)
  | some e =>
    match releaseRange t.free e.offset (e.offset + realLen e) with
    | .error _ => .error ()
    | .ok (false, _) => .ok (false, t)
    | .ok (true, free') => .ok (true, ⟨t.ents.set i zeroEnt, free'⟩)

/-- `Table::reallocate(index, new_size)` (table.rs lines 126-150); note the
entry's stored `length` becomes `needed_size = max(new_size, PAGE_SIZE)`
and the result of releasing the old range is discarded. -/
def tableReallocate (t : TableM) (i : Nat) (newSize : Nat) :
    Except Unit (Bool × TableM) :=
  match t.ents.get? i with
  | none => .ok (false, t)
  | some e =>
    if max newSize 4096 ≤ realLen e then .ok (false, t)
    else
      match reserveRange t.free (max newSize 4096) 4096 with
      | .error _ => .error ()
      | .ok none => .ok (false, t)
      | .ok (some (r, f1)) =>
        match releaseRange f1 e.offset (e.offset + realLen e) with
        | .error _ => .error ()
        | .ok (_, f2) =>
          .ok (true, ⟨t.ents.set i { e with offset := r.1, length := max newSize 4096 }, f2⟩)

/-! ## Persistent-memory manager (pmem.rs)

`Manager` holds the devices with their pool tables and the mapping cache
`translated : BTreeMap<u64, (u32, PageRange)>`, keyed by the pool *offset*
alone (the FIXME comment at pmem.rs line 26 notes that two pools on
different devices may share an offset).  Pool names are byte lists;
`USE_HEAP_INSTEAD_OF_PMEM` is `false`, so only the VMM branches are
embedded. -/

structure Pmem where
  handle : Nat
  phys : Nat
  table : TableM
deriving DecidableEq, Repr

structure PmmState where
  pmems : List Pmem
  translated : BMap (Nat × PR)
  vm : VmState
deriving DecidableEq, Repr

/-- The `entries().find(|entry| entry.name() == name)` step of
`ensure_pool_is_mapped_if_existent`. -/
def findNamed (t : TableM) (n : List Nat) : Option (Nat × Ent) :=
  (liveEntries t).find? (fun q => entName q.2 == n)

/-- The `find_map` walk of `Manager::ensure_pool_is_mapped_if_existent`
(pmem.rs lines 220-270) over a suffix of the device list, threading the
VMM free index and the mapping cache. -/
def ensureGo (n : List Nat) (vm : VmState) (tr : BMap (Nat × PR)) :
    List Pmem → Except Unit (Option (Nat × Nat) × VmState × BMap (Nat × PR))
  | [] => .ok (none, vm, tr)
  | p :: rest =>
    match findNamed p.table n with
    | none => ensureGo n vm tr rest
    | some (i, e) =>
      if (bLookup tr e.offset).isSome then .ok (some (p.handle, i), vm, tr)
      else
        match vmAllocate 4096 vm (p.phys + e.offset) (entFrames e) with
        | .error _ => .error ()
        | .ok (none, vm') => ensureGo n vm' tr rest
        | .ok (some r, vm') =>
          .ok (some (p.handle, i), vm', bInsertIfAbsent tr e.offset (p.handle, r))

def ensureMapped (s : PmmState) (n : List Nat) :
    Except Unit (Option (Nat × Nat) × PmmState) :=
  match ensureGo n s.vm s.translated s.pmems with
  | .error _ => .error ()
  | .ok (res, vm', tr') => .ok (res, { s with vm := vm', translated := tr' })

/-- `Manager::get_pool(name)` (pmem.rs lines 76-87). -/
def getPool (s : PmmState) (n : List Nat) :
    Except Unit (Option (Nat × Nat) × PmmState) :=
  match ensureMapped s n with
  | .error _ => .error ()
  | .ok (none, s1) => .ok (none, s1)
  | .ok (some (h, i), s1) =>
    match s1.pmems.find? (fun p => p.handle == h) with
    | none => .ok (none, s1)
    | some p =>
      match tableGet p.table i with
      | none => .ok (none, s1)
      | some e =>
        match bLookup s1.translated e.offset with
        | none => .ok (none, s1)
        | some (_, r) => .ok (some (r.start, e.length), s1)

/-- The `iter_mut().find_map(|pmem| pmem.pools.allocate(name, size))` walk
of `Manager::create_pool`. -/
def allocLoop (n : List Nat) (sz : Nat) :
    List Pmem → Except Unit (Option Nat × List Pmem)
  | [] => .ok (none, [])
  | p :: rest =>
    match tableAllocate p.table n sz with
    | .error _ => .error ()
    | .ok (some o, t') => .ok (some o, { p with table := t' } :: rest)
    | .ok (none, t') =>
      match allocLoop n sz rest with
      | .error _ => .error ()
      | .ok (res, rest') => .ok (res, { p with table := t' } :: rest')

/-- `Manager::create_pool(name, size)` (pmem.rs lines 65-74); the final
`get_pool(name).unwrap()` panic is `.error ()`. -/
def createPool (s : PmmState) (n : List Nat) (sz : Nat) :
    Except Unit (Option (Nat × Nat) × PmmState) :=
  match getPool s n with
  | .error _ => .error ()
  | .ok (some _, s1) => .ok (none, s1)
  | .ok (none, s1) =>
    match allocLoop n sz s1.pmems with
    | .error _ => .error ()
    | .ok (none, pm2) => .ok (none, { s1 with pmems := pm2 })
    | .ok (some _, pm2) =>
      match getPool { s1 with pmems := pm2 } n with
      | .error _ => .error ()
      | .ok (none, _) => .error ()
      | .ok (some q, s3) => .ok (some q, s3)

/-- The interval of pool-body bytes that the C-ABI `truncate` zero-fills
(ffi.rs lines 103-110): with `new_length` the length returned by
`resize_pool`, namely `max(old_len, length)`, the code zeroes
`buf[length .. new_length]` — the *argument* `length` is the lower bound.
The pair is `(lower, upper)` of the half-open zeroed interval. -/
def truncateZeroedInterval (oldLen lengthArg : Nat) : Nat × Nat :=
  let newLength := max oldLen lengthArg
  (lengthArg, newLength)

/-! ## NFIT entry iterator (nfit.rs lines 60-107)

The table body is a byte list; each entry starts with a packed
`{type: u16, length: u16}` little-endian header.  `next()` advances the
cursor by the declared length and decrements the `u32` remaining length
with wrap-around; types 8..=0xffff are skipped inside the loop.
`nfitEntries` collects the whole iteration (the yielded entries as
`(type, position)` pairs), with explicit fuel: `none` means the given fuel
did not suffice to finish. -/

def UP32 : Nat := 4294967296

def hdrType (bytes : List Nat) (pos : Nat) : Nat :=
  bytes.getD pos 0 + 256 * bytes.getD (pos + 1) 0

def hdrLen (bytes : List Nat) (pos : Nat) : Nat :=
  bytes.getD (pos + 2) 0 + 256 * bytes.getD (pos + 3) 0

def nfitEntries (bytes : List Nat) : Nat → Nat → Nat → Option (List (Nat × Nat))
  | _, remaining, 0 => if remaining = 0 then some [] else none
  | pos, remaining, fuel + 1 =>
    if remaining = 0 then some []
    else
      let ty := hdrType bytes pos
      let len := hdrLen bytes pos
      match nfitEntries bytes (pos + len) ((remaining + (UP32 - len)) % UP32) fuel with
      | none => none
      | some l => some (if ty ≤ 7 then (ty, pos) :: l else l)

/-- The iteration terminates when *some* amount of fuel completes it. -/
def nfitTerminates (bytes : List Nat) (pos remaining : Nat) : Prop :=
  ∃ fuel, (nfitEntries bytes pos remaining fuel).isSome

/-- Well-formed parse of the table body: each entry's declared length is
nonzero and no larger than the remaining length (this is the spec's
"iteration advances by `length` and stops when remaining length is
exhausted" reading, under which the walk is an exact partition).  Yields
the `(position, type, length)` triples of all entries.  Fuel-indexed for
computability; fuel `remaining` always suffices. -/
def nfitParse (bytes : List Nat) : Nat → Nat → Nat → Option (List (Nat × Nat × Nat))
  | _, remaining, 0 => if remaining = 0 then some [] else none
  | pos, remaining, fuel + 1 =>
    if remaining = 0 then some []
    else
      let ty := hdrType bytes pos
      let len := hdrLen bytes pos
      if 0 < len ∧ len ≤ remaining then
        match nfitParse bytes (pos + len) (remaining - len) fuel with
        | none => none
        | some l => some ((pos, ty, len) :: l)
      else none

/-! ## NFIT device derivation (pmem/device.rs lines 67-112)

`get_devices` first indexes SPA-range entries by their index field
(`entry(idx).or_insert`, so the *first* entry with a given index wins),
then folds region-mapping and flush-hint entries into a handle-keyed
device map, and finally sorts the devices by physical address.  A region
mapping whose SPA index has no match still creates/updates its device
(via `entry(handle).or_insert(default)`), leaving `phys_addr`/`size` at
their previous (default `0`) values.  The flush-hint list reads array
indices `1 .. num_of_flush_hint_addresses` (skipping index 0, as the
source does). -/

inductive NfitE where
  | spa (index base length : Nat)
  | mapping (handle physId spaIdx : Nat)
  | flush (handle count : Nat) (addrs : List Nat)
  | other
deriving DecidableEq, Repr

structure Dev where
  handle : Nat
  physId : Nat
  phys : Nat
  size : Nat
  flush : Option (List Nat)
deriving DecidableEq, Repr

def defaultDev : Dev := ⟨0, 0, 0, 0, none⟩

def spasOf (es : List NfitE) : BMap (Nat × Nat) :=
  es.foldl
    (fun m e =>
      match e with
      | .spa i b l => bInsertIfAbsent m i (b, l)
      | _ => m)
    []

def devStep (spas : BMap (Nat × Nat)) (m : BMap Dev) : NfitE → BMap Dev
  | .mapping h pid sidx =>
    let d0 := (bLookup m h).getD defaultDev
    let d1 := { d0 with handle := h, physId := pid }
    let d2 :=
      match bLookup spas sidx with
      | some (b, l) => { d1 with phys := b, size := l }
      | none => d1
    bInsert m h d2
  | .flush h cnt addrs =>
    let d0 := (bLookup m h).getD defaultDev
    bInsert m h { d0 with flush := some ((List.range' 1 (cnt - 1)).map (fun i => addrs.getD i 0)) }
  | _ => m

def devLE (a b : Dev) : Prop := a.phys ≤ b.phys

instance : DecidableRel devLE := fun a b => inferInstanceAs (Decidable (a.phys ≤ b.phys))

def getDevices (es : List NfitE) : List Dev :=
  let spas := spasOf es
  let devs := es.foldl (devStep spas) []
  List.insertionSort devLE (devs.map Prod.snd)

/-! ## Basic facts about the free-range index operations -/

theorem findFit_some {needed align : Nat} : ∀ {m : BMap Nat} {sz ad : Nat},
    findFit needed align m = some (sz, ad) →
    (sz, ad) ∈ m ∧ needed + (alignUp ad align - ad) ≤ sz := by
  intro m
  induction m with
  | nil => intro sz ad h; simp [findFit] at h
  | cons p rest ih =>
    intro sz ad h
    obtain ⟨s0, a0⟩ := p
    unfold findFit at h
    by_cases hf : needed + (alignUp a0 align - a0) ≤ s0
    · rw [if_pos hf] at h
      simp only [Option.some_inj, Prod.mk.injEq] at h
      obtain ⟨rfl, rfl⟩ := h
      exact ⟨List.mem_cons_self _ _, hf⟩
    · rw [if_neg hf] at h
      obtain ⟨h1, h2⟩ := ih h
      exact ⟨List.mem_cons_of_mem _ h1, h2⟩

theorem findFit_none_iff {needed align : Nat} (m : BMap Nat) :
    findFit needed align m = none ↔
      ∀ p ∈ m, p.1 < needed + (alignUp p.2 align - p.2) := by
  induction m with
  | nil => simp [findFit]
  | cons p rest ih =>
    obtain ⟨s0, a0⟩ := p
    unfold findFit
    by_cases hf : needed + (alignUp a0 align - a0) ≤ s0
    · simp only [if_pos hf]
      constructor
      · intro h; cases h
      · intro h
        have := h (s0, a0) (List.mem_cons_self _ _)
        simp at this
        omega
    · simp only [if_neg hf, ih]
      constructor
      · intro h p hp
        rcases List.mem_cons.mp hp with rfl | hp
        · simp; omega
        · exact h p hp
      · intro h p hp
        exact h p (List.mem_cons_of_mem _ hp)

/-- Shape of the map produced by a successful reservation. -/
def reservedMap (m : BMap Nat) (needed align sz ad : Nat) : BMap Nat :=
  let al := alignUp ad align
  let pad := al - ad
  let m1 := bErase m sz
  let m2 := if 0 < sz - needed - pad then bInsert m1 (sz - needed - pad) (al + needed) else m1
  if al ≠ ad then bInsert m2 pad ad else m2

theorem reserveRange_ok_some {m : BMap Nat} {needed align : Nat}
    {r : Nat × Nat} {m' : BMap Nat}
    (h : reserveRange m needed align = .ok (some (r, m'))) :
    needed ≠ 0 ∧ ∃ sz ad, findFit needed align m = some (sz, ad) ∧
      r = (alignUp ad align, alignUp ad align + needed) ∧
      m' = reservedMap m needed align sz ad := by
  unfold reserveRange at h
  by_cases hn : needed = 0
  · rw [if_pos hn] at h; cases h
  · rw [if_neg hn] at h
    refine ⟨hn, ?_⟩
    cases hff : findFit needed align m with
    | none => rw [hff] at h; cases h
    | some q =>
      obtain ⟨sz, ad⟩ := q
      rw [hff] at h
      simp only [Except.ok.injEq, Option.some_inj, Prod.mk.injEq] at h
      exact ⟨sz, ad, rfl, h.1.symm, h.2.symm⟩

theorem reserveRange_ok_none {m : BMap Nat} {needed align : Nat}
    (h : reserveRange m needed align = .ok none) :
    needed ≠ 0 ∧ findFit needed align m = none := by
  unfold reserveRange at h
  by_cases hn : needed = 0
  · rw [if_pos hn] at h; cases h
  · rw [if_neg hn] at h
    refine ⟨hn, ?_⟩
    cases hff : findFit needed align m with
    | none => rfl
    | some q => obtain ⟨sz, ad⟩ := q; rw [hff] at h; cases h

theorem reserveRange_none_of_nofit {m : BMap Nat} {needed align : Nat}
    (hn : needed ≠ 0)
    (h : ∀ p ∈ m, p.1 < needed + (alignUp p.2 align - p.2)) :
    reserveRange m needed align = .ok none := by
  unfold reserveRange
  rw [if_neg hn, (findFit_none_iff m).mpr h]

theorem reserveRange_some_of_fit {m : BMap Nat} {needed align : Nat}
    (hn : needed ≠ 0)
    (h : ¬ ∀ p ∈ m, p.1 < needed + (alignUp p.2 align - p.2)) :
    ∃ r m', reserveRange m needed align = .ok (some (r, m')) := by
  unfold reserveRange
  rw [if_neg hn]
  cases hff : findFit needed align m with
  | none => exact absurd ((findFit_none_iff m).mp hff) h
  | some q =>
    obtain ⟨sz, ad⟩ := q
    exact ⟨_, _, rfl⟩

theorem reservedMap_wf {m : BMap Nat} (needed align sz ad : Nat)
    (hwf : bWF m) : bWF (reservedMap m needed align sz ad) := by
  unfold reservedMap
  have h1 : bWF (bErase m sz) := bErase_wf sz hwf
  by_cases h2 : 0 < sz - needed - (alignUp ad align - ad)
  · simp only [if_pos h2]
    by_cases h3 : alignUp ad align ≠ ad
    · rw [if_pos h3]; exact bInsert_wf _ _ (bInsert_wf _ _ h1)
    · rw [if_neg h3]; exact bInsert_wf _ _ h1
  · simp only [if_neg h2]
    by_cases h3 : alignUp ad align ≠ ad
    · rw [if_pos h3]; exact bInsert_wf _ _ h1
    · rw [if_neg h3]; exact h1

theorem buildMap_wf (runs : List (Nat × Nat)) : bWF (buildMap runs) := by
  have aux : ∀ (l : List (Nat × Nat)) (acc : BMap Nat), bWF acc →
      bWF (l.foldl (fun acc q => bInsert acc (q.2 - q.1) q.1) acc) := by
    intro l
    induction l with
    | nil => intro acc h; exact h
    | cons q rest ih => intro acc h; exact ih _ (bInsert_wf _ _ h)
  exact aux runs [] bWF_nil

theorem releaseRange_wf {m : BMap Nat} {rs re : Nat} {b : Bool} {m' : BMap Nat}
    (hwf : bWF m) (h : releaseRange m rs re = .ok (b, m')) : bWF m' := by
  unfold releaseRange at h
  by_cases h0 : re ≤ rs
  · rw [if_pos h0] at h; cases h
  · rw [if_neg h0] at h
    split at h
    · simp only [Except.ok.injEq, Prod.mk.injEq] at h
      rw [← h.2]; exact hwf
    · simp only [Except.ok.injEq, Prod.mk.injEq] at h
      rw [← h.2]; exact buildMap_wf _

theorem bWF_key_unique {β : Type} {m : BMap β} (hwf : bWF m) {k : Nat}
    {v w : β} (hv : (k, v) ∈ m) (hw : (k, w) ∈ m) : v = w := by
  induction m with
  | nil => cases hv
  | cons p rest ih =>
    rcases List.mem_cons.mp hv with rfl | hv' <;>
      rcases List.mem_cons.mp hw with hw' | hw'
    · cases hw'; rfl
    · have := List.rel_of_pairwise_cons hwf hw'
      simp at this
    · have := List.rel_of_pairwise_cons hwf hv'
      rw [← hw'] at this
      simp at this
    · exact ih hwf.tail hv' hw'

theorem reserveRange_error {m : BMap Nat} {needed align : Nat} {e : Unit}
    (h : reserveRange m needed align = .error e) : needed = 0 := by
  unfold reserveRange at h
  by_cases hn : needed = 0
  · exact hn
  · rw [if_neg hn] at h
    cases hff : findFit needed align m with
    | none => rw [hff] at h; cases h
    | some q => obtain ⟨sz, ad⟩ := q; rw [hff] at h; cases h

/-! ## `vmAllocate` characterizations -/

theorem vmAllocate_of_reserve_error {S : Nat} {st : VmState} {phys pc : Nat} {e : Unit}
    (hr : reserveRange st.free (alignUp (max pc 1 * S) S) S = .error e) :
    vmAllocate S st phys pc = .error () := by
  unfold vmAllocate; rw [hr]

theorem vmAllocate_of_reserve_none {S : Nat} {st : VmState} {phys pc : Nat}
    (hr : reserveRange st.free (alignUp (max pc 1 * S) S) S = .ok none) :
    vmAllocate S st phys pc = .ok (none, st) := by
  unfold vmAllocate; rw [hr]

theorem vmAllocate_of_misaligned {S : Nat} {st : VmState} {phys pc : Nat}
    {r : Nat × Nat} {free' : BMap Nat}
    (hr : reserveRange st.free (alignUp (max pc 1 * S) S) S = .ok (some (r, free')))
    (hmis : phys % S ≠ 0) :
    vmAllocate S st phys pc = .error () := by
  unfold vmAllocate; rw [hr]
  simp [hmis]

theorem vmAllocate_success {S : Nat} {st : VmState} {phys pc : Nat}
    {r : Nat × Nat} {free' : BMap Nat}
    (hr : reserveRange st.free (alignUp (max pc 1 * S) S) S = .ok (some (r, free')))
    (hal : phys % S = 0)
    (hnm : (List.range (max pc 1)).any
      (fun i => st.maps.any (fun q => q.1 = r.1 + i * S)) = false) :
    vmAllocate S st phys pc = .ok (some ⟨r.1, r.1 + max pc 1 * S⟩,
      { free := free',
        maps := st.maps ++ (List.range (max pc 1)).map
          (fun i => (r.1 + i * S, phys + i * S)) }) := by
  unfold vmAllocate; rw [hr]
  simp [hal, hnm]

theorem vmAllocate_of_reserve_some_not_none {S : Nat} {st st' : VmState}
    {phys pc : Nat} {r : Nat × Nat} {free' : BMap Nat}
    (hr : reserveRange st.free (alignUp (max pc 1 * S) S) S = .ok (some (r, free'))) :
    vmAllocate S st phys pc ≠ .ok (none, st') := by
  intro h
  by_cases h1 : phys % S ≠ 0
  · rw [vmAllocate_of_misaligned hr h1] at h; cases h
  · push_neg at h1
    cases hnm : (List.range (max pc 1)).any
        (fun i => st.maps.any (fun q => q.1 = r.1 + i * S)) with
    | false => rw [vmAllocate_success hr h1 hnm] at h; simp at h
    | true =>
      have hbad : vmAllocate S st phys pc = .error () := by
        unfold vmAllocate; rw [hr]; simp [h1, hnm]
      rw [hbad] at h; cases h

/-! ## Claim C2 -/

/-- C2 counterexample: on the index `{4096 ↦ 0}` (one free range
`[0, 4096)`), releasing `[8192, 12288)` succeeds and yields `{4096 ↦ 8192}`:
the pre-existing free range `[0, 4096)` of the same size was dropped from
the index, so free ranges of equal size with distinct start offsets do not
coexist — the index is not a multimap over size. -/
theorem c2_counterexample :
    releaseRange [(4096, 0)] 8192 12288 = .ok (true, [(4096, 8192)]) := rfl

/-- C2 (amended): the free-range index is a size-keyed map holding at most
one free range per size; `reserve_range` and `release_range` preserve this
shape, and inserting a range whose size equals an existing entry's size
replaces (drops) the pre-existing range rather than coexisting with it. -/
theorem c2_amended (m : BMap Nat) (needed align rs re k v : Nat)
    (hwf : bWF m) :
    (∀ r m', reserveRange m needed align = .ok (some (r, m')) →
      bWF m' ∧ ∀ sz a1 a2, (sz, a1) ∈ m' → (sz, a2) ∈ m' → a1 = a2)
    ∧ (∀ b m', releaseRange m rs re = .ok (b, m') →
      bWF m' ∧ ∀ sz a1 a2, (sz, a1) ∈ m' → (sz, a2) ∈ m' → a1 = a2)
    ∧ bLookup (bInsert m k v) k = some v := by
  refine ⟨?_, ?_, bLookup_insert_self m k v⟩
  · intro r m' h
    obtain ⟨_, sz, ad, _, _, hm'⟩ := reserveRange_ok_some h
    subst hm'
    have hw := reservedMap_wf needed align sz ad hwf
    exact ⟨hw, fun _ a1 a2 h1 h2 => bWF_key_unique hw h1 h2⟩
  · intro b m' h
    have hw := releaseRange_wf hwf h
    exact ⟨hw, fun _ a1 a2 h1 h2 => bWF_key_unique hw h1 h2⟩

theorem c2_amended_witness :
    bWF ([(4096, 8192)] : BMap Nat) ∧
      ∀ sz a1 a2, (sz, a1) ∈ ([(4096, 8192)] : BMap Nat) →
        (sz, a2) ∈ ([(4096, 8192)] : BMap Nat) → a1 = a2 :=
  (c2_amended [(4096, 0)] 1 1 8192 12288 0 0 (by decide)).2.1 true [(4096, 8192)] rfl

/-! ## Claim C5 -/

/-- C5 counterexample: with free virtual space available
(`{4096 ↦ 4096}`), `allocate::<Size4KiB>` at the S-misaligned physical
start `5` does not return `none` — it panics
(`PhysFrame::from_start_address(phys_start).unwrap()` in
`map_page_range`), after the reservation already mutated the free-range
index. -/
theorem c5_counterexample :
    vmAllocate 4096 ⟨[(4096, 4096)], []⟩ 5 1 = .error () := rfl

/-- C5 (amended): for every page size S, `allocate::<S>(phys_start,
page_count)` returns `none` — with the manager state unchanged — exactly
when no free range fits the reservation (virtual space exhausted); but
when a fitting free range exists and `phys_start` is misaligned for S, it
panics rather than returning `none`, and the reservation has already
happened when it does. -/
theorem c5_amended (S : Nat) (st : VmState) (phys pc : Nat)
    (hS : S = 4096 ∨ S = 2097152 ∨ S = 1073741824) :
    (vmAllocate S st phys pc = .ok (none, st) ↔
      ∀ p ∈ st.free, p.1 < max pc 1 * S + (alignUp p.2 S - p.2))
    ∧ ((∃ p ∈ st.free, max pc 1 * S + (alignUp p.2 S - p.2) ≤ p.1) →
        phys % S ≠ 0 → vmAllocate S st phys pc = .error ()) := by
  have hS0 : 0 < S := by rcases hS with rfl | rfl | rfl <;> norm_num
  have hneed : alignUp (max pc 1 * S) S = max pc 1 * S :=
    alignUp_of_aligned _ _ hS0 (Nat.mul_mod_left _ _)
  have hnz : max pc 1 * S ≠ 0 := Nat.mul_ne_zero (by omega) (by omega)
  constructor
  · constructor
    · intro h
      cases hr : reserveRange st.free (alignUp (max pc 1 * S) S) S with
      | error e =>
        rw [vmAllocate_of_reserve_error hr] at h; cases h
      | ok o =>
        cases o with
        | none =>
          obtain ⟨_, hff⟩ := reserveRange_ok_none hr
          rw [hneed] at hff
          exact (findFit_none_iff _).mp hff
        | some q =>
          obtain ⟨r, free'⟩ := q
          exact absurd h (vmAllocate_of_reserve_some_not_none hr)
    · intro hnofit
      apply vmAllocate_of_reserve_none
      rw [hneed]
      exact reserveRange_none_of_nofit hnz hnofit
  · rintro ⟨p, hp, hfit⟩ hmis
    obtain ⟨r, m', hr⟩ := @reserveRange_some_of_fit st.free (max pc 1 * S) S hnz
      (fun hall => by have := hall p hp; omega)
    exact vmAllocate_of_misaligned (by rw [hneed]; exact hr) hmis

theorem c5_amended_witness :
    vmAllocate 4096 ⟨[(4096, 2048)], []⟩ 0 1 = .ok (none, ⟨[(4096, 2048)], []⟩) ∧
      vmAllocate 4096 ⟨[(4096, 4096)], []⟩ 5 1 = .error () :=
  ⟨(c5_amended 4096 ⟨[(4096, 2048)], []⟩ 0 1 (Or.inl rfl)).1.mpr (by decide),
   (c5_amended 4096 ⟨[(4096, 4096)], []⟩ 5 1 (Or.inl rfl)).2
     ⟨(4096, 4096), by decide, by decide⟩ (by decide)⟩

/-! ## Claim C6 -/

/-- C6: the C-ABI `truncate` does *not* zero-fill the grown tail.  At the
failing input — a pool of prior logical length `0x1000` grown by
`truncate(name, 0x2000)` — the zeroed interval computed by the code is
`[0x2000, 0x2000)`, which is empty, while the grown tail
`[0x1000, 0x2000)` is non-empty: the code zeroes `buf[length ..
new_length]` with the *argument* as lower bound, and `new_length = max(
old_len, length) = length` whenever the pool grows. -/
theorem c6_truncate_zeroes_nothing_on_grow :
    truncateZeroedInterval 4096 8192 = (8192, 8192) ∧ 4096 < 8192 ∧
      (∀ oldLen lengthArg, oldLen ≤ lengthArg →
        (truncateZeroedInterval oldLen lengthArg).1 =
          (truncateZeroedInterval oldLen lengthArg).2) := by
  refine ⟨rfl, by norm_num, ?_⟩
  intro oldLen lengthArg h
  unfold truncateZeroedInterval
  simp
  omega

/-! ## Claim C9 -/

/-- Two devices (handles 1 and 2) whose pool tables each hold one live
pool at device offset 4096: pool `"a"` (byte `97`, length 4096) on device
1 and pool `"b"` (byte `98`, length 8192) on device 2; device 1's pool
body is mapped at virtual `0x40000000`. -/
def exC9 : PmmState :=
  { pmems := [
      { handle := 1, phys := 1073741824,
        table := { ents := [⟨4096, 4096, storedName [97]⟩], free := [] } },
      { handle := 2, phys := 2147483648,
        table := { ents := [⟨4096, 8192, storedName [98]⟩], free := [] } }],
    translated := [(4096, (1, ⟨1073741824, 1073745920⟩))],
    vm := { free := [], maps := [] } }

/-- C9: the mapping cache is keyed by pool offset alone, not by
`(device_handle, offset)`.  In `exC9`, `get_pool` on `"b"` (device 2's
pool) returns device 1's virtual mapping address `0x40000000` — the same
address `get_pool` on `"a"` returns — instead of a separate mapping; the
cache holds a single entry for both pools. -/
theorem c9_offset_alias :
    getPool exC9 [98] = .ok (some (1073741824, 8192), exC9) ∧
      getPool exC9 [97] = .ok (some (1073741824, 4096), exC9) ∧
      exC9.translated = [(4096, (1, ⟨1073741824, 1073745920⟩))] :=
  ⟨rfl, rfl, rfl⟩

/-! ## Claim C10 -/

/-- C10 counterexample.  First conjunct: a free virtual range of S = 4096
bytes exists (`[2048, 6144)`) and `phys_start = 0` is aligned, yet
`allocate::<S>(0, 0)` fails with `none` (the lone free range admits no
S-aligned S-byte reservation).  Second conjunct: when the reservation
fits, `allocate::<S>(0, 0)` returns a ONE-page range `[4096, 8192)` and
installs one page-table mapping — not an empty range with no mappings. -/
theorem c10_counterexample :
    vmAllocate 4096 ⟨[(4096, 2048)], []⟩ 0 0 = .ok (none, ⟨[(4096, 2048)], []⟩) ∧
      vmAllocate 4096 ⟨[(8192, 4096)], []⟩ 0 0 =
        .ok (some ⟨4096, 8192⟩, ⟨[(4096, 8192)], [(4096, 0)]⟩) :=
  ⟨rfl, rfl⟩

/-- C10 (amended): `allocate::<S>(phys_start, 0)` treats the page count as
1 throughout (`page_count.max(1)`): it behaves exactly like page count 1;
and when some free range admits an S-aligned S-byte reservation (and the
state's free ranges contain no already-mapped page start), it succeeds,
reserving S bytes, installing exactly one page mapping at `phys_start`,
and returning a one-page range. -/
theorem c10_amended (S : Nat) (st : VmState) (phys : Nat)
    (hS : S = 4096 ∨ S = 2097152 ∨ S = 1073741824)
    (hal : phys % S = 0)
    (hfit : ∃ p ∈ st.free, S + (alignUp p.2 S - p.2) ≤ p.1)
    (hunmapped : ∀ p ∈ st.free, ∀ q ∈ st.maps, ¬(p.2 ≤ q.1 ∧ q.1 < p.2 + p.1)) :
    vmAllocate S st phys 0 = vmAllocate S st phys 1 ∧
      ∃ a st', vmAllocate S st phys 0 = .ok (some ⟨a, a + S⟩, st') ∧
        st'.maps = st.maps ++ [(a, phys)] := by
  have hS0 : 0 < S := by rcases hS with rfl | rfl | rfl <;> norm_num
  refine ⟨rfl, ?_⟩
  have hmax : max (0 : Nat) 1 = 1 := rfl
  have hneed : alignUp (max 0 1 * S) S = S := by
    rw [hmax, Nat.one_mul]
    exact alignUp_of_aligned _ _ hS0 (Nat.mod_self S)
  obtain ⟨p, hp, hfit'⟩ := hfit
  obtain ⟨r, m', hr⟩ := @reserveRange_some_of_fit st.free S S (by omega)
      (fun hall => by have := hall p hp; omega)
  have hrA : reserveRange st.free (alignUp (max 0 1 * S) S) S = .ok (some (r, m')) := by
    rw [hneed]; exact hr
  obtain ⟨-, sz, ad, hff, hreq, -⟩ := reserveRange_ok_some hrA
  rw [hneed] at hff hreq
  obtain ⟨hmem, hfit2⟩ := findFit_some hff
  have hr1 : r.1 = alignUp ad S := by rw [hreq]
  have hstart_lo : ad ≤ alignUp ad S := le_alignUp ad S hS0
  have hstart_hi : alignUp ad S < ad + sz := by omega
  have hnm : (List.range (max 0 1)).any
      (fun i => st.maps.any (fun q => q.1 = r.1 + i * S)) = false := by
    have hrange : List.range (max 0 1) = [0] := rfl
    rw [hrange]
    simp only [List.any_cons, List.any_nil, Bool.or_false]
    rw [List.any_eq_false]
    intro q hq
    have hun := hunmapped (sz, ad) hmem q hq
    simp only [decide_eq_true_eq]
    intro hqe
    rw [hr1] at hqe
    simp only [Nat.zero_mul, Nat.add_zero] at hqe
    simp only at hun
    omega
  have hsucc := @vmAllocate_success S st phys 0 r m' hrA hal hnm
  rw [hmax, Nat.one_mul] at hsucc
  have hmaps : (List.range 1).map (fun i => (r.1 + i * S, phys + i * S)) = [(r.1, phys)] := by
    have h0 : List.range 1 = [0] := rfl
    rw [h0]
    simp
  refine ⟨r.1, ⟨m', st.maps ++ (List.range 1).map (fun i => (r.1 + i * S, phys + i * S))⟩,
    hsucc, ?_⟩
  show st.maps ++ (List.range 1).map (fun i => (r.1 + i * S, phys + i * S)) =
    st.maps ++ [(r.1, phys)]
  rw [hmaps]

/-! ## Binary-search correctness

`bsGo` narrows the window `[base, base + size)`; on a comparator that is
monotone (`lt* eq* gt*` along the indices) it lands on the last index
whose comparison is not `gt` (or stays at `0` when every comparison is
`gt`). -/

def ordRank : Ordering → Nat
  | .lt => 0
  | .eq => 1
  | .gt => 2

theorem ordRank_eq_gt {o : Ordering} (h : 2 ≤ ordRank o) : o = .gt := by
  cases o <;> simp [ordRank] at h ⊢

theorem ordRank_eq_lt {o : Ordering} (h : ordRank o ≤ 0) : o = .lt := by
  cases o <;> simp [ordRank] at h ⊢

theorem bsGo_spec {c : Nat → Ordering} {n : Nat}
    (hmono : ∀ i j, i ≤ j → j < n → ordRank (c i) ≤ ordRank (c j)) :
    ∀ fuel base size, 0 < size → base + size ≤ n → size ≤ fuel →
      (base = 0 ∨ c base ≠ .gt) →
      base ≤ bsGo c fuel base size ∧ bsGo c fuel base size < base + size ∧
      (bsGo c fuel base size = 0 ∨ c (bsGo c fuel base size) ≠ .gt) ∧
      (∀ j, bsGo c fuel base size < j → j < base + size → c j = .gt) := by
  intro fuel
  induction fuel with
  | zero => intro base size h1 h2 h3 _; omega
  | succ f ih =>
    intro base size hs hn hf hbase
    by_cases hsz : size ≤ 1
    · have heq : bsGo c (f + 1) base size = base := by
        unfold bsGo; rw [if_pos hsz]
      rw [heq]
      exact ⟨le_rfl, by omega, hbase, fun j hj1 hj2 => by omega⟩
    · have heq : bsGo c (f + 1) base size
        = bsGo c f (if c (base + size / 2) = Ordering.gt then base else base + size / 2)
            (size - size / 2) := by
        rw [show bsGo c (f + 1) base size
          = if size ≤ 1 then base
            else bsGo c f (if c (base + size / 2) = Ordering.gt then base else base + size / 2)
              (size - size / 2) from rfl, if_neg hsz]
      rw [heq]
      have hhalf1 : 1 ≤ size / 2 := by omega
      by_cases hc : c (base + size / 2) = Ordering.gt
      · rw [if_pos hc]
        have hres := ih base (size - size / 2) (by omega) (by omega) (by omega) hbase
        refine ⟨hres.1, by omega, hres.2.2.1, ?_⟩
        intro j hj1 hj2
        by_cases hj3 : j < base + (size - size / 2)
        · exact hres.2.2.2 j hj1 hj3
        · have hmid : base + size / 2 ≤ j := by omega
          have hm := hmono (base + size / 2) j hmid (by omega)
          rw [hc] at hm
          simp only [ordRank] at hm
          exact ordRank_eq_gt hm
      · rw [if_neg hc]
        have hres := ih (base + size / 2) (size - size / 2) (by omega) (by omega)
          (by omega) (Or.inr hc)
        refine ⟨by omega, by omega, hres.2.2.1, ?_⟩
        intro j hj1 hj2
        exact hres.2.2.2 j hj1 (by omega)

/-- With no `eq` anywhere, `binary_search_by` returns `Err(i)` at the
sorted insertion point: strictly `lt` before, strictly `gt` from `i` on. -/
theorem binarySearchBy_err {c : Nat → Ordering} {n : Nat}
    (hmono : ∀ i j, i ≤ j → j < n → ordRank (c i) ≤ ordRank (c j))
    (hnoeq : ∀ j, j < n → c j ≠ .eq) :
    ∃ i, binarySearchBy c n = Sum.inr i ∧ i ≤ n ∧
      (∀ j, j < i → c j = .lt) ∧ (∀ j, i ≤ j → j < n → c j = .gt) := by
  by_cases hn : n = 0
  · subst hn
    exact ⟨0, by unfold binarySearchBy; rw [if_pos rfl], le_rfl,
      fun j hj => by omega, fun j hj1 hj2 => by omega⟩
  · have hb := bsGo_spec hmono n 0 n (by omega) (by omega) le_rfl (Or.inl rfl)
    obtain ⟨-, hblt, hbz, hwin⟩ := hb
    have hbeq : binarySearchBy c n
        = match c (bsGo c n 0 n) with
          | Ordering.eq => Sum.inl (bsGo c n 0 n)
          | Ordering.lt => Sum.inr (bsGo c n 0 n + 1)
          | Ordering.gt => Sum.inr (bsGo c n 0 n) := by
      unfold binarySearchBy; rw [if_neg hn]
    cases hcb : c (bsGo c n 0 n) with
    | eq => exact absurd hcb (hnoeq _ (by omega))
    | lt =>
      rw [hcb] at hbeq
      refine ⟨bsGo c n 0 n + 1, hbeq, by omega, ?_, ?_⟩
      · intro j hj
        have hm := hmono j (bsGo c n 0 n) (by omega) (by omega)
        rw [hcb] at hm
        simp only [ordRank] at hm
        exact ordRank_eq_lt hm
      · intro j hj1 hj2
        exact hwin j (by omega) (by omega)
    | gt =>
      rw [hcb] at hbeq
      have hb0 : bsGo c n 0 n = 0 := by
        rcases hbz with h | h
        · exact h
        · exact absurd hcb h
      refine ⟨bsGo c n 0 n, hbeq, by omega, ?_, ?_⟩
      · intro j hj; omega
      · intro j hj1 hj2
        by_cases hj : j = bsGo c n 0 n
        · rw [hj]; exact hcb
        · exact hwin j (by omega) (by omega)

/-- With a (unique, thanks to monotonicity) `eq` index, `binary_search_by`
returns `Ok` at an `eq` index. -/
theorem binarySearchBy_ok {c : Nat → Ordering} {n : Nat}
    (hmono : ∀ i j, i ≤ j → j < n → ordRank (c i) ≤ ordRank (c j))
    {j0 : Nat} (hj0 : j0 < n) (heq : c j0 = .eq) :
    ∃ b, binarySearchBy c n = Sum.inl b ∧ b < n ∧ c b = .eq := by
  have hn : n ≠ 0 := by omega
  have hb := bsGo_spec hmono n 0 n (by omega) (by omega) le_rfl (Or.inl rfl)
  obtain ⟨-, hblt, hbz, hwin⟩ := hb
  have hbeq : binarySearchBy c n
      = match c (bsGo c n 0 n) with
        | Ordering.eq => Sum.inl (bsGo c n 0 n)
        | Ordering.lt => Sum.inr (bsGo c n 0 n + 1)
        | Ordering.gt => Sum.inr (bsGo c n 0 n) := by
    unfold binarySearchBy; rw [if_neg hn]
  cases hcb : c (bsGo c n 0 n) with
  | eq =>
    rw [hcb] at hbeq
    exact ⟨_, hbeq, by omega, hcb⟩
  | lt =>
    exfalso
    by_cases hj : j0 ≤ bsGo c n 0 n
    · have hm := hmono j0 (bsGo c n 0 n) hj (by omega)
      rw [hcb, heq] at hm
      simp [ordRank] at hm
    · have := hwin j0 (by omega) (by omega)
      rw [heq] at this
      cases this
  | gt =>
    exfalso
    have hb0 : bsGo c n 0 n = 0 := by
      rcases hbz with h | h
      · exact h
      · exact absurd hcb h
    by_cases hj : j0 = bsGo c n 0 n
    · rw [hj, hcb] at heq; cases heq
    · have := hwin j0 (by omega) (by omega)
      rw [heq] at this
      cases this

/-! ## Insertion and coalescing lemmas -/

theorem mem_insAt {α : Type} : ∀ {i : Nat} {a : α} {l : List α} {q : α},
    q ∈ insAt i a l ↔ q = a ∨ q ∈ l := by
  intro i
  induction i with
  | zero => intro a l q; simp [insAt]
  | succ n ih =>
    intro a l q
    cases l with
    | nil => simp [insAt]
    | cons x xs =>
      simp only [insAt, List.mem_cons, ih]
      tauto

theorem length_insAt {α : Type} : ∀ (i : Nat) (a : α) (l : List α),
    (insAt i a l).length = l.length + 1 := by
  intro i
  induction i with
  | zero => intro a l; simp [insAt]
  | succ n ih =>
    intro a l
    cases l with
    | nil => simp [insAt]
    | cons x xs => simp [insAt, ih]

theorem insAt_pairwise {α : Type} {R : α → α → Prop} {d : α} :
    ∀ {i : Nat} {a : α} {l : List α}, List.Pairwise R l →
      (∀ j, j < i → j < l.length → R (l.getD j d) a) →
      (∀ j, i ≤ j → j < l.length → R a (l.getD j d)) →
      List.Pairwise R (insAt i a l) := by
  intro i
  induction i with
  | zero =>
    intro a l hl _ hafter
    refine List.Pairwise.cons ?_ hl
    intro y hy
    obtain ⟨⟨j, hj⟩, rfl⟩ := List.mem_iff_get.mp hy
    have := hafter j (by omega) (by omega)
    rwa [List.getD_eq_getElem?_getD, List.getElem?_eq_getElem hj] at this
  | succ n ih =>
    intro a l hl hbefore hafter
    cases l with
    | nil => simp [insAt]
    | cons x xs =>
      show List.Pairwise R (x :: insAt n a xs)
      refine List.Pairwise.cons ?_ ?_
      · intro y hy
        rcases mem_insAt.mp hy with rfl | hy'
        · have := hbefore 0 (by omega) (by simp)
          simpa using this
        · exact List.rel_of_pairwise_cons hl hy'
      · refine ih hl.tail ?_ ?_
        · intro j hj1 hj2
          have := hbefore (j + 1) (by omega) (by simp; omega)
          simpa using this
        · intro j hj1 hj2
          have := hafter (j + 1) (by omega) (by simp; omega)
          simpa using this

/-- The coalescing recursion on sorted, pairwise-disjoint, positive
pieces: every output has positive extent, outputs are strictly separated
(in particular no two abut), every output byte comes from an input piece,
and output starts are bounded below by the first input start. -/
theorem coalGo_c4 : ∀ (l : List (Nat × Nat)) (cur : Nat × Nat),
    cur.1 < cur.2 → (∀ y ∈ l, cur.2 ≤ y.1) →
    List.Pairwise (fun p q => p.2 ≤ q.1) l → (∀ y ∈ l, y.1 < y.2) →
    (∀ z ∈ coalGo cur l, z.1 < z.2) ∧
    List.Pairwise (fun p q => p.2 < q.1) (coalGo cur l) ∧
    (∀ z ∈ coalGo cur l, ∀ x, z.1 ≤ x → x < z.2 →
      (cur.1 ≤ x ∧ x < cur.2) ∨ ∃ p ∈ l, p.1 ≤ x ∧ x < p.2) ∧
    (∀ z ∈ coalGo cur l, cur.1 ≤ z.1) := by
  intro l
  induction l with
  | nil =>
    intro cur hsz _ _ _
    refine ⟨?_, ?_, ?_, ?_⟩
    · intro z hz; simp [coalGo] at hz; subst hz; exact hsz
    · simp [coalGo]
    · intro z hz x hx1 hx2
      simp [coalGo] at hz; subst hz
      exact Or.inl ⟨hx1, hx2⟩
    · intro z hz; simp [coalGo] at hz; subst hz; exact le_rfl
  | cons y ys ih =>
    intro cur hsz hbelow hpw hszs
    have hy : cur.2 ≤ y.1 := hbelow y (List.mem_cons_self _ _)
    have hys : ∀ z ∈ ys, y.2 ≤ z.1 := fun z hz => List.rel_of_pairwise_cons hpw hz
    have hysz : y.1 < y.2 := hszs y (List.mem_cons_self _ _)
    by_cases hab : cur.2 = y.1
    · -- merge
      have hrec := ih (cur.1, y.2) (by simp; omega)
        (by intro z hz; simpa using hys z hz) hpw.tail
        (fun z hz => hszs z (List.mem_cons_of_mem _ hz))
      have hco : coalGo cur (y :: ys) = coalGo (cur.1, y.2) ys := by
        show (if cur.2 = y.1 then coalGo (cur.1, y.2) ys else cur :: coalGo y ys) = _
        rw [if_pos hab]
      rw [hco]
      refine ⟨hrec.1, hrec.2.1, ?_, ?_⟩
      · intro z hz x hx1 hx2
        rcases hrec.2.2.1 z hz x hx1 hx2 with ⟨h1, h2⟩ | ⟨p, hp, h1, h2⟩
        · simp at h1 h2
          by_cases hc : x < cur.2
          · exact Or.inl ⟨h1, hc⟩
          · exact Or.inr ⟨y, List.mem_cons_self _ _, by omega, h2⟩
        · exact Or.inr ⟨p, List.mem_cons_of_mem _ hp, h1, h2⟩
      · intro z hz
        have := hrec.2.2.2 z hz
        simpa using this
    · -- push
      have hrec := ih y hysz hys hpw.tail
        (fun z hz => hszs z (List.mem_cons_of_mem _ hz))
      have hco : coalGo cur (y :: ys) = cur :: coalGo y ys := by
        show (if cur.2 = y.1 then coalGo (cur.1, y.2) ys else cur :: coalGo y ys) = _
        rw [if_neg hab]
      rw [hco]
      refine ⟨?_, ?_, ?_, ?_⟩
      · intro z hz
        rcases List.mem_cons.mp hz with rfl | hz'
        · exact hsz
        · exact hrec.1 z hz'
      · refine List.Pairwise.cons ?_ hrec.2.1
        intro z hz
        have h1 := hrec.2.2.2 z hz
        omega
      · intro z hz x hx1 hx2
        rcases List.mem_cons.mp hz with rfl | hz'
        · exact Or.inl ⟨hx1, hx2⟩
        · rcases hrec.2.2.1 z hz' x hx1 hx2 with ⟨h1, h2⟩ | ⟨p, hp, h1, h2⟩
          · exact Or.inr ⟨y, List.mem_cons_self _ _, h1, h2⟩
          · exact Or.inr ⟨p, List.mem_cons_of_mem _ hp, h1, h2⟩
      · intro z hz
        rcases List.mem_cons.mp hz with rfl | hz'
        · exact le_rfl
        · have := hrec.2.2.2 z hz'
          omega

theorem mem_buildMap : ∀ (runs : List (Nat × Nat)) {q : Nat × Nat},
    q ∈ buildMap runs → ∃ s e, (s, e) ∈ runs ∧ q = (e - s, s) := by
  have aux : ∀ (l : List (Nat × Nat)) (acc : BMap Nat), bWF acc → ∀ q,
      q ∈ l.foldl (fun acc q => bInsert acc (q.2 - q.1) q.1) acc →
      q ∈ acc ∨ ∃ s e, (s, e) ∈ l ∧ q = (e - s, s) := by
    intro l
    induction l with
    | nil => intro acc _ q hq; exact Or.inl hq
    | cons p rest ih =>
      intro acc hacc q hq
      simp only [List.foldl_cons] at hq
      rcases ih _ (bInsert_wf _ _ hacc) q hq with hq' | ⟨s, e, hmem, rfl⟩
      · rcases mem_bInsert hacc hq' with rfl | ⟨hmem, -⟩
        · exact Or.inr ⟨p.1, p.2, List.mem_cons_self _ _, rfl⟩
        · exact Or.inl hmem
      · exact Or.inr ⟨s, e, List.mem_cons_of_mem _ hmem, rfl⟩
  intro runs q hq
  rcases aux runs [] bWF_nil q hq with h | h
  · cases h
  · exact h

/-! ## Release-range correctness toolkit -/

theorem ordRank_compare_mono {a b x : Nat} (h : a ≤ b) :
    ordRank (compare a x) ≤ ordRank (compare b x) := by
  rw [Nat.compare_def_lt, Nat.compare_def_lt]
  split_ifs <;> simp [ordRank] <;> omega

theorem mem_regionsOf {m : BMap Nat} {ad sz : Nat} :
    (ad, sz) ∈ regionsOf m ↔ (sz, ad) ∈ m := by
  unfold regionsOf
  rw [(List.perm_insertionSort addrLE _).mem_iff, List.mem_map]
  constructor
  · rintro ⟨p, hp, hpe⟩
    obtain ⟨p1, p2⟩ := p
    simp at hpe
    obtain ⟨rfl, rfl⟩ := hpe
    exact hp
  · intro h
    exact ⟨(sz, ad), h, rfl⟩

theorem sorted_regionsOf (m : BMap Nat) :
    List.Pairwise addrLE (regionsOf m) :=
  List.sorted_insertionSort addrLE _

theorem pairwise_regionsOf {m : BMap Nat} {R : (Nat × Nat) → (Nat × Nat) → Prop}
    (hsym : ∀ {a b}, R a b → R b a)
    (h : List.Pairwise (fun p q => R (p.2, p.1) (q.2, q.1)) m) :
    List.Pairwise R (regionsOf m) := by
  unfold regionsOf
  refine ((List.perm_insertionSort addrLE _).pairwise_iff hsym).mpr ?_
  exact List.pairwise_map.mpr h

theorem pos_regionsOf {m : BMap Nat} (hpos : ∀ p ∈ m, 0 < p.1) :
    ∀ q ∈ regionsOf m, 0 < q.2 := by
  intro q hq
  obtain ⟨q1, q2⟩ := q
  exact hpos _ (mem_regionsOf.mp hq)

/-- Sorted order plus extent-disjointness plus positive sizes yields the
strict separation `addr + size ≤ next addr` along the region list. -/
theorem sep_regionsOf {m : BMap Nat}
    (hdisj : List.Pairwise (fun p q => IntDisj p.2 (p.2 + p.1) q.2 (q.2 + q.1)) m)
    (hpos : ∀ p ∈ m, 0 < p.1) :
    List.Pairwise (fun p q => p.1 + p.2 ≤ q.1) (regionsOf m) := by
  have hs := sorted_regionsOf m
  have hd : List.Pairwise (fun (p q : Nat × Nat) => IntDisj p.1 (p.1 + p.2) q.1 (q.1 + q.2))
      (regionsOf m) := by
    refine pairwise_regionsOf (fun {a b} hab => intDisj_symm hab) ?_
    exact hdisj.imp (fun hab => hab)
  have hp := @pos_regionsOf m hpos
  have := hs.and hd
  refine this.imp_of_mem ?_
  intro a b ha hb hab
  obtain ⟨h1, h2⟩ := hab
  have hpa := hp a ha
  have hpb := hp b hb
  unfold addrLE at h1
  unfold IntDisj at h2
  omega

theorem containsCmp_getD_mem {regions : List (Nat × Nat)} {j : Nat}
    (hj : j < regions.length) : regions.getD j (0, 0) ∈ regions := by
  rw [List.getD_eq_getElem?_getD, List.getElem?_eq_getElem hj]
  exact List.getElem_mem _

theorem containsCmp_unfold (regions : List (Nat × Nat)) (rs j : Nat) :
    containsCmp regions rs j =
      if (regions.getD j (0, 0)).1 ≤ rs ∧
          rs < (regions.getD j (0, 0)).1 + (regions.getD j (0, 0)).2
      then Ordering.eq else compare (regions.getD j (0, 0)).1 rs := rfl

theorem containsCmp_eq_iff {regions : List (Nat × Nat)} {rs j : Nat}
    (hj : j < regions.length) (hpos : ∀ q ∈ regions, 0 < q.2) :
    containsCmp regions rs j = .eq ↔
      ((regions.getD j (0, 0)).1 ≤ rs ∧
        rs < (regions.getD j (0, 0)).1 + (regions.getD j (0, 0)).2) := by
  rw [containsCmp_unfold]
  by_cases hc : (regions.getD j (0, 0)).1 ≤ rs ∧
      rs < (regions.getD j (0, 0)).1 + (regions.getD j (0, 0)).2
  · rw [if_pos hc]
    exact iff_of_true rfl hc
  · rw [if_neg hc]
    constructor
    · intro h
      have := Nat.compare_eq_eq.mp h
      have hsz := hpos _ (containsCmp_getD_mem hj)
      omega
    · intro h; exact absurd h hc

theorem containsCmp_mono {regions : List (Nat × Nat)} {rs : Nat}
    (hs : List.Pairwise addrLE regions)
    (hsep : List.Pairwise (fun p q => p.1 + p.2 ≤ q.1) regions)
    (hpos : ∀ q ∈ regions, 0 < q.2) :
    ∀ i j, i ≤ j → j < regions.length →
      ordRank (containsCmp regions rs i) ≤ ordRank (containsCmp regions rs j) := by
  intro i j hij hj
  rcases Nat.eq_or_lt_of_le hij with rfl | hlt
  · exact le_rfl
  · have hi : i < regions.length := by omega
    have hgi : regions.getD i (0, 0) = regions.get ⟨i, hi⟩ := by
      rw [List.getD_eq_getElem?_getD, List.getElem?_eq_getElem hi]; rfl
    have hgj : regions.getD j (0, 0) = regions.get ⟨j, hj⟩ := by
      rw [List.getD_eq_getElem?_getD, List.getElem?_eq_getElem hj]; rfl
    have hsepij := (List.pairwise_iff_get.mp hsep) ⟨i, hi⟩ ⟨j, hj⟩ hlt
    have hposi := hpos _ (containsCmp_getD_mem hi)
    have hposj := hpos _ (containsCmp_getD_mem hj)
    rw [containsCmp_unfold, containsCmp_unfold, hgi, hgj]
    set qi := regions.get ⟨i, hi⟩ with hqi
    set qj := regions.get ⟨j, hj⟩ with hqj
    rw [hgi] at hposi
    rw [hgj] at hposj
    by_cases hcj : qj.1 ≤ rs ∧ rs < qj.1 + qj.2
    · rw [if_pos hcj]
      by_cases hci : qi.1 ≤ rs ∧ rs < qi.1 + qi.2
      · omega
      · rw [if_neg hci]
        have hlt2 : qi.1 < rs := by omega
        rw [Nat.compare_eq_lt.mpr hlt2]
        simp [ordRank]
    · rw [if_neg hcj]
      by_cases hci : qi.1 ≤ rs ∧ rs < qi.1 + qi.2
      · rw [if_pos hci]
        have hgt : rs < qj.1 := by omega
        rw [Nat.compare_eq_gt.mpr hgt]
        simp [ordRank]
      · rw [if_neg hci]
        exact ordRank_compare_mono (by omega)

theorem releaseRange_false_eq {m : BMap Nat} {rs re b : Nat}
    (h0 : rs < re)
    (hbs : binarySearchBy (containsCmp (regionsOf m) rs) (regionsOf m).length
      = Sum.inl b) :
    releaseRange m rs re = .ok (false, m) := by
  unfold releaseRange
  rw [if_neg (by omega), hbs]

theorem releaseRange_true_eq {m : BMap Nat} {rs re i : Nat}
    (h0 : rs < re)
    (hbs : binarySearchBy (containsCmp (regionsOf m) rs) (regionsOf m).length
      = Sum.inr i) :
    releaseRange m rs re = .ok (true, buildMap (coalesce
      ((insAt i (rs, re - rs) (regionsOf m)).map (fun q => (q.1, q.1 + q.2))))) := by
  unfold releaseRange
  rw [if_neg (by omega), hbs]

theorem coalesce_c4 {l : List (Nat × Nat)}
    (hpw : List.Pairwise (fun p q => p.2 ≤ q.1) l)
    (hsz : ∀ p ∈ l, p.1 < p.2) :
    (∀ z ∈ coalesce l, z.1 < z.2) ∧
    List.Pairwise (fun p q => p.2 < q.1) (coalesce l) ∧
    (∀ z ∈ coalesce l, ∀ x, z.1 ≤ x → x < z.2 → ∃ p ∈ l, p.1 ≤ x ∧ x < p.2) := by
  cases l with
  | nil => simp [coalesce]
  | cons x xs =>
    have h := coalGo_c4 xs x (hsz x (List.mem_cons_self _ _))
      (fun y hy => List.rel_of_pairwise_cons hpw hy) hpw.tail
      (fun y hy => hsz y (List.mem_cons_of_mem _ hy))
    have hco : coalesce (x :: xs) = coalGo x xs := rfl
    rw [hco]
    refine ⟨h.1, h.2.1, ?_⟩
    intro z hz y hy1 hy2
    rcases h.2.2.1 z hz y hy1 hy2 with ⟨h1, h2⟩ | ⟨p, hp, h1, h2⟩
    · exact ⟨x, List.mem_cons_self _ _, h1, h2⟩
    · exact ⟨p, List.mem_cons_of_mem _ hp, h1, h2⟩

theorem noeq_of_nocontain {m : BMap Nat} {rs : Nat}
    (hposr : ∀ q ∈ regionsOf m, 0 < q.2)
    (hnc : ¬ ∃ p ∈ m, p.2 ≤ rs ∧ rs < p.2 + p.1) :
    ∀ j, j < (regionsOf m).length → containsCmp (regionsOf m) rs j ≠ .eq := by
  intro j hj hceq
  rw [containsCmp_eq_iff hj hposr] at hceq
  have hmem := containsCmp_getD_mem hj
  obtain ⟨ad, sz, hge⟩ : ∃ ad sz, (regionsOf m).getD j (0, 0) = (ad, sz) := ⟨_, _, rfl⟩
  rw [hge] at hceq hmem
  exact hnc ⟨(sz, ad), mem_regionsOf.mp hmem, hceq.1, hceq.2⟩

/-! ## Claim C4 -/

/-- C4 counterexample.  First conjunct: on the index
`{10 ↦ 0, 12 ↦ 30, 42 ↦ 100}` (free ranges `[0,10)`, `[30,42)`,
`[100,142)`), releasing `[10, 30)` — which abuts free ranges on both
sides — returns `true` but leaves the index `{42 ↦ 100}`: the merged
range `[0, 42)` was built and then evicted by the equal-size run
`[100, 142)` during the size-keyed rebuild, so neither the released
interval nor the merged range is in the index.  Second conjunct: on the
(overlapping-range) state `{100 ↦ 0, 10 ↦ 10}`, releasing `[50, 60)`
returns `true` and mutates the index even though the free range
`[0, 100)` contains the released start `50` — the binary search misses
the containment when ranges overlap. -/
theorem c4_counterexample :
    (releaseRange [(10, 0), (12, 30), (42, 100)] 10 30 = .ok (true, [(42, 100)])) ∧
    (releaseRange [(100, 0), (10, 10)] 50 60 = .ok (true, [(10, 50), (100, 0)])) :=
  ⟨rfl, rfl⟩

/-- C4 (amended): on an index state whose free ranges are pairwise
disjoint with positive sizes, `release(r)` for non-empty `r` returns
`false` and leaves the index unchanged exactly when some free range
contains `r.start`.  Otherwise it returns `true`; and when `r` is
moreover disjoint from every free range, the rebuilt index contains no
two abutting ranges, covers only bytes that were free before or lie in
`r`, and holds at most one range per size — the run merged from `r` and
its abutting neighbours survives the size-keyed rebuild only when no
other coalesced run shares its size (see the counterexample for the
eviction). -/
theorem c4_amended (m : BMap Nat) (rs re : Nat) (hwf : bWF m)
    (hdisj : List.Pairwise (fun p q => IntDisj p.2 (p.2 + p.1) q.2 (q.2 + q.1)) m)
    (hpos : ∀ p ∈ m, 0 < p.1) (hr : rs < re) :
    ((∃ p ∈ m, p.2 ≤ rs ∧ rs < p.2 + p.1) → releaseRange m rs re = .ok (false, m)) ∧
    ((¬ ∃ p ∈ m, p.2 ≤ rs ∧ rs < p.2 + p.1) →
      ∃ m', releaseRange m rs re = .ok (true, m')) ∧
    ((∀ p ∈ m, IntDisj rs re p.2 (p.2 + p.1)) →
      ∃ m', releaseRange m rs re = .ok (true, m') ∧
        (∀ p ∈ m', ∀ q ∈ m', p ≠ q → p.2 + p.1 ≠ q.2) ∧
        (∀ p ∈ m', ∀ x, p.2 ≤ x → x < p.2 + p.1 →
          ((∃ q ∈ m, q.2 ≤ x ∧ x < q.2 + q.1) ∨ (rs ≤ x ∧ x < re))) ∧
        (∀ sz a1 a2, (sz, a1) ∈ m' → (sz, a2) ∈ m' → a1 = a2)) := by
  have hsort := sorted_regionsOf m
  have hsep := sep_regionsOf hdisj hpos
  have hposr := @pos_regionsOf m hpos
  have hmono := @containsCmp_mono (regionsOf m) rs hsort hsep hposr
  refine ⟨?_, ?_, ?_⟩
  · -- containment: the binary search returns Ok
    rintro ⟨p, hp, hc1, hc2⟩
    have hmem : (p.2, p.1) ∈ regionsOf m := mem_regionsOf.mpr (by simpa using hp)
    obtain ⟨⟨j, hj⟩, hget⟩ := List.mem_iff_get.mp hmem
    have hceq : containsCmp (regionsOf m) rs j = .eq := by
      rw [containsCmp_eq_iff hj hposr]
      rw [List.getD_eq_getElem?_getD, List.getElem?_eq_getElem hj]
      show ((regionsOf m).get ⟨j, hj⟩).1 ≤ rs ∧
        rs < ((regionsOf m).get ⟨j, hj⟩).1 + ((regionsOf m).get ⟨j, hj⟩).2
      rw [hget]
      exact ⟨hc1, hc2⟩
    obtain ⟨b, hbs, -, -⟩ := binarySearchBy_ok hmono hj hceq
    exact releaseRange_false_eq hr hbs
  · -- no containment: the binary search returns Err, release returns true
    intro hnc
    obtain ⟨i, hbs, -, -, -⟩ := binarySearchBy_err hmono (noeq_of_nocontain hposr hnc)
    exact ⟨_, releaseRange_true_eq hr hbs⟩
  · -- fully disjoint released range: strong conclusions
    intro hrd
    have hnc : ¬ ∃ p ∈ m, p.2 ≤ rs ∧ rs < p.2 + p.1 := by
      rintro ⟨p, hp, h1, h2⟩
      have := hrd p hp
      unfold IntDisj at this
      have := hpos p hp
      omega
    obtain ⟨i, hbs, hile, hbefore, hafter⟩ :=
      binarySearchBy_err hmono (noeq_of_nocontain hposr hnc)
    -- the inserted region list is pairwise separated
    have hsep' : List.Pairwise (fun p q => p.1 + p.2 ≤ q.1)
        (insAt i (rs, re - rs) (regionsOf m)) := by
      refine @insAt_pairwise (Nat × Nat) _ ((0, 0) : Nat × Nat) i (rs, re - rs) (regionsOf m) hsep ?_ ?_
      · intro j hj1 hj2
        have hcj := hbefore j hj1
        have hposj := hposr _ (containsCmp_getD_mem hj2)
        rw [containsCmp_unfold] at hcj
        by_cases hc : ((regionsOf m).getD j (0, 0)).1 ≤ rs ∧
            rs < ((regionsOf m).getD j (0, 0)).1 + ((regionsOf m).getD j (0, 0)).2
        · rw [if_pos hc] at hcj; cases hcj
        · rw [if_neg hc] at hcj
          have := Nat.compare_eq_lt.mp hcj
          simp only
          omega
      · intro j hj1 hj2
        have hcj := hafter j hj1 hj2
        have hposj := hposr _ (containsCmp_getD_mem hj2)
        have hmemj := containsCmp_getD_mem hj2
        obtain ⟨ad, sz, hge⟩ : ∃ ad sz, (regionsOf m).getD j (0, 0) = (ad, sz) :=
          ⟨_, _, rfl⟩
        rw [hge] at hmemj
        have hrdj := hrd (sz, ad) (mem_regionsOf.mp hmemj)
        rw [containsCmp_unfold] at hcj
        rw [hge] at hcj hposj ⊢
        simp only at hposj ⊢
        by_cases hc : ad ≤ rs ∧ rs < ad + sz
        · rw [if_pos hc] at hcj; cases hcj
        · rw [if_neg hc] at hcj
          have hgt := Nat.compare_eq_gt.mp hcj
          unfold IntDisj at hrdj
          simp only at hrdj
          omega
    have hpos' : ∀ p ∈ insAt i (rs, re - rs) (regionsOf m), 0 < p.2 := by
      intro p hp
      rcases mem_insAt.mp hp with rfl | hp'
      · simp; omega
      · exact hposr p hp'
    -- transfer to the (start, end) piece list
    have hpw2 : List.Pairwise (fun p q => p.2 ≤ q.1)
        ((insAt i (rs, re - rs) (regionsOf m)).map (fun q => (q.1, q.1 + q.2))) := by
      rw [List.pairwise_map]
      exact hsep'.imp (fun hab => by simpa using hab)
    have hsz2 : ∀ p ∈ (insAt i (rs, re - rs) (regionsOf m)).map
        (fun q => (q.1, q.1 + q.2)), p.1 < p.2 := by
      intro p hp
      rw [List.mem_map] at hp
      obtain ⟨q, hq, rfl⟩ := hp
      have := hpos' q hq
      simp
      omega
    obtain ⟨hrunsz, hrunsep, hruncov⟩ := coalesce_c4 hpw2 hsz2
    refine ⟨_, releaseRange_true_eq hr hbs, ?_, ?_, ?_⟩
    · -- no two abutting ranges survive
      intro p hp q hq hne
      obtain ⟨s1, e1, hm1, rfl⟩ := mem_buildMap _ hp
      obtain ⟨s2, e2, hm2, rfl⟩ := mem_buildMap _ hq
      have hz1 := hrunsz _ hm1
      have hz2 := hrunsz _ hm2
      simp only at hz1 hz2 ⊢
      have hne2 : (s1, e1) ≠ (s2, e2) := by
        intro hc
        injection hc with hc1 hc2
        subst hc1; subst hc2
        exact hne rfl
      have hsymm : Symmetric (fun (p q : Nat × Nat) => p.2 < q.1 ∨ q.2 < p.1) := by
        intro a b hab; tauto
      have hps : List.Pairwise (fun (p q : Nat × Nat) => p.2 < q.1 ∨ q.2 < p.1)
          (coalesce ((insAt i (rs, re - rs) (regionsOf m)).map
            (fun q => (q.1, q.1 + q.2)))) :=
        hrunsep.imp (fun hab => Or.inl hab)
      have := hps.forall hsymm hm1 hm2 hne2
      omega
    · -- coverage soundness
      intro p hp x hx1 hx2
      obtain ⟨s1, e1, hm1, rfl⟩ := mem_buildMap _ hp
      have hz1 := hrunsz _ hm1
      simp only at hz1 hx1 hx2
      have hcov := hruncov _ hm1 x (by omega) (by omega)
      obtain ⟨pc, hpc, hc1, hc2⟩ := hcov
      rw [List.mem_map] at hpc
      obtain ⟨q, hq, rfl⟩ := hpc
      simp only at hc1 hc2
      rcases mem_insAt.mp hq with rfl | hq'
      · right
        simp only at hc1 hc2
        omega
      · left
        obtain ⟨ad, sz⟩ := q
        exact ⟨(sz, ad), mem_regionsOf.mp hq', by simpa using hc1, by simpa using hc2⟩
    · -- at most one range per size
      intro sz a1 a2 h1 h2
      exact bWF_key_unique (buildMap_wf _) h1 h2

theorem c4_amended_witness :
    releaseRange [(16, 0), (24, 40)] 16 40 = .ok (false, [(16, 0), (24, 40)]) ∨
    ∃ m', releaseRange [(16, 0), (24, 40)] 16 40 = .ok (true, m') ∧
      (∀ p ∈ m', ∀ q ∈ m', p ≠ q → p.2 + p.1 ≠ q.2) ∧
      (∀ p ∈ m', ∀ x, p.2 ≤ x → x < p.2 + p.1 →
        ((∃ q ∈ ([(16, 0), (24, 40)] : BMap Nat), q.2 ≤ x ∧ x < q.2 + q.1) ∨
          (16 ≤ x ∧ x < 40))) ∧
      (∀ sz a1 a2, (sz, a1) ∈ m' → (sz, a2) ∈ m' → a1 = a2) :=
  Or.inr ((c4_amended [(16, 0), (24, 40)] 16 40 (by decide) (by decide)
    (by decide) (by decide)).2.2 (by decide))

/-! ## Hull lemmas for the pool-table invariant

A free range `(size, addr)` can begin below its first aligned address;
reservations only ever hand out the aligned "hull"
`[align_up addr, align_up (addr + size))`, so the table invariant tracks
hulls, not raw extents. -/

def hullLo (p : Nat × Nat) : Nat := alignUp p.2 4096

def hullHi (p : Nat × Nat) : Nat := alignUp (p.2 + p.1) 4096

theorem releaseRange_ok_lt {m : BMap Nat} {rs re : Nat} {x : Bool × BMap Nat}
    (h : releaseRange m rs re = .ok x) : rs < re := by
  unfold releaseRange at h
  by_cases h0 : re ≤ rs
  · rw [if_pos h0] at h; cases h
  · omega

theorem mem_bErase_wf {β : Type} {m : BMap β} {k : Nat} {p : Nat × β}
    (hwf : bWF m) (h : p ∈ bErase m k) : p ∈ m ∧ p.1 ≠ k := by
  induction m with
  | nil => simp [bErase] at h
  | cons q rest ih =>
    obtain ⟨k', w⟩ := q
    have hhead : ∀ r ∈ rest, k' < r.1 := fun r hr => List.rel_of_pairwise_cons hwf hr
    unfold bErase at h
    by_cases h1 : k = k'
    · subst h1
      rw [if_pos rfl] at h
      have := hhead p h
      exact ⟨List.mem_cons_of_mem _ h, by omega⟩
    · rw [if_neg h1] at h
      rcases List.mem_cons.mp h with rfl | h2
      · exact ⟨List.mem_cons_self _ _, fun hc => h1 hc.symm⟩
      · obtain ⟨hm, hk⟩ := ih hwf.tail h2
        exact ⟨List.mem_cons_of_mem _ hm, hk⟩

/-- Refined membership in the post-reservation map: an element is either
an untouched old range (with a key other than the removed one), the tail
remainder (present only when positive), or the head padding (present only
when the aligned start moved). -/
theorem mem_reservedMap {m : BMap Nat} {needed align sz ad : Nat} {q : Nat × Nat}
    (hal0 : 0 < align) (hwf : bWF m) (hq : q ∈ reservedMap m needed align sz ad) :
    (q ∈ m ∧ q.1 ≠ sz) ∨
    (q = (sz - needed - (alignUp ad align - ad), alignUp ad align + needed) ∧
      0 < sz - needed - (alignUp ad align - ad)) ∨
    (q = (alignUp ad align - ad, ad) ∧ ad < alignUp ad align) := by
  simp only [reservedMap] at hq
  have hwf1 : bWF (bErase m sz) := bErase_wf sz hwf
  by_cases h2 : 0 < sz - needed - (alignUp ad align - ad)
  · rw [if_pos h2] at hq
    have hwf2 : bWF (bInsert (bErase m sz) (sz - needed - (alignUp ad align - ad))
        (alignUp ad align + needed)) := bInsert_wf _ _ hwf1
    by_cases h3 : alignUp ad align ≠ ad
    · rw [if_pos h3] at hq
      rcases mem_bInsert hwf2 hq with rfl | ⟨hq2, -⟩
      · right; right
        have := le_alignUp ad align hal0
        exact ⟨rfl, by omega⟩
      · rcases mem_bInsert hwf1 hq2 with rfl | ⟨hq3, -⟩
        · right; left; exact ⟨rfl, h2⟩
        · exact Or.inl (mem_bErase_wf hwf hq3)
    · rw [if_neg h3] at hq
      rcases mem_bInsert hwf1 hq with rfl | ⟨hq2, -⟩
      · right; left; exact ⟨rfl, h2⟩
      · exact Or.inl (mem_bErase_wf hwf hq2)
  · rw [if_neg h2] at hq
    by_cases h3 : alignUp ad align ≠ ad
    · rw [if_pos h3] at hq
      rcases mem_bInsert hwf1 hq with rfl | ⟨hq2, -⟩
      · right; right
        have := le_alignUp ad align hal0
        exact ⟨rfl, by omega⟩
      · exact Or.inl (mem_bErase_wf hwf hq2)
    · rw [if_neg h3] at hq
      exact Or.inl (mem_bErase_wf hwf hq)

theorem pairwise_of_nodup_forall {α : Type} {R : α → α → Prop} :
    ∀ {l : List α}, l.Nodup → (∀ p ∈ l, ∀ q ∈ l, p ≠ q → R p q) →
      List.Pairwise R l := by
  intro l
  induction l with
  | nil => intro _ _; exact List.Pairwise.nil
  | cons x xs ih =>
    intro hnd hall
    refine List.Pairwise.cons ?_ ?_
    · intro y hy
      refine hall x (List.mem_cons_self _ _) y (List.mem_cons_of_mem _ hy) ?_
      intro hc
      subst hc
      exact (List.nodup_cons.mp hnd).1 hy
    · exact ih (List.nodup_cons.mp hnd).2
        (fun p hp q hq hne => hall p (List.mem_cons_of_mem _ hp)
          q (List.mem_cons_of_mem _ hq) hne)

theorem bWF_nodup {β : Type} {m : BMap β} (hwf : bWF m) : m.Nodup := by
  induction m with
  | nil => exact List.nodup_nil
  | cons p rest ih =>
    rw [List.nodup_cons]
    refine ⟨?_, ih hwf.tail⟩
    intro hmem
    have := List.rel_of_pairwise_cons hwf hmem
    omega

theorem pairwise_set {α : Type} {R : α → α → Prop} {l : List α} {i : Nat} {a : α}
    (hl : List.Pairwise R l) (ha : ∀ b ∈ l, R a b ∧ R b a) :
    List.Pairwise R (l.set i a) := by
  rw [List.pairwise_iff_get] at hl ⊢
  intro j k hjk
  have hjlen : (j : Nat) < l.length := by
    have := k.isLt
    simp only [List.length_set] at this
    omega
  have hklen : (k : Nat) < l.length := by
    have := k.isLt
    simpa using this
  have hget : ∀ (x : Fin (l.set i a).length),
      (l.set i a).get x = if i = (x : Nat) then a else l.get ⟨x, by
        have := x.isLt; simpa using this⟩ := by
    intro x
    rw [List.get_eq_getElem, List.getElem_set]
    split
    · rfl
    · rfl
  rw [hget j, hget k]
  by_cases hji : i = (j : Nat) <;> by_cases hki : i = (k : Nat)
  · omega
  · rw [if_pos hji, if_neg hki]
    exact (ha _ (l.get_mem _ _)).1
  · rw [if_neg hji, if_pos hki]
    exact (ha _ (l.get_mem _ _)).2
  · rw [if_neg hji, if_neg hki]
    exact hl ⟨j, hjlen⟩ ⟨k, hklen⟩ (by simpa using hjk)

theorem mem_set_cases {α : Type} {l : List α} {i : Nat} {a b : α}
    (h : b ∈ l.set i a) :
    b = a ∨ ∃ j, j < l.length ∧ j ≠ i ∧ l.get? j = some b := by
  obtain ⟨⟨j, hj⟩, hget⟩ := List.mem_iff_get.mp h
  have hjl : j < l.length := by simpa using hj
  rw [List.get_eq_getElem, List.getElem_set] at hget
  by_cases hji : i = j
  · rw [if_pos hji] at hget
    exact Or.inl hget.symm
  · rw [if_neg hji] at hget
    refine Or.inr ⟨j, hjl, fun hc => hji hc.symm, ?_⟩
    rw [List.get?_eq_getElem?, List.getElem?_eq_getElem hjl, hget]

/-- An aligned point inside a free range's raw extent lies inside its
hull. -/
theorem aligned_mem_hull {p : Nat × Nat} {o : Nat} (hal : o % 4096 = 0)
    (h1 : p.2 ≤ o) (h2 : o < p.2 + p.1) :
    hullLo p ≤ o ∧ o < hullHi p := by
  constructor
  · exact alignUp_le_of_le_aligned _ _ _ (by norm_num) hal h1
  · have := le_alignUp (p.2 + p.1) 4096 (by norm_num)
    unfold hullHi
    omega

/-- Hull-level coalescing: every output hull is disjoint from any target
that all input hulls avoid, output hulls are pairwise disjoint, and
output extents stay positive.  (Only exact abutment is merged, which is
what makes the hull of a merged run the union of its pieces' hulls.) -/
theorem coalGo_hull : ∀ (l : List (Nat × Nat)) (cur : Nat × Nat),
    List.Pairwise (fun p q => IntDisj (alignUp p.1 4096) (alignUp p.2 4096)
      (alignUp q.1 4096) (alignUp q.2 4096)) (cur :: l) →
    (∀ y ∈ cur :: l, y.1 < y.2) →
    (∀ z ∈ coalGo cur l, ∀ c d, IntDisj (alignUp cur.1 4096) (alignUp cur.2 4096) c d →
      (∀ y ∈ l, IntDisj (alignUp y.1 4096) (alignUp y.2 4096) c d) →
      IntDisj (alignUp z.1 4096) (alignUp z.2 4096) c d) ∧
    List.Pairwise (fun p q => IntDisj (alignUp p.1 4096) (alignUp p.2 4096)
      (alignUp q.1 4096) (alignUp q.2 4096)) (coalGo cur l) ∧
    (∀ z ∈ coalGo cur l, z.1 < z.2) := by
  intro l
  induction l with
  | nil =>
    intro cur _ hsz
    refine ⟨?_, ?_, ?_⟩
    · intro z hz c d h1 _
      simp [coalGo] at hz; subst hz; exact h1
    · simp [coalGo]
    · intro z hz; simp [coalGo] at hz; subst hz
      exact hsz _ (List.mem_cons_self _ _)
  | cons y ys ih =>
    intro cur hpw hsz
    by_cases hab : cur.2 = y.1
    · -- merge
      have hco : coalGo cur (y :: ys) = coalGo (cur.1, y.2) ys := by
        show (if cur.2 = y.1 then coalGo (cur.1, y.2) ys else cur :: coalGo y ys) = _
        rw [if_pos hab]
      have hglue : ∀ c d, IntDisj (alignUp cur.1 4096) (alignUp cur.2 4096) c d →
          IntDisj (alignUp y.1 4096) (alignUp y.2 4096) c d →
          IntDisj (alignUp cur.1 4096) (alignUp y.2 4096) c d := by
        intro c d h1 h2
        rw [hab] at h1
        exact intDisj_glue h1 h2
      have hpw' : List.Pairwise (fun p q => IntDisj (alignUp p.1 4096) (alignUp p.2 4096)
          (alignUp q.1 4096) (alignUp q.2 4096)) ((cur.1, y.2) :: ys) := by
        refine List.Pairwise.cons ?_ (hpw.tail.tail)
        intro z hz
        exact hglue _ _
          (List.rel_of_pairwise_cons hpw (List.mem_cons_of_mem _ hz))
          (List.rel_of_pairwise_cons hpw.tail hz)
      have hsz' : ∀ z ∈ (cur.1, y.2) :: ys, z.1 < z.2 := by
        intro z hz
        rcases List.mem_cons.mp hz with rfl | hz'
        · have h1 := hsz cur (List.mem_cons_self _ _)
          have h2 := hsz y (List.mem_cons_of_mem _ (List.mem_cons_self _ _))
          simp only
          omega
        · exact hsz z (List.mem_cons_of_mem _ (List.mem_cons_of_mem _ hz'))
      have hrec := ih (cur.1, y.2) hpw' hsz'
      rw [hco]
      refine ⟨?_, hrec.2.1, hrec.2.2⟩
      intro z hz c d h1 h2
      exact hrec.1 z hz c d
        (hglue c d h1 (h2 y (List.mem_cons_self _ _)))
        (fun w hw => h2 w (List.mem_cons_of_mem _ hw))
    · -- push
      have hco : coalGo cur (y :: ys) = cur :: coalGo y ys := by
        show (if cur.2 = y.1 then coalGo (cur.1, y.2) ys else cur :: coalGo y ys) = _
        rw [if_neg hab]
      have hrec := ih y hpw.tail
        (fun z hz => hsz z (List.mem_cons_of_mem _ hz))
      rw [hco]
      refine ⟨?_, ?_, ?_⟩
      · intro z hz c d h1 h2
        rcases List.mem_cons.mp hz with rfl | hz'
        · exact h1
        · exact hrec.1 z hz' c d (h2 y (List.mem_cons_self _ _))
            (fun w hw => h2 w (List.mem_cons_of_mem _ hw))
      · refine List.Pairwise.cons ?_ hrec.2.1
        intro z hz
        have := hrec.1 z hz (alignUp cur.1 4096) (alignUp cur.2 4096)
          (intDisj_symm (List.rel_of_pairwise_cons hpw (List.mem_cons_self _ _)))
          (fun w hw => intDisj_symm
            (List.rel_of_pairwise_cons hpw (List.mem_cons_of_mem _ hw)))
        exact intDisj_symm this
      · intro z hz
        rcases List.mem_cons.mp hz with rfl | hz'
        · exact hsz _ (List.mem_cons_self _ _)
        · exact hrec.2.2 z hz'

theorem coalesce_hull {l : List (Nat × Nat)}
    (hpw : List.Pairwise (fun p q => IntDisj (alignUp p.1 4096) (alignUp p.2 4096)
      (alignUp q.1 4096) (alignUp q.2 4096)) l)
    (hsz : ∀ y ∈ l, y.1 < y.2) :
    (∀ z ∈ coalesce l, ∀ c d,
      (∀ y ∈ l, IntDisj (alignUp y.1 4096) (alignUp y.2 4096) c d) →
      IntDisj (alignUp z.1 4096) (alignUp z.2 4096) c d) ∧
    List.Pairwise (fun p q => IntDisj (alignUp p.1 4096) (alignUp p.2 4096)
      (alignUp q.1 4096) (alignUp q.2 4096)) (coalesce l) ∧
    (∀ z ∈ coalesce l, z.1 < z.2) := by
  cases l with
  | nil => simp [coalesce]
  | cons x xs =>
    have h := coalGo_hull xs x hpw hsz
    have hco : coalesce (x :: xs) = coalGo x xs := rfl
    rw [hco]
    refine ⟨?_, h.2.1, h.2.2⟩
    intro z hz c d hall
    exact h.1 z hz c d (hall x (List.mem_cons_self _ _))
      (fun y hy => hall y (List.mem_cons_of_mem _ hy))

/-- Releasing an aligned range that starts in no free extent, on a map
with positive sizes and pairwise-disjoint hulls all disjoint from the
released range, succeeds with `true` and rebuilds a map that again has
positive sizes and pairwise-disjoint hulls; moreover every rebuilt hull
is disjoint from any target interval that the released range and all old
hulls avoid. -/
theorem releaseRange_hull_spec {m : BMap Nat} {rs re : Nat}
    (hwf : bWF m) (hpos : ∀ p ∈ m, 0 < p.1)
    (hfpw : ∀ p ∈ m, ∀ q ∈ m, p ≠ q →
      IntDisj (hullLo p) (hullHi p) (hullLo q) (hullHi q))
    (hal1 : rs % 4096 = 0) (hal2 : re % 4096 = 0) (hlt : rs < re)
    (hnc : ¬ ∃ p ∈ m, p.2 ≤ rs ∧ rs < p.2 + p.1)
    (hrd : ∀ q ∈ m, IntDisj rs re (hullLo q) (hullHi q)) :
    ∃ m', releaseRange m rs re = .ok (true, m') ∧
      bWF m' ∧ (∀ p ∈ m', 0 < p.1) ∧
      (∀ p ∈ m', ∀ q ∈ m', p ≠ q →
        IntDisj (hullLo p) (hullHi p) (hullLo q) (hullHi q)) ∧
      (∀ p ∈ m', ∀ c d, IntDisj rs re c d →
        (∀ q ∈ m, IntDisj (hullLo q) (hullHi q) c d) →
        IntDisj (hullLo p) (hullHi p) c d) := by
  have hposr := @pos_regionsOf m hpos
  have hnoeq := noeq_of_nocontain hposr hnc
  have hsorted := sorted_regionsOf m
  have hcomp : ∀ k, k < (regionsOf m).length →
      containsCmp (regionsOf m) rs k
        = compare ((regionsOf m).getD k (0, 0)).1 rs := by
    intro k hk
    have hne := hnoeq k hk
    rw [containsCmp_unfold] at hne ⊢
    by_cases hcond : ((regionsOf m).getD k (0, 0)).1 ≤ rs ∧
        rs < ((regionsOf m).getD k (0, 0)).1 + ((regionsOf m).getD k (0, 0)).2
    · rw [if_pos hcond] at hne; exact absurd rfl hne
    · rw [if_neg hcond]
  have hmono : ∀ i j, i ≤ j → j < (regionsOf m).length →
      ordRank (containsCmp (regionsOf m) rs i)
        ≤ ordRank (containsCmp (regionsOf m) rs j) := by
    intro i j hij hj
    have hi : i < (regionsOf m).length := by omega
    rw [hcomp i hi, hcomp j hj]
    apply ordRank_compare_mono
    rcases Nat.eq_or_lt_of_le hij with rfl | hlt'
    · exact le_rfl
    · have hgi : (regionsOf m).getD i (0, 0) = (regionsOf m).get ⟨i, hi⟩ := by
        rw [List.getD_eq_getElem?_getD, List.getElem?_eq_getElem hi]; rfl
      have hgj : (regionsOf m).getD j (0, 0) = (regionsOf m).get ⟨j, hj⟩ := by
        rw [List.getD_eq_getElem?_getD, List.getElem?_eq_getElem hj]; rfl
      rw [hgi, hgj]
      exact List.pairwise_iff_get.mp hsorted ⟨i, hi⟩ ⟨j, hj⟩ hlt'
  obtain ⟨i, hbs, -, -, -⟩ := binarySearchBy_err hmono hnoeq
  have heq := releaseRange_true_eq hlt hbs
  have har : alignUp rs 4096 = rs := alignUp_of_aligned _ _ (by norm_num) hal1
  have hare : alignUp (rs + (re - rs)) 4096 = re := by
    have h1 : rs + (re - rs) = re := by omega
    rw [h1]; exact alignUp_of_aligned _ _ (by norm_num) hal2
  have hpwm : List.Pairwise (fun p q =>
      IntDisj (hullLo p) (hullHi p) (hullLo q) (hullHi q)) m :=
    pairwise_of_nodup_forall (bWF_nodup hwf) hfpw
  have hpwr : List.Pairwise (fun p q =>
      IntDisj (alignUp p.1 4096) (alignUp (p.1 + p.2) 4096)
        (alignUp q.1 4096) (alignUp (q.1 + q.2) 4096)) (regionsOf m) := by
    refine pairwise_regionsOf (fun {a b} hab => intDisj_symm hab) ?_
    exact hpwm.imp (fun h => h)
  have hreln : ∀ q ∈ regionsOf m,
      IntDisj (alignUp q.1 4096) (alignUp (q.1 + q.2) 4096) rs re := by
    intro q hq
    obtain ⟨ad, sz⟩ := q
    exact intDisj_symm (hrd (sz, ad) (mem_regionsOf.mp hq))
  have hpwr' : List.Pairwise (fun p q =>
      IntDisj (alignUp p.1 4096) (alignUp (p.1 + p.2) 4096)
        (alignUp q.1 4096) (alignUp (q.1 + q.2) 4096))
      (insAt i (rs, re - rs) (regionsOf m)) := by
    refine @insAt_pairwise (Nat × Nat) _ (0, 0) i (rs, re - rs) (regionsOf m)
      hpwr ?_ ?_
    · intro j _ hjlen
      have hx := hreln _ (containsCmp_getD_mem hjlen)
      show IntDisj _ _ (alignUp rs 4096) (alignUp (rs + (re - rs)) 4096)
      rw [har, hare]
      exact hx
    · intro j _ hjlen
      have hx := hreln _ (containsCmp_getD_mem hjlen)
      show IntDisj (alignUp rs 4096) (alignUp (rs + (re - rs)) 4096) _ _
      rw [har, hare]
      exact intDisj_symm hx
  have hpieces_pw : List.Pairwise (fun p q =>
      IntDisj (alignUp p.1 4096) (alignUp p.2 4096)
        (alignUp q.1 4096) (alignUp q.2 4096))
      ((insAt i (rs, re - rs) (regionsOf m)).map (fun q => (q.1, q.1 + q.2))) := by
    rw [List.pairwise_map]
    exact hpwr'.imp (fun h => h)
  have hpieces_sz : ∀ y ∈ (insAt i (rs, re - rs) (regionsOf m)).map
      (fun q => (q.1, q.1 + q.2)), y.1 < y.2 := by
    intro y hy
    obtain ⟨q, hq, rfl⟩ := List.mem_map.mp hy
    rcases mem_insAt.mp hq with rfl | hq'
    · show rs < rs + (re - rs); omega
    · have := hposr q hq'
      show q.1 < q.1 + q.2; omega
  obtain ⟨hcover, hcpw, hcsz⟩ := coalesce_hull hpieces_pw hpieces_sz
  refine ⟨_, heq, buildMap_wf _, ?_, ?_, ?_⟩
  · intro p hp
    obtain ⟨s, e, hrun, rfl⟩ := mem_buildMap _ hp
    have := hcsz (s, e) hrun
    show 0 < e - s
    simp only at this
    omega
  · intro p hp q hq hne
    obtain ⟨s1, e1, hrun1, rfl⟩ := mem_buildMap _ hp
    obtain ⟨s2, e2, hrun2, rfl⟩ := mem_buildMap _ hq
    have hne' : (s1, e1) ≠ (s2, e2) := by
      intro hc; injection hc with h1 h2; subst h1; subst h2; exact hne rfl
    have hd := List.Pairwise.forall
      (fun _ _ hab => intDisj_symm hab) hcpw hrun1 hrun2 hne'
    have h1 := hcsz (s1, e1) hrun1
    have h2 := hcsz (s2, e2) hrun2
    simp only at h1 h2
    show IntDisj (alignUp s1 4096) (alignUp (s1 + (e1 - s1)) 4096)
      (alignUp s2 4096) (alignUp (s2 + (e2 - s2)) 4096)
    have hs1 : s1 + (e1 - s1) = e1 := by omega
    have hs2 : s2 + (e2 - s2) = e2 := by omega
    rw [hs1, hs2]
    exact hd
  · intro p hp c d hcd hall
    obtain ⟨s, e, hrun, rfl⟩ := mem_buildMap _ hp
    have hsle := hcsz (s, e) hrun
    simp only at hsle
    have hally : ∀ y ∈ (insAt i (rs, re - rs) (regionsOf m)).map
        (fun q => (q.1, q.1 + q.2)),
        IntDisj (alignUp y.1 4096) (alignUp y.2 4096) c d := by
      intro y hy
      obtain ⟨q, hq, rfl⟩ := List.mem_map.mp hy
      rcases mem_insAt.mp hq with rfl | hq'
      · show IntDisj (alignUp rs 4096) (alignUp (rs + (re - rs)) 4096) c d
        rw [har, hare]
        exact hcd
      · obtain ⟨ad, sz⟩ := q
        exact hall (sz, ad) (mem_regionsOf.mp hq')
    have hres := hcover (s, e) hrun c d hally
    show IntDisj (alignUp s 4096) (alignUp (s + (e - s)) 4096) c d
    have hs : s + (e - s) = e := by omega
    rw [hs]
    exact hres

/-! ## Pool-table claimed/hull invariant (table.rs `Table`) -/

theorem intDisj_empty_left (a c d : Nat) : IntDisj a a c d :=
  Or.inr (Or.inr (Or.inl le_rfl))

theorem intDisj_empty_right (a b c : Nat) : IntDisj a b c c :=
  Or.inr (Or.inr (Or.inr le_rfl))

theorem aligned_not_in_extent {p : Nat × Nat} {o hi : Nat}
    (hal : o % 4096 = 0) (hdisj : IntDisj (hullLo p) (hullHi p) o hi)
    (hohi : o < hi) (h1 : p.2 ≤ o) (h2 : o < p.2 + p.1) : False := by
  obtain ⟨hl, hh⟩ := aligned_mem_hull hal h1 h2
  exact (intDisj_iff _ _ _ _).mp hdisj o ⟨hl, hh, le_rfl, hohi⟩

theorem inv_no_extent_contains {m : BMap Nat} {o hi : Nat}
    (hall : ∀ p ∈ m, IntDisj (hullLo p) (hullHi p) o hi)
    (hal : o % 4096 = 0) (hohi : o < hi) :
    ¬ ∃ p ∈ m, p.2 ≤ o ∧ o < p.2 + p.1 := by
  rintro ⟨p, hp, h1, h2⟩
  exact aligned_not_in_extent hal (hall p hp) hohi h1 h2

/-- Invariant of a device's pool table: the free map is well-formed with
positive sizes and pairwise-disjoint hulls; every slot's offset is
page-aligned; the slots' claimed intervals `[offset, offset + real_len)`
are pairwise disjoint (a zeroed slot claims the empty interval); and
every free hull avoids every claimed interval. -/
def TInv (t : TableM) : Prop :=
  bWF t.free ∧
  (∀ p ∈ t.free, 0 < p.1) ∧
  (∀ e ∈ t.ents, e.offset % 4096 = 0) ∧
  List.Pairwise (fun e1 e2 => IntDisj e1.offset (e1.offset + realLen e1)
    e2.offset (e2.offset + realLen e2)) t.ents ∧
  (∀ p ∈ t.free, ∀ e ∈ t.ents,
    IntDisj (hullLo p) (hullHi p) e.offset (e.offset + realLen e)) ∧
  (∀ p ∈ t.free, ∀ q ∈ t.free, p ≠ q →
    IntDisj (hullLo p) (hullHi p) (hullLo q) (hullHi q))

instance (t : TableM) : Decidable (TInv t) := by
  have hrel : DecidableRel (fun e1 e2 : Ent =>
      IntDisj e1.offset (e1.offset + realLen e1)
        e2.offset (e2.offset + realLen e2)) :=
    fun e1 e2 => inferInstanceAs (Decidable (IntDisj _ _ _ _))
  unfold TInv
  exact inferInstance

theorem insertFirstEmpty_set : ∀ {l : List Ent} {newE : Ent} {j : Nat}
    {l' : List Ent}, insertFirstEmpty l newE = some (j, l') →
    j < l.length ∧ l' = l.set j newE := by
  intro l
  induction l with
  | nil => intro newE j l' h; simp [insertFirstEmpty] at h
  | cons e rest ih =>
    intro newE j l' h
    unfold insertFirstEmpty at h
    by_cases hl : entLive e
    · rw [if_pos hl] at h
      cases hrec : insertFirstEmpty rest newE with
      | none => rw [hrec] at h; cases h
      | some p =>
        obtain ⟨j0, rest'⟩ := p
        rw [hrec] at h
        simp only [Option.some_inj, Prod.mk.injEq] at h
        obtain ⟨hj, hl'⟩ := h
        obtain ⟨hlen, hset⟩ := ih hrec
        subst hj
        subst hl'
        constructor
        · simp only [List.length_cons]; omega
        · rw [hset]; rfl
    · rw [if_neg hl] at h
      simp only [Option.some_inj, Prod.mk.injEq] at h
      obtain ⟨hj, hl'⟩ := h
      subst hj
      subst hl'
      exact ⟨by simp, rfl⟩

theorem pairwise_get_ne {α : Type} {R : α → α → Prop} {l : List α}
    (h : List.Pairwise R l) (hsym : ∀ {a b}, R a b → R b a)
    {i j : Nat} {a b : α} (hi : l.get? i = some a) (hj : l.get? j = some b)
    (hne : i ≠ j) : R a b := by
  have hil : i < l.length := by
    by_contra hc
    rw [List.get?_eq_none.mpr (by omega)] at hi; cases hi
  have hjl : j < l.length := by
    by_contra hc
    rw [List.get?_eq_none.mpr (by omega)] at hj; cases hj
  have hia : l.get ⟨i, hil⟩ = a := by
    have h0 := hi
    rw [List.get?_eq_getElem?, List.getElem?_eq_getElem hil] at h0
    exact Option.some.inj h0
  have hjb : l.get ⟨j, hjl⟩ = b := by
    have h0 := hj
    rw [List.get?_eq_getElem?, List.getElem?_eq_getElem hjl] at h0
    exact Option.some.inj h0
  rcases Nat.lt_or_ge i j with hlt | hge
  · have := List.pairwise_iff_get.mp h ⟨i, hil⟩ ⟨j, hjl⟩ hlt
    rw [hia, hjb] at this; exact this
  · have hlt : j < i := by omega
    have := List.pairwise_iff_get.mp h ⟨j, hjl⟩ ⟨i, hil⟩ hlt
    rw [hia, hjb] at this; exact hsym this

/-- Reserving `needed` bytes page-aligned out of the fitting free range
`(sz, ad)` keeps positive sizes and pairwise-disjoint hulls; the new
hulls avoid the claimed block `[align_up ad, align_up ad + align_up
needed)`, which sits inside the chosen hull; every new hull avoids any
target that the chosen hull and all old hulls avoid; and every new
extent is covered by the old extents. -/
theorem reservedMap_hull_spec {m : BMap Nat} {needed sz ad : Nat}
    (hwf : bWF m) (hpos : ∀ p ∈ m, 0 < p.1)
    (hfpw : ∀ p ∈ m, ∀ q ∈ m, p ≠ q →
      IntDisj (hullLo p) (hullHi p) (hullLo q) (hullHi q))
    (hmem : (sz, ad) ∈ m)
    (hfit : needed + (alignUp ad 4096 - ad) ≤ sz) :
    (∀ q ∈ reservedMap m needed 4096 sz ad, 0 < q.1) ∧
    (∀ p ∈ reservedMap m needed 4096 sz ad,
      ∀ q ∈ reservedMap m needed 4096 sz ad, p ≠ q →
      IntDisj (hullLo p) (hullHi p) (hullLo q) (hullHi q)) ∧
    (∀ q ∈ reservedMap m needed 4096 sz ad,
      IntDisj (hullLo q) (hullHi q)
        (alignUp ad 4096) (alignUp ad 4096 + alignUp needed 4096)) ∧
    (∀ q ∈ reservedMap m needed 4096 sz ad, ∀ c d,
      IntDisj (alignUp ad 4096) (alignUp (ad + sz) 4096) c d →
      (∀ q0 ∈ m, IntDisj (hullLo q0) (hullHi q0) c d) →
      IntDisj (hullLo q) (hullHi q) c d) ∧
    alignUp ad 4096 + alignUp needed 4096 ≤ alignUp (ad + sz) 4096 ∧
    (∀ q ∈ reservedMap m needed 4096 sz ad, ∀ o,
      q.2 ≤ o → o < q.2 + q.1 → ∃ p ∈ m, p.2 ≤ o ∧ o < p.2 + p.1) := by
  have hpad : ad ≤ alignUp ad 4096 := le_alignUp ad 4096 (by norm_num)
  have hala : alignUp ad 4096 % 4096 = 0 := alignUp_mod ad 4096
  have htl : alignUp (alignUp ad 4096 + needed) 4096
      = alignUp ad 4096 + alignUp needed 4096 :=
    alignUp_add_aligned _ needed 4096 (by norm_num) hala
  have hR6 : alignUp ad 4096 + alignUp needed 4096 ≤ alignUp (ad + sz) 4096 := by
    rw [← htl]
    exact alignUp_mono _ _ _ (by omega)
  have hsum : alignUp ad 4096 + needed + (sz - needed - (alignUp ad 4096 - ad))
      = ad + sz := by omega
  have htailLo : hullLo (sz - needed - (alignUp ad 4096 - ad),
      alignUp ad 4096 + needed) = alignUp ad 4096 + alignUp needed 4096 := htl
  have htailHi : hullHi (sz - needed - (alignUp ad 4096 - ad),
      alignUp ad 4096 + needed) = alignUp (ad + sz) 4096 := by
    unfold hullHi
    rw [hsum]
  have hpadHi : hullHi (alignUp ad 4096 - ad, ad) = alignUp ad 4096 := by
    unfold hullHi
    have h0 : ad + (alignUp ad 4096 - ad) = alignUp ad 4096 := by omega
    rw [h0]
    exact alignUp_of_aligned _ _ (by norm_num) hala
  have hpadLo : hullLo (alignUp ad 4096 - ad, ad) = alignUp ad 4096 := rfl
  have hchole : ∀ {q : Nat × Nat}, q ∈ m → q.1 ≠ sz →
      IntDisj (hullLo q) (hullHi q) (alignUp ad 4096) (alignUp (ad + sz) 4096) := by
    intro q hq hqs
    have hne : q ≠ (sz, ad) := by
      intro hc; rw [hc] at hqs; exact hqs rfl
    exact hfpw q hq (sz, ad) hmem hne
  refine ⟨?_, ?_, ?_, ?_, hR6, ?_⟩
  · intro q hq
    rcases mem_reservedMap (by norm_num) hwf hq with ⟨hqm, -⟩ | ⟨rfl, hp'⟩ | ⟨rfl, hlt'⟩
    · exact hpos q hqm
    · exact hp'
    · show 0 < alignUp ad 4096 - ad; omega
  · intro p hp q hq hne
    rcases mem_reservedMap (by norm_num) hwf hp with ⟨hpm, hps⟩ | ⟨rfl, hp'⟩ | ⟨rfl, hplt⟩
    · rcases mem_reservedMap (by norm_num) hwf hq with ⟨hqm, hqs⟩ | ⟨rfl, hq'⟩ | ⟨rfl, hqlt⟩
      · exact hfpw p hpm q hqm hne
      · rw [htailLo, htailHi]
        have h0 := hchole hpm hps
        exact intDisj_symm (intDisj_mono (intDisj_symm h0)
          (by omega) le_rfl)
      · rw [hpadLo, hpadHi]
        exact intDisj_empty_right _ _ _
    · rcases mem_reservedMap (by norm_num) hwf hq with ⟨hqm, hqs⟩ | ⟨rfl, hq'⟩ | ⟨rfl, hqlt⟩
      · rw [htailLo, htailHi]
        have h0 := hchole hqm hqs
        exact intDisj_mono (intDisj_symm h0) (by omega) le_rfl
      · exact absurd rfl hne
      · rw [hpadLo, hpadHi]
        exact intDisj_empty_right _ _ _
    · rw [hpadLo, hpadHi]
      exact intDisj_empty_left _ _ _
  · intro q hq
    rcases mem_reservedMap (by norm_num) hwf hq with ⟨hqm, hqs⟩ | ⟨rfl, hq'⟩ | ⟨rfl, hqlt⟩
    · have h0 := hchole hqm hqs
      exact intDisj_symm (intDisj_mono (intDisj_symm h0) le_rfl hR6)
    · rw [htailLo, htailHi]
      exact Or.inr (Or.inl le_rfl)
    · rw [hpadLo, hpadHi]
      exact intDisj_empty_left _ _ _
  · intro q hq c d hch hall
    rcases mem_reservedMap (by norm_num) hwf hq with ⟨hqm, -⟩ | ⟨rfl, hq'⟩ | ⟨rfl, hqlt⟩
    · exact hall q hqm
    · rw [htailLo, htailHi]
      exact intDisj_mono hch (by omega) le_rfl
    · rw [hpadLo, hpadHi]
      exact intDisj_empty_left _ _ _
  · intro q hq o h1 h2
    rcases mem_reservedMap (by norm_num) hwf hq with ⟨hqm, -⟩ | ⟨rfl, hq'⟩ | ⟨rfl, hqlt⟩
    · exact ⟨q, hqm, h1, h2⟩
    · refine ⟨(sz, ad), hmem, ?_, ?_⟩
      · show ad ≤ o
        have : alignUp ad 4096 + needed ≤ o := h1
        omega
      · show o < ad + sz
        have : o < alignUp ad 4096 + needed
            + (sz - needed - (alignUp ad 4096 - ad)) := h2
        omega
    · refine ⟨(sz, ad), hmem, ?_, ?_⟩
      · show ad ≤ o
        exact h1
      · show o < ad + sz
        have : o < ad + (alignUp ad 4096 - ad) := h2
        omega

theorem tinv_allocate {t : TableM} {name : List Nat} {size : Nat}
    {o : Option Nat} {t' : TableM}
    (hinv : TInv t) (h : tableAllocate t name size = .ok (o, t')) :
    TInv t' := by
  obtain ⟨hwf, hpos, hoff, hpw, hfe, hff⟩ := hinv
  unfold tableAllocate at h
  by_cases h1 : 30 < name.length ∨ (t.ents.filter entLive).length = ENTRY_COUNT
  · rw [if_pos h1] at h
    simp only [Except.ok.injEq, Prod.mk.injEq] at h
    rw [← h.2]
    exact ⟨hwf, hpos, hoff, hpw, hfe, hff⟩
  · rw [if_neg h1] at h
    cases hres : reserveRange t.free (max size 4096) 4096 with
    | error e => rw [hres] at h; cases h
    | ok oo =>
      rw [hres] at h
      cases oo with
      | none =>
        simp only [Except.ok.injEq, Prod.mk.injEq] at h
        rw [← h.2]
        exact ⟨hwf, hpos, hoff, hpw, hfe, hff⟩
      | some p =>
        obtain ⟨r, free'⟩ := p
        simp only [Except.ok.injEq, Prod.mk.injEq] at h
        obtain ⟨-, ht'⟩ := h
        obtain ⟨-, sz, ad, hff', hr, hm'⟩ := reserveRange_ok_some hres
        obtain ⟨hmem, hfit⟩ := findFit_some hff'
        subst hm'
        obtain ⟨hpos', hfpw', havoid, htrans, hsub, -⟩ :=
          reservedMap_hull_spec hwf hpos hff hmem hfit
        have hr1 : r.1 = alignUp ad 4096 := by rw [hr]
        have hmono : alignUp size 4096 ≤ alignUp (max size 4096) 4096 :=
          alignUp_mono _ _ _ (Nat.le_max_left _ _)
        have hnewdisj : ∀ bent ∈ t.ents,
            IntDisj r.1 (r.1 + alignUp size 4096)
              bent.offset (bent.offset + realLen bent) := by
          intro bent hb
          rw [hr1]
          have h0 := hfe (sz, ad) hmem bent hb
          exact intDisj_mono h0 le_rfl (by
            show alignUp ad 4096 + alignUp size 4096 ≤ hullHi (sz, ad)
            show alignUp ad 4096 + alignUp size 4096 ≤ alignUp (ad + sz) 4096
            omega)
        subst ht'
        have hgoal : ∀ ents' : List Ent,
            (∀ e' ∈ ents', e' = (⟨r.1, size, storedName name⟩ : Ent) ∨ e' ∈ t.ents) →
            List.Pairwise (fun e1 e2 => IntDisj e1.offset (e1.offset + realLen e1)
              e2.offset (e2.offset + realLen e2)) ents' →
            TInv ⟨ents', reservedMap t.free (max size 4096) 4096 sz ad⟩ := by
          intro ents' hmemc hpw'
          refine ⟨reservedMap_wf _ _ _ _ hwf, hpos', ?_, hpw', ?_, hfpw'⟩
          · intro e' he'
            rcases hmemc e' he' with rfl | hold
            · show r.1 % 4096 = 0
              rw [hr1]
              exact alignUp_mod _ _
            · exact hoff e' hold
          · intro p hp e' he'
            rcases hmemc e' he' with rfl | hold
            · have h0 := havoid p hp
              show IntDisj (hullLo p) (hullHi p) r.1 (r.1 + realLen ⟨r.1, size, storedName name⟩)
              rw [hr1]
              exact intDisj_symm (intDisj_mono (intDisj_symm h0) le_rfl
                (Nat.add_le_add_left hmono _))
            · exact htrans p hp e'.offset (e'.offset + realLen e')
                (hfe (sz, ad) hmem e' hold)
                (fun q0 hq0 => hfe q0 hq0 e' hold)
        cases hins : insertFirstEmpty t.ents ⟨r.1, size, storedName name⟩ with
        | none =>
          exact hgoal t.ents (fun e' he' => Or.inr he') hpw
        | some jl =>
          obtain ⟨j, l⟩ := jl
          obtain ⟨hjlen, hset⟩ := insertFirstEmpty_set hins
          subst hset
          refine hgoal _ ?_ ?_
          · intro e' he'
            rcases List.mem_or_eq_of_mem_set he' with hold | rfl
            · exact Or.inr hold
            · exact Or.inl rfl
          · exact pairwise_set hpw
              (fun bent hb => ⟨hnewdisj bent hb, intDisj_symm (hnewdisj bent hb)⟩)

theorem tinv_deallocate {t : TableM} {i : Nat} {b : Bool} {t' : TableM}
    (hinv : TInv t) (h : tableDeallocate t i = .ok (b, t')) : TInv t' := by
  obtain ⟨hwf, hpos, hoff, hpw, hfe, hff⟩ := hinv
  unfold tableDeallocate at h
  cases hget : t.ents.get? i with
  | none =>
    rw [hget] at h
    simp only [Except.ok.injEq, Prod.mk.injEq] at h
    rw [← h.2]
    exact ⟨hwf, hpos, hoff, hpw, hfe, hff⟩
  | some e =>
    rw [hget] at h
    replace h : (match releaseRange t.free e.offset (e.offset + realLen e) with
        | Except.error _ => (Except.error () : Except Unit (Bool × TableM))
        | Except.ok (false, _) => Except.ok (false, t)
        | Except.ok (true, free') =>
          Except.ok (true, ⟨t.ents.set i zeroEnt, free'⟩))
        = Except.ok (b, t') := h
    have hemem : e ∈ t.ents := List.get?_mem hget
    cases hrel : releaseRange t.free e.offset (e.offset + realLen e) with
    | error u => rw [hrel] at h; cases h
    | ok p =>
      obtain ⟨bb, free'⟩ := p
      rw [hrel] at h
      cases bb with
      | false =>
        simp only [Except.ok.injEq, Prod.mk.injEq] at h
        rw [← h.2]
        exact ⟨hwf, hpos, hoff, hpw, hfe, hff⟩
      | true =>
        simp only [Except.ok.injEq, Prod.mk.injEq] at h
        obtain ⟨-, ht'⟩ := h
        subst ht'
        have hlt : e.offset < e.offset + realLen e := releaseRange_ok_lt hrel
        have hal1 : e.offset % 4096 = 0 := hoff e hemem
        have hal2 : (e.offset + realLen e) % 4096 = 0 := by
          have h0 : realLen e % 4096 = 0 := alignUp_mod _ _
          omega
        have hnc := inv_no_extent_contains (fun p hp => hfe p hp e hemem) hal1 hlt
        have hrd : ∀ q ∈ t.free, IntDisj e.offset (e.offset + realLen e)
            (hullLo q) (hullHi q) := fun q hq => intDisj_symm (hfe q hq e hemem)
        obtain ⟨m2, heqr, hwf2, hpos2, hfpw2, htrans2⟩ :=
          releaseRange_hull_spec hwf hpos hff hal1 hal2 hlt hnc hrd
        rw [heqr] at hrel
        simp only [Except.ok.injEq, Prod.mk.injEq, true_and] at hrel
        subst hrel
        have hz : realLen zeroEnt = 0 := alignUp_zero 4096
        refine ⟨hwf2, hpos2, ?_, ?_, ?_, hfpw2⟩
        · intro e' he'
          rcases List.mem_or_eq_of_mem_set he' with hold | rfl
          · exact hoff e' hold
          · show (0 : Nat) % 4096 = 0
            rfl
        · refine pairwise_set hpw ?_
          intro bent hb
          constructor
          · refine Or.inr (Or.inr (Or.inl ?_))
            show zeroEnt.offset + realLen zeroEnt ≤ zeroEnt.offset
            omega
          · refine Or.inr (Or.inr (Or.inr ?_))
            show zeroEnt.offset + realLen zeroEnt ≤ zeroEnt.offset
            omega
        · intro p hp e' he'
          rcases mem_set_cases he' with rfl | ⟨j, hjlen, hjne, hgetj⟩
          · refine Or.inr (Or.inr (Or.inr ?_))
            show zeroEnt.offset + realLen zeroEnt ≤ zeroEnt.offset
            omega
          · refine htrans2 p hp e'.offset (e'.offset + realLen e') ?_ ?_
            · exact pairwise_get_ne hpw (fun hab => intDisj_symm hab)
                hget hgetj (fun hc => hjne hc.symm)
            · intro q0 hq0
              exact hfe q0 hq0 e' (List.get?_mem hgetj)

theorem tinv_reallocate {t : TableM} {i newSize : Nat} {b : Bool} {t' : TableM}
    (hinv : TInv t) (h : tableReallocate t i newSize = .ok (b, t')) : TInv t' := by
  obtain ⟨hwf, hpos, hoff, hpw, hfe, hff⟩ := hinv
  unfold tableReallocate at h
  cases hget : t.ents.get? i with
  | none =>
    rw [hget] at h
    simp only [Except.ok.injEq, Prod.mk.injEq] at h
    rw [← h.2]
    exact ⟨hwf, hpos, hoff, hpw, hfe, hff⟩
  | some e =>
    rw [hget] at h
    replace h : (if max newSize 4096 ≤ realLen e then
        (Except.ok (false, t) : Except Unit (Bool × TableM))
      else
        match reserveRange t.free (max newSize 4096) 4096 with
        | .error _ => .error ()
        | .ok none => .ok (false, t)
        | .ok (some (r, f1)) =>
          match releaseRange f1 e.offset (e.offset + realLen e) with
          | .error _ => .error ()
          | .ok (_, f2) =>
            .ok (true, ⟨t.ents.set i
              { e with offset := r.1, length := max newSize 4096 }, f2⟩))
        = Except.ok (b, t') := h
    have hemem : e ∈ t.ents := List.get?_mem hget
    by_cases hsm : max newSize 4096 ≤ realLen e
    · rw [if_pos hsm] at h
      simp only [Except.ok.injEq, Prod.mk.injEq] at h
      rw [← h.2]
      exact ⟨hwf, hpos, hoff, hpw, hfe, hff⟩
    · rw [if_neg hsm] at h
      cases hres : reserveRange t.free (max newSize 4096) 4096 with
      | error u => rw [hres] at h; cases h
      | ok oo =>
        rw [hres] at h
        cases oo with
        | none =>
          simp only [Except.ok.injEq, Prod.mk.injEq] at h
          rw [← h.2]
          exact ⟨hwf, hpos, hoff, hpw, hfe, hff⟩
        | some p =>
          obtain ⟨r, f1⟩ := p
          obtain ⟨-, sz, ad, hff', hr, hf1⟩ := reserveRange_ok_some hres
          obtain ⟨hmem, hfit⟩ := findFit_some hff'
          subst hf1
          obtain ⟨hpos1, hfpw1, havoid1, htrans1, hsub1, hext1⟩ :=
            reservedMap_hull_spec hwf hpos hff hmem hfit
          have hwf1 : bWF (reservedMap t.free (max newSize 4096) 4096 sz ad) :=
            reservedMap_wf _ _ _ _ hwf
          replace h : (match releaseRange
              (reservedMap t.free (max newSize 4096) 4096 sz ad)
              e.offset (e.offset + realLen e) with
            | Except.error _ => (Except.error () : Except Unit (Bool × TableM))
            | Except.ok (_, f2) =>
              Except.ok (true, ⟨t.ents.set i
                { e with offset := r.1, length := max newSize 4096 }, f2⟩))
              = Except.ok (b, t') := h
          cases hrel : releaseRange (reservedMap t.free (max newSize 4096) 4096 sz ad)
              e.offset (e.offset + realLen e) with
          | error u => rw [hrel] at h; cases h
          | ok pq =>
            obtain ⟨bb, f2⟩ := pq
            rw [hrel] at h
            simp only [Except.ok.injEq, Prod.mk.injEq] at h
            obtain ⟨-, ht'⟩ := h
            subst ht'
            have hlt : e.offset < e.offset + realLen e := releaseRange_ok_lt hrel
            have hal1 : e.offset % 4096 = 0 := hoff e hemem
            have hal2 : (e.offset + realLen e) % 4096 = 0 := by
              have h0 : realLen e % 4096 = 0 := alignUp_mod _ _
              omega
            have hnc0 := inv_no_extent_contains
              (fun p hp => hfe p hp e hemem) hal1 hlt
            have hnc1 : ¬ ∃ q ∈ reservedMap t.free (max newSize 4096) 4096 sz ad,
                q.2 ≤ e.offset ∧ e.offset < q.2 + q.1 := by
              rintro ⟨q, hq, h1, h2⟩
              exact hnc0 (hext1 q hq e.offset h1 h2)
            have hrd1 : ∀ q ∈ reservedMap t.free (max newSize 4096) 4096 sz ad,
                IntDisj e.offset (e.offset + realLen e) (hullLo q) (hullHi q) := by
              intro q hq
              refine intDisj_symm (htrans1 q hq e.offset (e.offset + realLen e)
                ?_ ?_)
              · exact hfe (sz, ad) hmem e hemem
              · intro q0 hq0
                exact hfe q0 hq0 e hemem
            obtain ⟨m2, heqr, hwf2, hpos2, hfpw2, htrans2⟩ :=
              releaseRange_hull_spec hwf1 hpos1 hfpw1 hal1 hal2 hlt hnc1 hrd1
            rw [heqr] at hrel
            simp only [Except.ok.injEq, Prod.mk.injEq] at hrel
            obtain ⟨-, hf2⟩ := hrel
            subst hf2
            have hr1 : r.1 = alignUp ad 4096 := by rw [hr]
            have hnewE : realLen { e with offset := r.1, length := max newSize 4096 }
                = alignUp (max newSize 4096) 4096 := rfl
            have hnewdisj : ∀ bent ∈ t.ents,
                IntDisj r.1 (r.1 + alignUp (max newSize 4096) 4096)
                  bent.offset (bent.offset + realLen bent) := by
              intro bent hb
              rw [hr1]
              have h0 := hfe (sz, ad) hmem bent hb
              exact intDisj_mono h0 le_rfl hsub1
            refine ⟨hwf2, hpos2, ?_, ?_, ?_, hfpw2⟩
            · intro e' he'
              rcases List.mem_or_eq_of_mem_set he' with hold | rfl
              · exact hoff e' hold
              · show r.1 % 4096 = 0
                rw [hr1]
                exact alignUp_mod _ _
            · refine pairwise_set hpw ?_
              intro bent hb
              exact ⟨hnewdisj bent hb, intDisj_symm (hnewdisj bent hb)⟩
            · intro p hp e' he'
              rcases mem_set_cases he' with rfl | ⟨j, hjlen, hjne, hgetj⟩
              · refine htrans2 p hp r.1 (r.1 + alignUp (max newSize 4096) 4096)
                  (intDisj_symm (hnewdisj e hemem)) ?_
                intro q hq
                rw [hr1]
                exact havoid1 q hq
              · refine htrans2 p hp e'.offset (e'.offset + realLen e') ?_ ?_
                · exact pairwise_get_ne hpw (fun hab => intDisj_symm hab)
                    hget hgetj (fun hc => hjne hc.symm)
                · intro q hq
                  exact htrans1 q hq e'.offset (e'.offset + realLen e')
                    (hfe (sz, ad) hmem e' (List.get?_mem hgetj))
                    (fun q0 hq0 => hfe q0 hq0 e' (List.get?_mem hgetj))

/-- C3: under the table invariant `TInv` (which holds for the freshly
formatted table and is preserved), two live pool-table entries at
distinct slots claim byte-disjoint `[offset, offset + real_len)`
intervals; and `TInv` — hence this disjointness — is preserved by every
non-panicking `Table::allocate`, `Table::deallocate` and
`Table::reallocate`. -/
theorem c3_live_disjointness_invariant :
    (∀ t : TableM, TInv t → ∀ i j ei ej, i ≠ j →
      t.ents.get? i = some ei → t.ents.get? j = some ej →
      entLive ei = true → entLive ej = true →
      IntDisj ei.offset (ei.offset + realLen ei)
        ej.offset (ej.offset + realLen ej)) ∧
    (∀ (t : TableM) (name : List Nat) (size : Nat) (o : Option Nat)
      (t' : TableM), TInv t → tableAllocate t name size = .ok (o, t') →
      TInv t') ∧
    (∀ (t : TableM) (i : Nat) (b : Bool) (t' : TableM), TInv t →
      tableDeallocate t i = .ok (b, t') → TInv t') ∧
    (∀ (t : TableM) (i newSize : Nat) (b : Bool) (t' : TableM), TInv t →
      tableReallocate t i newSize = .ok (b, t') → TInv t') := by
  refine ⟨?_, fun t name size o t' hinv h => tinv_allocate hinv h,
    fun t i b t' hinv h => tinv_deallocate hinv h,
    fun t i ns b t' hinv h => tinv_reallocate hinv h⟩
  intro t hinv i j ei ej hne hgi hgj _ _
  exact pairwise_get_ne hinv.2.2.2.1 (fun hab => intDisj_symm hab) hgi hgj hne

theorem c3_live_disjointness_invariant_witness :
    TInv ⟨[⟨4096, 4096, storedName [120]⟩, zeroEnt], [(8192, 8192)]⟩ ∧
    tableDeallocate ⟨[⟨4096, 4096, storedName [120]⟩, zeroEnt], [(8192, 8192)]⟩ 0
      = .ok (true, ⟨[zeroEnt, zeroEnt], [(12288, 4096)]⟩) ∧
    TInv ⟨[zeroEnt, zeroEnt], [(12288, 4096)]⟩ :=
  ⟨by decide, by rfl,
    c3_live_disjointness_invariant.2.2.1
      ⟨[⟨4096, 4096, storedName [120]⟩, zeroEnt], [(8192, 8192)]⟩ 0 true
      ⟨[zeroEnt, zeroEnt], [(12288, 4096)]⟩ (by decide) (by rfl)⟩

/-! ## Create/get pool roundtrip toolkit (pmem.rs create_pool / get_pool) -/

theorem takeWhile_append_replicate_zero :
    ∀ (n : List Nat) (k : Nat),
      (n ++ List.replicate k 0).takeWhile (fun b => b != 0)
        = n.takeWhile (fun b => b != 0) := by
  intro n
  induction n with
  | nil =>
    intro k
    cases k with
    | zero => rfl
    | succ k0 =>
      show (List.replicate (k0 + 1) 0).takeWhile (fun b => b != 0) = []
      rw [List.replicate_succ, List.takeWhile_cons]
      norm_num
  | cons a as ih =>
    intro k
    rw [List.cons_append, List.takeWhile_cons, List.takeWhile_cons]
    by_cases hpa : (a != 0) = true
    · rw [if_pos hpa, if_pos hpa, ih k]
    · rw [if_neg hpa, if_neg hpa]

theorem entName_storedName {o len : Nat} {n : List Nat} (hlen : n.length ≤ 30) :
    entName ⟨o, len, storedName n⟩ = n.takeWhile (fun b => b != 0) := by
  show (storedName n).takeWhile (fun b => b != 0) = _
  unfold storedName
  rw [List.take_of_length_le hlen]
  exact takeWhile_append_replicate_zero n _

theorem findNamed_none {t : TableM} {n : List Nat}
    (h : ∀ e ∈ t.ents, entLive e = true → entName e ≠ n) :
    findNamed t n = none := by
  unfold findNamed liveEntries
  rw [List.find?_eq_none]
  intro q hq
  have hmem : q.2 ∈ t.ents.filter entLive := by
    exact List.getElem?_mem (List.mem_enum_iff_getElem?.mp hq)
  obtain ⟨hin, hlive⟩ := List.mem_filter.mp hmem
  intro hbeq
  exact h q.2 hin hlive (by
    have := of_decide_eq_true (by simpa using hbeq)
    exact this)

theorem find?_enumFrom_first {α : Type} {p : α → Bool} :
    ∀ (l1 : List α) (x : α) (l2 : List α) (n0 : Nat),
      (∀ y ∈ l1, p y = false) → p x = true →
      ((l1 ++ x :: l2).enumFrom n0).find? (fun q => p q.2)
        = some (n0 + l1.length, x) := by
  intro l1
  induction l1 with
  | nil =>
    intro x l2 n0 _ hpx
    rw [List.nil_append, List.enumFrom_cons]
    have h0 : ((n0, x) :: List.enumFrom (n0 + 1) l2).find? (fun q => p q.2)
        = some (n0, x) :=
      List.find?_cons_of_pos _ (by simpa using hpx)
    rw [h0]
    simp
  | cons y ys ih =>
    intro x l2 n0 hno hpx
    rw [List.cons_append, List.enumFrom_cons]
    rw [List.find?_cons_of_neg _ (by
      show ¬ p y = true
      rw [hno y (List.mem_cons_self _ _)]
      exact Bool.false_ne_true)]
    rw [ih x l2 (n0 + 1) (fun z hz => hno z (List.mem_cons_of_mem _ hz)) hpx]
    have : n0 + 1 + ys.length = n0 + (y :: ys).length := by
      simp only [List.length_cons]; omega
    rw [this]

theorem insertFirstEmpty_live_front :
    ∀ {l : List Ent} {newE : Ent} {j : Nat} {l' : List Ent},
      insertFirstEmpty l newE = some (j, l') →
      ∀ k, k < j → ∃ ek, l.get? k = some ek ∧ entLive ek = true := by
  intro l
  induction l with
  | nil => intro newE j l' h; simp [insertFirstEmpty] at h
  | cons e rest ih =>
    intro newE j l' h
    unfold insertFirstEmpty at h
    by_cases hl : entLive e
    · rw [if_pos hl] at h
      cases hrec : insertFirstEmpty rest newE with
      | none => rw [hrec] at h; cases h
      | some pp =>
        obtain ⟨j0, rest'⟩ := pp
        rw [hrec] at h
        simp only [Option.some_inj, Prod.mk.injEq] at h
        obtain ⟨hj, -⟩ := h
        subst hj
        intro k hk
        cases k with
        | zero => exact ⟨e, rfl, hl⟩
        | succ k0 => exact ih hrec k0 (by omega)
    · rw [if_neg hl] at h
      simp only [Option.some_inj, Prod.mk.injEq] at h
      obtain ⟨hj, -⟩ := h
      subst hj
      intro k hk
      omega

/-- The table after inserting a live entry named `n` at the first empty
slot `j` finds it back at yielded index `j`: every earlier slot is live
(so the filtered index equals the slot index) and no live entry of the
old table is named `n`. -/
theorem findNamed_found {l : List Ent} {fr : BMap Nat} {n : List Nat}
    {j : Nat} {newE : Ent}
    (hjlen : j < l.length)
    (hpref : ∀ k, k < j → ∃ ek, l.get? k = some ek ∧ entLive ek = true)
    (hnotn : ∀ e ∈ l, entLive e = true → entName e ≠ n)
    (hlive : entLive newE = true) (hname : entName newE = n) :
    findNamed ⟨l.set j newE, fr⟩ n = some (j, newE) := by
  have hset : l.set j newE = l.take j ++ newE :: l.drop (j + 1) :=
    List.set_eq_take_append_cons_drop.trans (by rw [if_pos hjlen])
  have htake_live : ∀ y ∈ l.take j, entLive y = true := by
    intro y hy
    obtain ⟨i, hi, hgy⟩ := List.mem_take_iff_getElem.mp hy
    have hij : i < j := by omega
    have hil : i < l.length := by omega
    obtain ⟨ek, hgk, hlk⟩ := hpref i hij
    have hek : ek = y := by
      rw [List.get?_eq_getElem?, List.getElem?_eq_getElem hil] at hgk
      exact (Option.some.inj hgk).symm.trans hgy
    rw [← hek]; exact hlk
  have hfilter : (l.set j newE).filter entLive
      = l.take j ++ newE :: (l.drop (j + 1)).filter entLive := by
    rw [hset, List.filter_append, List.filter_cons_of_pos hlive,
      List.filter_eq_self.mpr htake_live]
  show ((l.set j newE).filter entLive).enum.find?
    (fun q => entName q.2 == n) = some (j, newE)
  rw [hfilter]
  show ((l.take j ++ newE :: (l.drop (j + 1)).filter entLive).enumFrom 0).find?
    (fun q => entName q.2 == n) = some (j, newE)
  have hfind := @find?_enumFrom_first Ent (fun e => entName e == n)
    (l.take j) newE ((l.drop (j + 1)).filter entLive) 0
    (fun y hy => beq_eq_false_iff_ne.mpr
      (hnotn y (List.mem_of_mem_take hy) (htake_live y hy)))
    (beq_iff_eq.mpr hname)
  have hlen0 : (0 : Nat) + (l.take j).length = j := by
    rw [List.length_take]
    omega
  rw [hlen0] at hfind
  exact hfind

theorem findNamed_set_none {l : List Ent} {fr : BMap Nat} {n : List Nat}
    {j : Nat} {newE : Ent}
    (hnotn : ∀ e ∈ l, entLive e = true → entName e ≠ n)
    (hname : entName newE ≠ n) :
    findNamed ⟨l.set j newE, fr⟩ n = none := by
  refine findNamed_none ?_
  intro e he hlive
  rcases List.mem_or_eq_of_mem_set he with hold | rfl
  · exact hnotn e hold hlive
  · exact hname

theorem tableGet_set {l : List Ent} {fr : BMap Nat} {j : Nat} {newE : Ent}
    (hjlen : j < l.length) (hlive : entLive newE = true) :
    tableGet ⟨l.set j newE, fr⟩ j = some newE := by
  unfold tableGet
  have hg : (l.set j newE).get? j = some newE := by
    rw [List.get?_eq_getElem?]
    rw [List.getElem?_set_self (by simpa using hjlen)]
  rw [hg]
  show (if entLive newE then some newE else none) = some newE
  rw [if_pos hlive]

theorem tableAllocate_none {t : TableM} {n : List Nat} {sz : Nat} {t' : TableM}
    (h : tableAllocate t n sz = .ok (none, t')) : t' = t := by
  unfold tableAllocate at h
  by_cases h1 : 30 < n.length ∨ (t.ents.filter entLive).length = ENTRY_COUNT
  · rw [if_pos h1] at h
    simp only [Except.ok.injEq, Prod.mk.injEq] at h
    exact h.2.symm
  · rw [if_neg h1] at h
    cases hres : reserveRange t.free (max sz 4096) 4096 with
    | error e => rw [hres] at h; cases h
    | ok oo =>
      rw [hres] at h
      cases oo with
      | none =>
        simp only [Except.ok.injEq, Prod.mk.injEq] at h
        exact h.2.symm
      | some p =>
        obtain ⟨r, free'⟩ := p
        simp only [Except.ok.injEq, Prod.mk.injEq] at h
        cases h.1

theorem tableAllocate_some {t : TableM} {n : List Nat} {sz : Nat} {o : Nat}
    {t' : TableM} (h : tableAllocate t n sz = .ok (some o, t')) :
    n.length ≤ 30 ∧
    ∃ r free', reserveRange t.free (max sz 4096) 4096 = .ok (some (r, free')) ∧
      o = r.1 ∧
      t' = ⟨(match insertFirstEmpty t.ents ⟨r.1, sz, storedName n⟩ with
        | none => t.ents | some (_, l) => l), free'⟩ := by
  unfold tableAllocate at h
  by_cases h1 : 30 < n.length ∨ (t.ents.filter entLive).length = ENTRY_COUNT
  · rw [if_pos h1] at h
    simp only [Except.ok.injEq, Prod.mk.injEq] at h
    cases h.1
  · rw [if_neg h1] at h
    push_neg at h1
    cases hres : reserveRange t.free (max sz 4096) 4096 with
    | error e => rw [hres] at h; cases h
    | ok oo =>
      rw [hres] at h
      cases oo with
      | none =>
        simp only [Except.ok.injEq, Prod.mk.injEq] at h
        cases h.1
      | some p =>
        obtain ⟨r, free'⟩ := p
        simp only [Except.ok.injEq, Prod.mk.injEq] at h
        refine ⟨by omega, r, free', rfl, ?_, h.2.symm⟩
        exact (Option.some.inj h.1).symm

theorem ensureGo_skip {n : List Nat} {vm : VmState} {tr : BMap (Nat × PR)}
    {p : Pmem} {rest : List Pmem} (h : findNamed p.table n = none) :
    ensureGo n vm tr (p :: rest) = ensureGo n vm tr rest := by
  conv_lhs => rw [ensureGo]
  rw [h]

theorem ensureGo_skip_all {n : List Nat} :
    ∀ {ps : List Pmem} {vm : VmState} {tr : BMap (Nat × PR)},
      (∀ p ∈ ps, findNamed p.table n = none) →
      ensureGo n vm tr ps = .ok (none, vm, tr) := by
  intro ps
  induction ps with
  | nil => intro vm tr _; rfl
  | cons p rest ih =>
    intro vm tr h
    rw [ensureGo_skip (h p (List.mem_cons_self _ _))]
    exact ih (fun q hq => h q (List.mem_cons_of_mem _ hq))

theorem ensureGo_skip_front {n : List Nat} :
    ∀ {pre rest : List Pmem} {vm : VmState} {tr : BMap (Nat × PR)},
      (∀ p ∈ pre, findNamed p.table n = none) →
      ensureGo n vm tr (pre ++ rest) = ensureGo n vm tr rest := by
  intro pre
  induction pre with
  | nil => intro rest vm tr _; rfl
  | cons p pre' ih =>
    intro rest vm tr h
    rw [List.cons_append, ensureGo_skip (h p (List.mem_cons_self _ _))]
    exact ih (fun q hq => h q (List.mem_cons_of_mem _ hq))

theorem ensureGo_hit_cached {n : List Nat} {vm : VmState} {tr : BMap (Nat × PR)}
    {p : Pmem} {rest : List Pmem} {i : Nat} {e : Ent} {v : Nat × PR}
    (hf : findNamed p.table n = some (i, e))
    (hbl : bLookup tr e.offset = some v) :
    ensureGo n vm tr (p :: rest) = .ok (some (p.handle, i), vm, tr) := by
  simp only [ensureGo, hf, hbl, Option.isSome_some, if_true]

theorem ensureGo_hit_mapped {n : List Nat} {vm vm' : VmState}
    {tr : BMap (Nat × PR)} {p : Pmem} {rest : List Pmem} {i : Nat} {e : Ent}
    {r : PR}
    (hf : findNamed p.table n = some (i, e))
    (hbl : bLookup tr e.offset = none)
    (hvm : vmAllocate 4096 vm (p.phys + e.offset) (entFrames e)
      = .ok (some r, vm')) :
    ensureGo n vm tr (p :: rest)
      = .ok (some (p.handle, i), vm', bInsertIfAbsent tr e.offset (p.handle, r)) := by
  simp only [ensureGo, hf, hbl, Option.isSome_none, Bool.false_eq_true,
    if_false, hvm]

theorem ensureGo_hit_nofit {n : List Nat} {vm vm' : VmState}
    {tr : BMap (Nat × PR)} {p : Pmem} {rest : List Pmem} {i : Nat} {e : Ent}
    (hf : findNamed p.table n = some (i, e))
    (hbl : bLookup tr e.offset = none)
    (hvm : vmAllocate 4096 vm (p.phys + e.offset) (entFrames e)
      = .ok (none, vm')) :
    ensureGo n vm tr (p :: rest) = ensureGo n vm' tr rest := by
  simp only [ensureGo, hf, hbl, Option.isSome_none, Bool.false_eq_true,
    if_false, hvm]

theorem ensureGo_hit_error {n : List Nat} {vm : VmState}
    {tr : BMap (Nat × PR)} {p : Pmem} {rest : List Pmem} {i : Nat} {e : Ent}
    {u : Unit}
    (hf : findNamed p.table n = some (i, e))
    (hbl : bLookup tr e.offset = none)
    (hvm : vmAllocate 4096 vm (p.phys + e.offset) (entFrames e) = .error u) :
    ensureGo n vm tr (p :: rest) = .error () := by
  simp only [ensureGo, hf, hbl, Option.isSome_none, Bool.false_eq_true,
    if_false, hvm]

theorem find?_handle {h0 : Nat} :
    ∀ {pre : List Pmem} {p' : Pmem} {post : List Pmem},
      (∀ q ∈ pre, q.handle ≠ h0) → p'.handle = h0 →
      (pre ++ p' :: post).find? (fun p => p.handle == h0) = some p' := by
  intro pre
  induction pre with
  | nil =>
    intro p' post _ hp
    rw [List.nil_append]
    exact List.find?_cons_of_pos _ (beq_iff_eq.mpr hp)
  | cons q qre ih =>
    intro p' post hno hp
    rw [List.cons_append]
    rw [List.find?_cons_of_neg _ (by
      simpa using hno q (List.mem_cons_self _ _))]
    exact ih (fun z hz => hno z (List.mem_cons_of_mem _ hz)) hp

theorem allocLoop_some :
    ∀ {ps : List Pmem} {n : List Nat} {sz o : Nat} {ps' : List Pmem},
      allocLoop n sz ps = .ok (some o, ps') →
      ∃ pre p post t', ps = pre ++ p :: post ∧
        ps' = pre ++ { p with table := t' } :: post ∧
        tableAllocate p.table n sz = .ok (some o, t') := by
  intro ps
  induction ps with
  | nil =>
    intro n sz o ps' h
    simp only [allocLoop, Except.ok.injEq, Prod.mk.injEq] at h
    cases h.1
  | cons p rest ih =>
    intro n sz o ps' h
    unfold allocLoop at h
    cases hta : tableAllocate p.table n sz with
    | error u => rw [hta] at h; cases h
    | ok pr =>
      obtain ⟨res, t'⟩ := pr
      rw [hta] at h
      cases res with
      | some o' =>
        simp only [Except.ok.injEq, Prod.mk.injEq, Option.some_inj] at h
        obtain ⟨rfl, rfl⟩ := h
        exact ⟨[], p, rest, t', rfl, rfl, hta⟩
      | none =>
        have ht : t' = p.table := tableAllocate_none hta
        subst ht
        cases hrec : allocLoop n sz rest with
        | error u => rw [hrec] at h; cases h
        | ok pr2 =>
          obtain ⟨res2, rest'⟩ := pr2
          rw [hrec] at h
          simp only [Except.ok.injEq, Prod.mk.injEq] at h
          obtain ⟨hres2, hps'⟩ := h
          subst hres2
          obtain ⟨pre0, p0, post0, t0, hsplit, hsplit', hta0⟩ := ih hrec
          subst hsplit
          refine ⟨p :: pre0, p0, post0, t0, rfl, ?_, hta0⟩
          rw [← hps', hsplit']
          show p :: (pre0 ++ { p0 with table := t0 } :: post0)
            = ({ p with table := p.table } : Pmem) :: (pre0 ++ _ :: post0)
          rfl

/-- Two devices, both carrying a pool at table offset 4096: device 1
holds a live 8192-byte pool named "x" but has no free table space;
device 2 is empty with free space.  `create_pool("x", 4096)` allocates on
device 2 (same offset 4096), and the offset-keyed `translated` cache plus
the name duplicate on device 1 then break the roundtrip. -/
def exC1 : PmmState :=
  ⟨[⟨1, 1073741824, ⟨[⟨4096, 8192, storedName [120]⟩], []⟩⟩,
    ⟨2, 2147483648, ⟨[zeroEnt], [(16773120, 4096)]⟩⟩],
   [], ⟨[(4096, 12288)], []⟩⟩

/-- C1 counterexample: `create_pool("x", 4096)` succeeds returning
`(0x3000, 0x1000)`, but the immediately following `get_pool("x")` returns
`(0x3000, 0x2000)` — device 1's duplicate-named entry is found first and
its offset aliases device 2's cache entry, so the returned length is the
*other* pool's. -/
theorem c1_counterexample :
    ∃ s' s'', createPool exC1 [120] 4096 = .ok (some (12288, 4096), s') ∧
      getPool s' [120] = .ok (some (12288, 8192), s'') ∧
      ((12288 : Nat), (8192 : Nat)) ≠ ((12288 : Nat), (4096 : Nat)) := by
  refine ⟨⟨[⟨1, 1073741824, ⟨[⟨4096, 8192, storedName [120]⟩], []⟩⟩,
      ⟨2, 2147483648, ⟨[⟨4096, 4096, storedName [120]⟩], [(16769024, 8192)]⟩⟩],
    [(4096, (2, ⟨12288, 16384⟩))], ⟨[], [(12288, 2147487744)]⟩⟩,
    _, rfl, rfl, by decide⟩

/-- C1 (amended): when the device handles are pairwise distinct and no
device table holds a live entry named `n`, a successful
`create_pool(n, sz) = (a, l)` gives `l = sz`, and the immediately
following `get_pool(n)` returns exactly `(a, l)` with no further state
change.  (With a duplicate live name on another device the roundtrip
fails — see the counterexample.) -/
theorem c1_amended {s : PmmState} {n : List Nat} {sz a l : Nat}
    {s' : PmmState}
    (hh : List.Pairwise (fun p q => p.handle ≠ q.handle) s.pmems)
    (hnoliv : ∀ p ∈ s.pmems, ∀ e ∈ p.table.ents, entLive e = true →
      entName e ≠ n)
    (h : createPool s n sz = .ok (some (a, l), s')) :
    l = sz ∧ getPool s' n = .ok (some (a, l), s') := by
  have hgp0 : getPool s n = .ok (none, s) := by
    unfold getPool ensureMapped
    rw [ensureGo_skip_all (fun p hp => findNamed_none (hnoliv p hp))]
  unfold createPool at h
  rw [hgp0] at h
  replace h : (match allocLoop n sz s.pmems with
    | .error _ => (.error () : Except Unit (Option (Nat × Nat) × PmmState))
    | .ok (none, pm2) => .ok (none, { s with pmems := pm2 })
    | .ok (some _, pm2) =>
      match getPool { s with pmems := pm2 } n with
      | .error _ => .error ()
      | .ok (none, _) => .error ()
      | .ok (some q, s3) => .ok (some q, s3)) = .ok (some (a, l), s') := h
  cases hal : allocLoop n sz s.pmems with
  | error u => rw [hal] at h; cases h
  | ok pr =>
    obtain ⟨res, pm2⟩ := pr
    rw [hal] at h
    cases res with
    | none =>
      simp only [Except.ok.injEq, Prod.mk.injEq] at h
      exact absurd h.1 (by simp)
    | some o =>
      replace h : (match getPool { s with pmems := pm2 } n with
        | .error _ => (.error () : Except Unit (Option (Nat × Nat) × PmmState))
        | .ok (none, _) => .error ()
        | .ok (some q, s3) => .ok (some q, s3)) = .ok (some (a, l), s') := h
      obtain ⟨pre, p, post, t', hps, hpm2, hsucc⟩ := allocLoop_some hal
      subst hpm2
      obtain ⟨hn30, r0, free', hres, ho, ht'⟩ := tableAllocate_some hsucc
      have hpmem : p ∈ s.pmems := by
        rw [hps]; exact List.mem_append_right _ (List.mem_cons_self _ _)
      have hpreh : ∀ q ∈ pre, q.handle ≠ p.handle := by
        rw [hps] at hh
        have hcross := (List.pairwise_append.mp hh).2.2
        exact fun q hq => hcross q hq p (List.mem_cons_self _ _)
      have hpre_none : ∀ q ∈ pre, findNamed q.table n = none := by
        intro q hq
        refine findNamed_none (hnoliv q ?_)
        rw [hps]; exact List.mem_append_left _ hq
      have hpost_none : ∀ q ∈ post, findNamed q.table n = none := by
        intro q hq
        refine findNamed_none (hnoliv q ?_)
        rw [hps]; exact List.mem_append_right _ (List.mem_cons_of_mem _ hq)
      cases hins : insertFirstEmpty p.table.ents ⟨r0.1, sz, storedName n⟩ with
      | none =>
        rw [hins] at ht'
        replace ht' : t' = ⟨p.table.ents, free'⟩ := ht'
        subst ht'
        have hgp2 : getPool { s with pmems := pre ++
            { p with table := ⟨p.table.ents, free'⟩ } :: post } n
            = .ok (none, { s with pmems := pre ++
              { p with table := ⟨p.table.ents, free'⟩ } :: post }) := by
          unfold getPool ensureMapped
          rw [ensureGo_skip_all ?_]
          intro q hq
          rcases List.mem_append.mp hq with hq1 | hq2
          · exact hpre_none q hq1
          · rcases List.mem_cons.mp hq2 with rfl | hq3
            · exact findNamed_none (hnoliv p hpmem)
            · exact hpost_none q hq3
        rw [hgp2] at h
        replace h : (Except.error () :
            Except Unit (Option (Nat × Nat) × PmmState))
            = .ok (some (a, l), s') := h
        cases h
      | some jl =>
        obtain ⟨j, l'⟩ := jl
        obtain ⟨hjlen, hl'⟩ := insertFirstEmpty_set hins
        have hpref := insertFirstEmpty_live_front hins
        rw [hins] at ht'
        replace ht' : t' = ⟨l', free'⟩ := ht'
        rw [hl'] at ht'
        subst ht'
        by_cases hname : entName (⟨r0.1, sz, storedName n⟩ : Ent) = n ∧ n ≠ []
        case neg =>
          push_neg at hname
          have hnot : findNamed (⟨p.table.ents.set j ⟨r0.1, sz, storedName n⟩,
              free'⟩ : TableM) n = none := by
            refine findNamed_none ?_
            intro e he hlive
            rcases List.mem_or_eq_of_mem_set he with hold | rfl
            · exact hnoliv p hpmem e hold hlive
            · intro hc
              have hnil := hname hc
              unfold entLive at hlive
              rw [hc, hnil] at hlive
              simp at hlive
          have hgp2 : getPool { s with pmems := pre ++
              { p with table := ⟨p.table.ents.set j ⟨r0.1, sz, storedName n⟩,
                free'⟩ } :: post } n
              = .ok (none, { s with pmems := pre ++
                { p with table := ⟨p.table.ents.set j ⟨r0.1, sz, storedName n⟩,
                  free'⟩ } :: post }) := by
            unfold getPool ensureMapped
            rw [ensureGo_skip_all ?_]
            intro q hq
            rcases List.mem_append.mp hq with hq1 | hq2
            · exact hpre_none q hq1
            · rcases List.mem_cons.mp hq2 with rfl | hq3
              · exact hnot
              · exact hpost_none q hq3
          rw [hgp2] at h
          replace h : (Except.error () :
              Except Unit (Option (Nat × Nat) × PmmState))
              = .ok (some (a, l), s') := h
          cases h
        case pos =>
          obtain ⟨hname1, hnnil⟩ := hname
          have hlive : entLive (⟨r0.1, sz, storedName n⟩ : Ent) = true := by
            unfold entLive
            rw [hname1]
            cases n with
            | nil => exact absurd rfl hnnil
            | cons b bs => rfl
          have hfound : findNamed (⟨p.table.ents.set j
              ⟨r0.1, sz, storedName n⟩, free'⟩ : TableM) n
              = some (j, ⟨r0.1, sz, storedName n⟩) :=
            findNamed_found hjlen hpref (hnoliv p hpmem) hlive hname1
          have hfind : (pre ++ { p with table :=
              ⟨p.table.ents.set j ⟨r0.1, sz, storedName n⟩, free'⟩ } :: post).find?
              (fun q => q.handle == p.handle)
              = some { p with table :=
                ⟨p.table.ents.set j ⟨r0.1, sz, storedName n⟩, free'⟩ } :=
            find?_handle hpreh rfl
          have htget : tableGet (⟨p.table.ents.set j
              ⟨r0.1, sz, storedName n⟩, free'⟩ : TableM) j
              = some ⟨r0.1, sz, storedName n⟩ :=
            tableGet_set hjlen hlive
          cases hbl : bLookup s.translated r0.1 with
          | some v =>
            obtain ⟨vh, vr⟩ := v
            have heg : ensureGo n s.vm s.translated (pre ++ { p with table :=
                ⟨p.table.ents.set j ⟨r0.1, sz, storedName n⟩, free'⟩ } :: post)
                = .ok (some (p.handle, j), s.vm, s.translated) := by
              rw [ensureGo_skip_front hpre_none]
              exact ensureGo_hit_cached hfound hbl
            have hem : ensureMapped { s with pmems := pre ++ { p with table :=
                ⟨p.table.ents.set j ⟨r0.1, sz, storedName n⟩, free'⟩ } :: post } n
                = .ok (some (p.handle, j), { s with pmems := pre ++
                  { p with table := ⟨p.table.ents.set j
                    ⟨r0.1, sz, storedName n⟩, free'⟩ } :: post }) := by
              simp only [ensureMapped, heg]
            have hgp2 : getPool { s with pmems := pre ++ { p with table :=
                ⟨p.table.ents.set j ⟨r0.1, sz, storedName n⟩, free'⟩ } :: post } n
                = .ok (some (vr.start, sz), { s with pmems := pre ++
                  { p with table := ⟨p.table.ents.set j
                    ⟨r0.1, sz, storedName n⟩, free'⟩ } :: post }) := by
              simp only [getPool, hem, hfind, htget, hbl]
            rw [hgp2] at h
            replace h : (Except.ok (some (vr.start, sz), { s with pmems := pre ++
                { p with table := ⟨p.table.ents.set j
                  ⟨r0.1, sz, storedName n⟩, free'⟩ } :: post }) :
                Except Unit (Option (Nat × Nat) × PmmState))
                = .ok (some (a, l), s') := h
            simp only [Except.ok.injEq, Prod.mk.injEq, Option.some_inj] at h
            obtain ⟨⟨ha, hl⟩, hs⟩ := h
            subst ha
            subst hl
            subst hs
            exact ⟨rfl, hgp2⟩
          | none =>
            cases hvm : vmAllocate 4096 s.vm (p.phys + r0.1)
                (entFrames ⟨r0.1, sz, storedName n⟩) with
            | error u =>
              have heg : ensureGo n s.vm s.translated (pre ++ { p with table :=
                  ⟨p.table.ents.set j ⟨r0.1, sz, storedName n⟩, free'⟩ } :: post)
                  = .error () := by
                rw [ensureGo_skip_front hpre_none]
                exact ensureGo_hit_error hfound hbl hvm
              have hgp2 : getPool { s with pmems := pre ++ { p with table :=
                  ⟨p.table.ents.set j ⟨r0.1, sz, storedName n⟩, free'⟩ } :: post } n
                  = .error () := by
                simp only [getPool, ensureMapped, heg]
              rw [hgp2] at h
              replace h : (Except.error () :
                  Except Unit (Option (Nat × Nat) × PmmState))
                  = .ok (some (a, l), s') := h
              cases h
            | ok pv =>
              obtain ⟨ores, vm1⟩ := pv
              cases ores with
              | none =>
                have heg : ensureGo n s.vm s.translated (pre ++ { p with table :=
                    ⟨p.table.ents.set j ⟨r0.1, sz, storedName n⟩, free'⟩ } :: post)
                    = .ok (none, vm1, s.translated) := by
                  rw [ensureGo_skip_front hpre_none]
                  exact (@ensureGo_hit_nofit n s.vm vm1 s.translated
                    ⟨p.handle, p.phys, ⟨p.table.ents.set j
                      ⟨r0.1, sz, storedName n⟩, free'⟩⟩
                    post j ⟨r0.1, sz, storedName n⟩ hfound hbl hvm).trans
                    (ensureGo_skip_all hpost_none)
                have hgp2 : getPool { s with pmems := pre ++ { p with table :=
                    ⟨p.table.ents.set j ⟨r0.1, sz, storedName n⟩, free'⟩ } :: post } n
                    = .ok (none, (⟨pre ++ { p with table :=
                      ⟨p.table.ents.set j ⟨r0.1, sz, storedName n⟩, free'⟩ } :: post,
                      s.translated, vm1⟩ : PmmState)) := by
                  simp only [getPool, ensureMapped, heg]
                rw [hgp2] at h
                replace h : (Except.error () :
                    Except Unit (Option (Nat × Nat) × PmmState))
                    = .ok (some (a, l), s') := h
                cases h
              | some r =>
                have heg : ensureGo n s.vm s.translated (pre ++ { p with table :=
                    ⟨p.table.ents.set j ⟨r0.1, sz, storedName n⟩, free'⟩ } :: post)
                    = .ok (some (p.handle, j), vm1,
                      bInsertIfAbsent s.translated r0.1 (p.handle, r)) := by
                  rw [ensureGo_skip_front hpre_none]
                  exact @ensureGo_hit_mapped n s.vm vm1 s.translated
                    ⟨p.handle, p.phys, ⟨p.table.ents.set j
                      ⟨r0.1, sz, storedName n⟩, free'⟩⟩
                    post j ⟨r0.1, sz, storedName n⟩ r hfound hbl hvm
                have hbl3 : bLookup (bInsertIfAbsent s.translated r0.1
                    (p.handle, r)) r0.1 = some (p.handle, r) :=
                  bLookup_insertIfAbsent_self _ _ _ hbl
                have hem : ensureMapped { s with pmems := pre ++ { p with table :=
                    ⟨p.table.ents.set j ⟨r0.1, sz, storedName n⟩, free'⟩ } :: post } n
                    = .ok (some (p.handle, j),
                      (⟨pre ++ { p with table := ⟨p.table.ents.set j
                        ⟨r0.1, sz, storedName n⟩, free'⟩ } :: post,
                       bInsertIfAbsent s.translated r0.1 (p.handle, r),
                       vm1⟩ : PmmState)) := by
                  simp only [ensureMapped, heg]
                have hgp2 : getPool { s with pmems := pre ++ { p with table :=
                    ⟨p.table.ents.set j ⟨r0.1, sz, storedName n⟩, free'⟩ } :: post } n
                    = .ok (some (r.start, sz),
                      (⟨pre ++ { p with table := ⟨p.table.ents.set j
                        ⟨r0.1, sz, storedName n⟩, free'⟩ } :: post,
                       bInsertIfAbsent s.translated r0.1 (p.handle, r),
                       vm1⟩ : PmmState)) := by
                  simp only [getPool, hem, hfind, htget, hbl3]
                rw [hgp2] at h
                replace h : (Except.ok (some (r.start, sz),
                    (⟨pre ++ { p with table := ⟨p.table.ents.set j
                      ⟨r0.1, sz, storedName n⟩, free'⟩ } :: post,
                     bInsertIfAbsent s.translated r0.1 (p.handle, r),
                     vm1⟩ : PmmState)) :
                    Except Unit (Option (Nat × Nat) × PmmState))
                    = .ok (some (a, l), s') := h
                simp only [Except.ok.injEq, Prod.mk.injEq, Option.some_inj] at h
                obtain ⟨⟨ha, hl⟩, hs⟩ := h
                subst ha
                subst hl
                subst hs
                refine ⟨rfl, ?_⟩
                have heg2 : ensureGo n vm1 (bInsertIfAbsent s.translated r0.1
                    (p.handle, r)) (pre ++ { p with table :=
                    ⟨p.table.ents.set j ⟨r0.1, sz, storedName n⟩, free'⟩ } :: post)
                    = .ok (some (p.handle, j), vm1,
                      bInsertIfAbsent s.translated r0.1 (p.handle, r)) := by
                  rw [ensureGo_skip_front hpre_none]
                  exact ensureGo_hit_cached hfound hbl3
                have hem2 : ensureMapped (⟨pre ++ { p with table :=
                    ⟨p.table.ents.set j ⟨r0.1, sz, storedName n⟩, free'⟩ } :: post,
                    bInsertIfAbsent s.translated r0.1 (p.handle, r),
                    vm1⟩ : PmmState) n
                    = .ok (some (p.handle, j),
                      (⟨pre ++ { p with table := ⟨p.table.ents.set j
                        ⟨r0.1, sz, storedName n⟩, free'⟩ } :: post,
                       bInsertIfAbsent s.translated r0.1 (p.handle, r),
                       vm1⟩ : PmmState)) := by
                  simp only [ensureMapped, heg2]
                have hgp3 : getPool (⟨pre ++ { p with table :=
                    ⟨p.table.ents.set j ⟨r0.1, sz, storedName n⟩, free'⟩ } :: post,
                    bInsertIfAbsent s.translated r0.1 (p.handle, r),
                    vm1⟩ : PmmState) n
                    = .ok (some (r.start, sz),
                      (⟨pre ++ { p with table := ⟨p.table.ents.set j
                        ⟨r0.1, sz, storedName n⟩, free'⟩ } :: post,
                       bInsertIfAbsent s.translated r0.1 (p.handle, r),
                       vm1⟩ : PmmState)) := by
                  simp only [getPool, hem2, hfind, htget, hbl3]
                exact hgp3

theorem c1_amended_witness :
    List.Pairwise (fun p q => p.handle ≠ q.handle)
      (PmmState.mk [⟨1, 1073741824, ⟨[zeroEnt], [(16773120, 4096)]⟩⟩]
        [] ⟨[(4096, 12288)], []⟩).pmems ∧
    (∀ p ∈ (PmmState.mk [⟨1, 1073741824, ⟨[zeroEnt], [(16773120, 4096)]⟩⟩]
        [] ⟨[(4096, 12288)], []⟩).pmems,
      ∀ e ∈ p.table.ents, entLive e = true → entName e ≠ [120]) ∧
    createPool (PmmState.mk [⟨1, 1073741824, ⟨[zeroEnt], [(16773120, 4096)]⟩⟩]
        [] ⟨[(4096, 12288)], []⟩) [120] 4096
      = .ok (some (12288, 4096),
        ⟨[⟨1, 1073741824, ⟨[⟨4096, 4096, storedName [120]⟩],
          [(16769024, 8192)]⟩⟩],
         [(4096, (1, ⟨12288, 16384⟩))], ⟨[], [(12288, 1073745920)]⟩⟩) ∧
    ((4096 : Nat) = 4096 ∧
      getPool (⟨[⟨1, 1073741824, ⟨[⟨4096, 4096, storedName [120]⟩],
          [(16769024, 8192)]⟩⟩],
         [(4096, (1, ⟨12288, 16384⟩))], ⟨[], [(12288, 1073745920)]⟩⟩ : PmmState)
        [120]
        = .ok (some (12288, 4096),
          ⟨[⟨1, 1073741824, ⟨[⟨4096, 4096, storedName [120]⟩],
            [(16769024, 8192)]⟩⟩],
           [(4096, (1, ⟨12288, 16384⟩))], ⟨[], [(12288, 1073745920)]⟩⟩)) :=
  ⟨by decide, by decide, by rfl,
    @c1_amended
      (PmmState.mk [⟨1, 1073741824, ⟨[zeroEnt], [(16773120, 4096)]⟩⟩]
        [] ⟨[(4096, 12288)], []⟩) [120] 4096 12288 4096
      (⟨[⟨1, 1073741824, ⟨[⟨4096, 4096, storedName [120]⟩],
          [(16769024, 8192)]⟩⟩],
        [(4096, (1, ⟨12288, 16384⟩))], ⟨[], [(12288, 1073745920)]⟩⟩ : PmmState)
      (by decide) (by decide) (by rfl)⟩

/-! ## Claim C7 -/

theorem bLookup_bInsert_ne {β : Type} {m : BMap β} {k k' : Nat} {v : β}
    (hne : k' ≠ k) : bLookup (bInsert m k v) k' = bLookup m k' := by
  induction m with
  | nil => simp [bInsert, bLookup, hne]
  | cons p rest ih =>
    obtain ⟨k0, w⟩ := p
    unfold bInsert
    by_cases h1 : k < k0
    · simp only [if_pos h1, bLookup, if_neg hne]
    · by_cases h2 : k = k0
      · subst h2
        simp only [if_neg h1, if_pos rfl, bLookup, if_neg hne]
      · simp only [if_neg h1, if_neg h2, bLookup]
        by_cases h3 : k' = k0
        · rw [if_pos h3, if_pos h3]
        · rw [if_neg h3, if_neg h3]
          exact ih

theorem bLookup_bInsertIfAbsent_ne {β : Type} {m : BMap β} {k k' : Nat} {v : β}
    (hne : k' ≠ k) : bLookup (bInsertIfAbsent m k v) k' = bLookup m k' := by
  unfold bInsertIfAbsent
  cases bLookup m k with
  | some w => rfl
  | none => exact bLookup_bInsert_ne hne

theorem bLookup_bInsertIfAbsent_eq {β : Type} (m : BMap β) (k : Nat) (v : β) :
    bLookup (bInsertIfAbsent m k v) k =
      match bLookup m k with
      | some w => some w
      | none => some v := by
  unfold bInsertIfAbsent
  cases h : bLookup m k with
  | some w => simp [h]
  | none => simp [bLookup_insert_self]

/-- The mappings for a device handle carried by a region-mapping entry
list, in order: `(physical_id, spa_range_index)` pairs. -/
def mappingsFor (es : List NfitE) (h : Nat) : List (Nat × Nat) :=
  es.filterMap (fun e =>
    match e with
    | .mapping h' pid sidx => if h' = h then some (pid, sidx) else none
    | _ => none)

/-- The first SPA-range entry with the given index (the winner of
`spas.entry(idx).or_insert`): its `(base, length)`. -/
def firstSpa (es : List NfitE) (idx : Nat) : Option (Nat × Nat) :=
  es.findSome? (fun e =>
    match e with
    | .spa i b l => if i = idx then some (b, l) else none
    | _ => none)

theorem spasOf_lookup (es : List NfitE) (idx : Nat) :
    bLookup (spasOf es) idx = firstSpa es idx := by
  have aux : ∀ (l : List NfitE) (acc : BMap (Nat × Nat)),
      bLookup (l.foldl (fun m e =>
        match e with
        | .spa i b c => bInsertIfAbsent m i (b, c)
        | _ => m) acc) idx =
      match bLookup acc idx with
      | some v => some v
      | none => firstSpa l idx := by
    intro l
    induction l with
    | nil =>
      intro acc
      simp [firstSpa, List.findSome?]
      cases bLookup acc idx <;> simp
    | cons e rest ih =>
      intro acc
      cases e with
      | spa i b c =>
        simp only [List.foldl_cons]
        rw [ih]
        have hcons : firstSpa (NfitE.spa i b c :: rest) idx =
            if i = idx then some (b, c) else firstSpa rest idx := by
          unfold firstSpa
          rw [List.findSome?_cons]
          by_cases hi : i = idx
          · simp [hi]
          · simp [hi]
        by_cases hi : i = idx
        · subst hi
          rw [bLookup_bInsertIfAbsent_eq, hcons, if_pos rfl]
          cases hL : bLookup acc i <;> simp
        · rw [bLookup_bInsertIfAbsent_ne (fun hc => hi hc.symm), hcons, if_neg hi]
      | mapping h' pid sidx =>
        simp only [List.foldl_cons]
        rw [ih]
        have hcons : firstSpa (NfitE.mapping h' pid sidx :: rest) idx = firstSpa rest idx := by
          unfold firstSpa
          rw [List.findSome?_cons]
        rw [hcons]
      | flush h' cnt addrs =>
        simp only [List.foldl_cons]
        rw [ih]
        have hcons : firstSpa (NfitE.flush h' cnt addrs :: rest) idx = firstSpa rest idx := by
          unfold firstSpa
          rw [List.findSome?_cons]
        rw [hcons]
      | other =>
        simp only [List.foldl_cons]
        rw [ih]
        have hcons : firstSpa (NfitE.other :: rest) idx = firstSpa rest idx := by
          unfold firstSpa
          rw [List.findSome?_cons]
        rw [hcons]
  have := aux es []
  simpa [bLookup] using this

/-- Device-map invariant before the handle's region mapping is processed:
either absent, or created by a flush-hint entry with the default zero
`phys`/`size`. -/
def devPre (m : BMap Dev) (h : Nat) : Prop :=
  bLookup m h = none ∨ ∃ d, bLookup m h = some d ∧ d.phys = 0 ∧ d.size = 0

/-- Device-map invariant after the handle's region mapping is processed. -/
def devPost (m : BMap Dev) (h pid ph sz : Nat) : Prop :=
  ∃ d, bLookup m h = some d ∧ d.handle = h ∧ d.physId = pid ∧
    d.phys = ph ∧ d.size = sz

theorem devStep_pre {spas : BMap (Nat × Nat)} {m : BMap Dev} {h : Nat}
    (hA : devPre m h) (e : NfitE)
    (he : ∀ pid sidx, e ≠ .mapping h pid sidx) :
    devPre (devStep spas m e) h := by
  cases e with
  | spa i b c => exact hA
  | other => exact hA
  | mapping h' pid sidx =>
    have hne : h ≠ h' := fun hc => he pid sidx (by rw [hc])
    unfold devStep
    rcases hA with hA | ⟨d, hd, h1, h2⟩
    · left; rw [bLookup_bInsert_ne hne]; exact hA
    · right; exact ⟨d, by rw [bLookup_bInsert_ne hne]; exact hd, h1, h2⟩
  | flush h' cnt addrs =>
    unfold devStep
    by_cases hne : h = h'
    · subst hne
      rcases hA with hA | ⟨d, hd, h1, h2⟩
      · right
        refine ⟨_, bLookup_insert_self _ _ _, ?_, ?_⟩ <;> simp [hA, defaultDev]
      · right
        refine ⟨_, bLookup_insert_self _ _ _, ?_, ?_⟩ <;> simp [hd, h1, h2]
    · rcases hA with hA | ⟨d, hd, h1, h2⟩
      · left; rw [bLookup_bInsert_ne hne]; exact hA
      · right; exact ⟨d, by rw [bLookup_bInsert_ne hne]; exact hd, h1, h2⟩

theorem devStep_post {spas : BMap (Nat × Nat)} {m : BMap Dev}
    {h pid ph sz : Nat} (hB : devPost m h pid ph sz) (e : NfitE)
    (he : ∀ pid' sidx', e ≠ .mapping h pid' sidx') :
    devPost (devStep spas m e) h pid ph sz := by
  obtain ⟨d, hd, hh, hpid, hph, hsz⟩ := hB
  cases e with
  | spa i b c => exact ⟨d, hd, hh, hpid, hph, hsz⟩
  | other => exact ⟨d, hd, hh, hpid, hph, hsz⟩
  | mapping h' pid' sidx' =>
    have hne : h ≠ h' := fun hc => he pid' sidx' (by rw [hc])
    unfold devStep
    exact ⟨d, by rw [bLookup_bInsert_ne hne]; exact hd, hh, hpid, hph, hsz⟩
  | flush h' cnt addrs =>
    unfold devStep
    by_cases hne : h = h'
    · subst hne
      refine ⟨_, bLookup_insert_self _ _ _, ?_⟩
      simp [hd]
      exact ⟨hh, hpid, hph, hsz⟩
    · exact ⟨d, by rw [bLookup_bInsert_ne hne]; exact hd, hh, hpid, hph, hsz⟩

theorem devFold_pre {spas : BMap (Nat × Nat)} {h : Nat} :
    ∀ (es : List NfitE) (m : BMap Dev), mappingsFor es h = [] →
      devPre m h → devPre (es.foldl (devStep spas) m) h := by
  intro es
  induction es with
  | nil => intro m _ hA; exact hA
  | cons e rest ih =>
    intro m hm hA
    have hstep : ∀ pid sidx, e ≠ .mapping h pid sidx := by
      intro pid sidx hc
      subst hc
      simp [mappingsFor, List.filterMap_cons] at hm
    have hrest : mappingsFor rest h = [] := by
      cases e with
      | mapping h' pid sidx =>
        by_cases hh : h' = h
        · subst hh
          exact absurd rfl (hstep pid sidx)
        · simpa [mappingsFor, List.filterMap_cons, hh] using hm
      | spa i b c => simpa [mappingsFor, List.filterMap_cons] using hm
      | flush h' cnt addrs => simpa [mappingsFor, List.filterMap_cons] using hm
      | other => simpa [mappingsFor, List.filterMap_cons] using hm
    exact ih _ hrest (devStep_pre hA e hstep)

theorem devFold_post {spas : BMap (Nat × Nat)} {h pid ph sz : Nat} :
    ∀ (es : List NfitE) (m : BMap Dev), mappingsFor es h = [] →
      devPost m h pid ph sz →
      devPost (es.foldl (devStep spas) m) h pid ph sz := by
  intro es
  induction es with
  | nil => intro m _ hB; exact hB
  | cons e rest ih =>
    intro m hm hB
    have hstep : ∀ pid' sidx', e ≠ .mapping h pid' sidx' := by
      intro pid' sidx' hc
      subst hc
      simp [mappingsFor, List.filterMap_cons] at hm
    have hrest : mappingsFor rest h = [] := by
      cases e with
      | mapping h' pid' sidx' =>
        by_cases hh : h' = h
        · subst hh
          exact absurd rfl (hstep pid' sidx')
        · simpa [mappingsFor, List.filterMap_cons, hh] using hm
      | spa i b c => simpa [mappingsFor, List.filterMap_cons] using hm
      | flush h' cnt addrs => simpa [mappingsFor, List.filterMap_cons] using hm
      | other => simpa [mappingsFor, List.filterMap_cons] using hm
    exact ih _ hrest (devStep_post hB e hstep)

theorem devFold_main {spas : BMap (Nat × Nat)} {h pid sidx : Nat} :
    ∀ (es : List NfitE) (m : BMap Dev), mappingsFor es h = [(pid, sidx)] →
      devPre m h →
      devPost (es.foldl (devStep spas) m) h pid
        (match bLookup spas sidx with | some q => q.1 | none => 0)
        (match bLookup spas sidx with | some q => q.2 | none => 0) := by
  intro es
  induction es with
  | nil => intro m hm; simp [mappingsFor] at hm
  | cons e rest ih =>
    intro m hm hA
    by_cases hme : e = .mapping h pid sidx ∧ mappingsFor rest h = []
    · obtain ⟨rfl, hrest⟩ := hme
      apply devFold_post rest _ hrest
      unfold devStep
      rcases hs : bLookup spas sidx with - | ⟨b, l⟩
      · simp only [hs]
        rcases hA with hA | ⟨d, hd, h1, h2⟩
        · refine ⟨_, bLookup_insert_self _ _ _, ?_⟩
          simp [hA, defaultDev]
        · refine ⟨_, bLookup_insert_self _ _ _, ?_⟩
          simp [hd]
          exact ⟨h1, h2⟩
      · simp only [hs]
        refine ⟨_, bLookup_insert_self _ _ _, ?_⟩
        simp
    · -- e is not the (single) mapping for h, so it contributes nothing
      have hsplit : mappingsFor rest h = [(pid, sidx)] ∧
          ∀ pid' sidx', e ≠ .mapping h pid' sidx' := by
        cases e with
        | mapping h' pid' sidx' =>
          by_cases hh : h' = h
          · subst hh
            rw [show mappingsFor (NfitE.mapping h' pid' sidx' :: rest) h'
                = (pid', sidx') :: mappingsFor rest h' from by
              simp [mappingsFor, List.filterMap_cons]] at hm
            simp only [List.cons.injEq] at hm
            obtain ⟨heq, hrest⟩ := hm
            injection heq with h1 h2
            subst h1
            subst h2
            exact absurd ⟨rfl, hrest⟩ hme
          · constructor
            · simpa [mappingsFor, List.filterMap_cons, hh] using hm
            · intro pid2 sidx2 hc
              cases hc
              exact hh rfl
        | spa i b c =>
          exact ⟨by simpa [mappingsFor, List.filterMap_cons] using hm,
            fun _ _ hc => by cases hc⟩
        | flush h' cnt addrs =>
          exact ⟨by simpa [mappingsFor, List.filterMap_cons] using hm,
            fun _ _ hc => by cases hc⟩
        | other =>
          exact ⟨by simpa [mappingsFor, List.filterMap_cons] using hm,
            fun _ _ hc => by cases hc⟩
      exact ih _ hsplit.1 (devStep_pre hA e hsplit.2)

/-- C7 counterexample: an NFIT whose single entry is a region mapping
(handle 1, physical id 7) referencing SPA-range index 5, with no SPA-range
entry at all: `get_devices` does **not** omit the device — it returns it
with the default `phys_addr = 0` and `size = 0`. -/
theorem c7_counterexample :
    getDevices [NfitE.mapping 1 7 5] = [⟨1, 7, 0, 0, none⟩] ∧
      getDevices [NfitE.mapping 1 7 5] ≠ [] := ⟨rfl, by decide⟩

/-- C7 (amended): a region-mapping entry whose SPA-range index matches no
SPA-range entry still yields a device in the output — with `phys_addr`
and `size` left at the default `0` — rather than being omitted; when the
reference does match, the returned device's `phys_addr` and `size` come
from the *first* SPA-range entry with that index.  (Stated for a handle
carrying exactly one region mapping.) -/
theorem c7_amended (es : List NfitE) (h pid sidx : Nat)
    (hm : mappingsFor es h = [(pid, sidx)]) :
    ∃ d ∈ getDevices es, d.handle = h ∧ d.physId = pid ∧
      (firstSpa es sidx = none → d.phys = 0 ∧ d.size = 0) ∧
      (∀ b l, firstSpa es sidx = some (b, l) → d.phys = b ∧ d.size = l) := by
  have hmain := @devFold_main (spasOf es) h pid sidx es [] hm (Or.inl rfl)
  obtain ⟨d, hd, hh, hpid, hph, hsz⟩ := hmain
  refine ⟨d, ?_, hh, hpid, ?_, ?_⟩
  · unfold getDevices
    have hmem : (h, d) ∈ es.foldl (devStep (spasOf es)) [] := bLookup_mem hd
    have hmem2 : d ∈ (es.foldl (devStep (spasOf es)) []).map Prod.snd :=
      List.mem_map_of_mem Prod.snd hmem
    exact ((List.perm_insertionSort devLE _).mem_iff).mpr hmem2
  · intro hnone
    rw [← spasOf_lookup] at hnone
    rw [hnone] at hph hsz
    exact ⟨hph, hsz⟩
  · intro b l hsome
    rw [← spasOf_lookup] at hsome
    rw [hsome] at hph hsz
    exact ⟨hph, hsz⟩

theorem c7_amended_witness :
    ∃ d ∈ getDevices [NfitE.spa 5 4096 65536, NfitE.mapping 1 7 5],
      d.handle = 1 ∧ d.physId = 7 ∧
      (firstSpa [NfitE.spa 5 4096 65536, NfitE.mapping 1 7 5] 5 = none →
        d.phys = 0 ∧ d.size = 0) ∧
      (∀ b l, firstSpa [NfitE.spa 5 4096 65536, NfitE.mapping 1 7 5] 5 = some (b, l) →
        d.phys = b ∧ d.size = l) :=
  c7_amended [NfitE.spa 5 4096 65536, NfitE.mapping 1 7 5] 1 7 5 rfl

/-! ## Claim C8 -/

/-- On the 4-byte table body `[8, 0, 0, 0]` — one entry header with
type 8 (reserved, skipped) and declared length 0 — no amount of fuel
finishes the iteration: the cursor does not advance and the remaining
length is unchanged, so `next()` spins forever. -/
theorem nfit_zero_length_loops : ∀ fuel, nfitEntries [8, 0, 0, 0] 0 4 fuel = none := by
  intro fuel
  induction fuel with
  | zero => rfl
  | succ f ih =>
    have h1 : nfitEntries [8, 0, 0, 0] 0 4 (f + 1)
        = match nfitEntries [8, 0, 0, 0] 0 4 f with
          | none => none
          | some l => some l := rfl
    rw [h1, ih]

/-- C8 counterexample: iterating the NFIT table body `[8, 0, 0, 0]`
(remaining length 4, a single reserved-type entry of declared length 0)
does not terminate. -/
theorem c8_counterexample : ¬ nfitTerminates [8, 0, 0, 0] 0 4 := by
  rintro ⟨fuel, h⟩
  rw [nfit_zero_length_loops fuel] at h
  simp at h

theorem nfitEntries_of_parse (bytes : List Nat) :
    ∀ remaining, remaining < UP32 → ∀ pos pl fuelP fuelE,
      remaining ≤ fuelP → remaining ≤ fuelE →
      nfitParse bytes pos remaining fuelP = some pl →
      nfitEntries bytes pos remaining fuelE =
        some ((pl.filter (fun e => e.2.1 ≤ 7)).map (fun e => (e.2.1, e.1))) := by
  intro remaining
  induction remaining using Nat.strong_induction_on with
  | _ remaining ih =>
    intro h32 pos pl fuelP fuelE hfp hfe hp
    cases hrem : remaining with
    | zero =>
      subst hrem
      have hpl : pl = [] := by
        cases fuelP with
        | zero => simpa [nfitParse] using hp.symm
        | succ fp => simpa [nfitParse] using hp.symm
      subst hpl
      cases fuelE with
      | zero => simp [nfitEntries]
      | succ fe => simp [nfitEntries]
    | succ r' =>
      subst hrem
      obtain ⟨fp, rfl⟩ : ∃ fp, fuelP = fp + 1 := ⟨fuelP - 1, by omega⟩
      obtain ⟨fe, rfl⟩ : ∃ fe, fuelE = fe + 1 := ⟨fuelE - 1, by omega⟩
      rw [show nfitParse bytes pos (r' + 1) (fp + 1)
          = (if 0 < hdrLen bytes pos ∧ hdrLen bytes pos ≤ r' + 1 then
              match nfitParse bytes (pos + hdrLen bytes pos)
                  (r' + 1 - hdrLen bytes pos) fp with
              | none => none
              | some l => some ((pos, hdrType bytes pos, hdrLen bytes pos) :: l)
            else none) from by rw [nfitParse]; rw [if_neg (by omega)]] at hp
      by_cases hg : 0 < hdrLen bytes pos ∧ hdrLen bytes pos ≤ r' + 1
      · rw [if_pos hg] at hp
        cases hrec : nfitParse bytes (pos + hdrLen bytes pos) (r' + 1 - hdrLen bytes pos) fp with
        | none => rw [hrec] at hp; cases hp
        | some l =>
          rw [hrec] at hp
          simp only [Option.some_inj] at hp
          subst hp
          have hrec2 := ih (r' + 1 - hdrLen bytes pos) (by omega) (by omega)
            (pos + hdrLen bytes pos) l fp fe (by omega) (by omega) hrec
          have hmod : (r' + 1 + (UP32 - hdrLen bytes pos)) % UP32
              = r' + 1 - hdrLen bytes pos := by
            have hlen32 : hdrLen bytes pos ≤ UP32 := by omega
            have heq : r' + 1 + (UP32 - hdrLen bytes pos)
                = (r' + 1 - hdrLen bytes pos) + UP32 := by omega
            rw [heq, Nat.add_mod_right]
            exact Nat.mod_eq_of_lt (by omega)
          rw [show nfitEntries bytes pos (r' + 1) (fe + 1)
              = (match nfitEntries bytes (pos + hdrLen bytes pos)
                    ((r' + 1 + (UP32 - hdrLen bytes pos)) % UP32) fe with
                | none => none
                | some l' => some (if hdrType bytes pos ≤ 7
                    then (hdrType bytes pos, pos) :: l' else l'))
              from by rw [nfitEntries]; rw [if_neg (by omega)]]
          rw [hmod, hrec2]
          by_cases ht : hdrType bytes pos ≤ 7
          · simp [ht, List.filter]
          · simp [ht, List.filter]
      · rw [if_neg hg] at hp
        cases hp

/-- C8 (amended): iteration terminates (fuel equal to the declared
remaining length suffices) and behaves as the claim says — advancing each
step by the entry's declared header length, skipping types outside 0–7
and stopping exactly when the remaining length is exhausted — *provided*
the table body is well-formed: every entry's declared length is nonzero
and no larger than the remaining length (`nfitParse` succeeds).  A
zero-length entry makes the iteration spin forever (see the
counterexample), and an overlong length wraps the u32 remaining-length
counter instead of stopping. -/
theorem c8_amended (bytes : List Nat) (pos remaining : Nat)
    (pl : List (Nat × Nat × Nat)) (h32 : remaining < UP32)
    (hp : nfitParse bytes pos remaining remaining = some pl) :
    nfitEntries bytes pos remaining remaining =
      some ((pl.filter (fun e => e.2.1 ≤ 7)).map (fun e => (e.2.1, e.1))) :=
  nfitEntries_of_parse bytes remaining h32 pos pl remaining remaining
    le_rfl le_rfl hp

theorem c8_amended_witness :
    nfitEntries [0, 0, 5, 0, 9, 9, 0, 4, 0] 0 9 9 =
      some ((([(0, 0, 5), (5, 9, 4)] : List (Nat × Nat × Nat)).filter
        (fun e => e.2.1 ≤ 7)).map (fun e => (e.2.1, e.1))) :=
  c8_amended [0, 0, 5, 0, 9, 9, 0, 4, 0] 0 9 [(0, 0, 5), (5, 9, 4)]
    (by norm_num [UP32]) rfl

theorem c10_amended_witness :
    vmAllocate 4096 ⟨[(8192, 4096)], []⟩ 0 0 = vmAllocate 4096 ⟨[(8192, 4096)], []⟩ 0 1 ∧
      ∃ a st', vmAllocate 4096 ⟨[(8192, 4096)], []⟩ 0 0 = .ok (some ⟨a, a + 4096⟩, st') ∧
        st'.maps = [] ++ [(a, 0)] :=
  c10_amended 4096 ⟨[(8192, 4096)], []⟩ 0 (Or.inl rfl) (by decide)
    ⟨(8192, 4096), by decide, by decide⟩ (by decide)

end BlogOs
